import Mathlib

/-!
# systemcraft: the C math interpreter (lexer, parser, evaluator) and the arena allocator

A shallow embedding of `src/content/examples/math-interpreter-c` and of
`src/content/examples/arena-allocator-c` in Lean 4.

Conventions of the embedding
* A C string is a `List Char`; reading `input[i]` at or past the end of the list gives the
  terminating NUL. Every `Char` stands for one C `char`.
* `Lexer.position` is an `int` in C; it is a `Nat` here (inputs longer than `INT_MAX` bytes
  are outside the model).
* `double` is IEEE 754 binary64 with round-to-nearest-even, modelled exactly by `Double`.
* `ASTNode *` is `ASTPtr`; the NULL pointer is `ASTPtr.null`.
* `malloc` is modelled by an oracle (`Heap`): the list of outcomes of the coming calls.
* `const char **error` is an `Option String` slot that is passed in and out.
* The mutually recursive parser procedures and their `while` loops recurse on a fuel
  argument; `parse` supplies `3 * remaining + 3`, which is proved to be always enough.
* In the arena allocator `size_t` and `uintptr_t` values are naturals below `2 ^ w`, every
  operation on them is taken modulo `2 ^ w`, and a pointer is its address, 0 for NULL.
-/

namespace MathInterp

/-! ## IEEE 754 binary64 -/

/-- A binary64 value: NaN, a signed infinity, or the finite number `(-1)^neg * m * 2^e`.
Values produced by the operations below are in canonical form: `m < 2^53`, `-1074 ≤ e ≤ 971`
and (`2^52 ≤ m` or `e = -1074`). -/
inductive Double where
  | nan : Double
  | inf (neg : Bool) : Double
  | fin (neg : Bool) (m : Nat) (e : Int) : Double
  deriving DecidableEq, Repr

/-- Number of binary digits of `n`, computed with `fuel` halvings. -/
def bitLenAux : Nat → Nat → Nat
  | 0, _ => 0
  | fuel + 1, n => if n = 0 then 0 else bitLenAux fuel (n / 2) + 1

/-- Number of binary digits of `n` (`0` for `0`). -/
def bitLen (n : Nat) : Nat := bitLenAux n n

namespace Double

/-- Signed zero. -/
def zero (neg : Bool) : Double := .fin neg 0 (-1074)

/-- The binary64 value with sign `neg`, integer significand `m ≤ 2^53` and exponent `e`:
a significand that rounding carried up to `2^53` is renormalised, and a value at or above
`2^1024` overflows to infinity. -/
def pack (neg : Bool) (m : Nat) (e : Int) : Double :=
  let m1 := if m = 2 ^ 53 then 2 ^ 52 else m
  let e1 : Int := if m = 2 ^ 53 then e + 1 else e
  if 971 < e1 then .inf neg else .fin neg m1 e1

/-- Correct rounding (to nearest, ties to even) of the exact value `(-1)^neg * num / den`
to binary64, with gradual underflow and overflow to infinity. -/
def round (neg : Bool) (num den : Nat) : Double :=
  if num = 0 ∨ den = 0 then zero neg
  else
    let s0 : Int := max ((bitLen num : Int) - (bitLen den : Int) - 53) (-1074)
    let q0 := (num * 2 ^ (-s0).toNat) / (den * 2 ^ s0.toNat)
    let s : Int := if q0 < 2 ^ 53 then s0 else s0 + 1
    let n := num * 2 ^ (-s).toNat
    let d := den * 2 ^ s.toNat
    let q := n / d
    let r := n % d
    let m := if d < 2 * r ∨ (2 * r = d ∧ q % 2 = 1) then q + 1 else q
    pack neg m s

/-- The conversion `(double)n` of a natural number. -/
def ofNat (n : Nat) : Double := round false n 1

/-- Unary minus. -/
def neg : Double → Double
  | .nan => .nan
  | .inf s => .inf (!s)
  | .fin s m e => .fin (!s) m e

/-- IEEE addition. -/
def add : Double → Double → Double
  | .nan, _ => .nan
  | _, .nan => .nan
  | .inf a, .inf b => if a = b then .inf a else .nan
  | .inf a, .fin _ _ _ => .inf a
  | .fin _ _ _, .inf b => .inf b
  | .fin s1 m1 e1, .fin s2 m2 e2 =>
    let e := min e1 e2
    let a : Int := m1 * 2 ^ (e1 - e).toNat
    let b : Int := m2 * 2 ^ (e2 - e).toNat
    let sum : Int := (if s1 then -a else a) + (if s2 then -b else b)
    if sum = 0 then zero (s1 && s2)
    else round (decide (sum < 0)) (sum.natAbs * 2 ^ e.toNat) (2 ^ (-e).toNat)

/-- IEEE subtraction. -/
def sub (x y : Double) : Double := add x (neg y)

/-- IEEE multiplication. -/
def mul : Double → Double → Double
  | .nan, _ => .nan
  | _, .nan => .nan
  | .inf a, .inf b => .inf (xor a b)
  | .inf a, .fin s m _ => if m = 0 then .nan else .inf (xor a s)
  | .fin s m _, .inf b => if m = 0 then .nan else .inf (xor s b)
  | .fin s1 m1 e1, .fin s2 m2 e2 =>
    round (xor s1 s2) (m1 * m2 * 2 ^ (e1 + e2).toNat) (2 ^ (-(e1 + e2)).toNat)

/-- IEEE division. -/
def div : Double → Double → Double
  | .nan, _ => .nan
  | _, .nan => .nan
  | .inf _, .inf _ => .nan
  | .inf a, .fin s _ _ => .inf (xor a s)
  | .fin s _ _, .inf b => zero (xor s b)
  | .fin s1 m1 e1, .fin s2 m2 e2 =>
    if m2 = 0 then (if m1 = 0 then .nan else .inf (xor s1 s2))
    else round (xor s1 s2) (m1 * 2 ^ (e1 - e2).toNat) (m2 * 2 ^ (e2 - e1).toNat)

/-- The C comparison `x == 0.0`: true for `+0` and `-0` only. -/
def isZero : Double → Bool
  | .fin _ m _ => m = 0
  | _ => false

/-- The value is neither NaN nor an infinity. -/
def isFinite : Double → Bool
  | .fin _ _ _ => true
  | _ => false

/-- The value is an infinity. -/
def isInf : Double → Bool
  | .inf _ => true
  | _ => false

/-- The value is a NaN. -/
def isNaN : Double → Bool
  | .nan => true
  | _ => false

end Double

/-! ## `strtod` (C standard library)

C11 7.22.1.3: the subject sequence is the longest initial subsequence of the input that has
the expected form, here a decimal or hexadecimal floating constant (`read_number` calls
`strtod` on a digit or `.`, so leading white space, a sign, `inf` and `nan` cannot occur);
it is converted with correct rounding; when no initial subsequence has the expected form no
conversion is performed, the value is zero and `endptr` is the start. -/

/-- Value of a decimal digit. -/
def decDigit (c : Char) : Option Nat :=
  if '0' ≤ c ∧ c ≤ '9' then some (c.toNat - '0'.toNat) else none

/-- Value of a hexadecimal digit. -/
def hexDigit (c : Char) : Option Nat :=
  if '0' ≤ c ∧ c ≤ '9' then some (c.toNat - '0'.toNat)
  else if 'a' ≤ c ∧ c ≤ 'f' then some (c.toNat - 'a'.toNat + 10)
  else if 'A' ≤ c ∧ c ≤ 'F' then some (c.toNat - 'A'.toNat + 10)
  else none

/-- Scan the maximal run of digits: returns the accumulated value (starting from `acc`),
the number of digits read, and the rest of the input. -/
def scanDigits (digit : Char → Option Nat) (base : Nat) : List Char → Nat → Nat × Nat × List Char
  | [], acc => (acc, 0, [])
  | c :: cs, acc =>
    match digit c with
    | some d =>
      let r := scanDigits digit base cs (acc * base + d)
      (r.1, r.2.1 + 1, r.2.2)
    | none => (acc, 0, c :: cs)

/-- A scanned significand `digits [. digits]`. -/
structure Mantissa where
  /-- all digits read as one integer -/
  value : Nat
  /-- number of digits after the radix character -/
  fracDigits : Nat
  /-- total number of digits -/
  digits : Nat
  /-- what follows -/
  rest : List Char

/-- Scan `digits [. digits]` in the given base. -/
def scanMantissa (digit : Char → Option Nat) (base : Nat) (s : List Char) : Mantissa :=
  let i := scanDigits digit base s 0
  match i.2.2 with
  | '.' :: r =>
    let f := scanDigits digit base r i.1
    ⟨f.1, f.2.1, i.2.1 + f.2.1, f.2.2⟩
  | _ => ⟨i.1, 0, i.2.1, i.2.2⟩

/-- An exponent part that makes up the whole of its argument: the marker, an optional sign,
a nonempty run of decimal digits. Returns the exponent. -/
def exponentPart (lower upper : Char) : List Char → Option Int
  | [] => none
  | c :: rest =>
    if c = lower ∨ c = upper then
      match rest with
      | '+' :: r =>
        let d := scanDigits decDigit 10 r 0
        if d.2.1 ≠ 0 ∧ d.2.2 = [] then some (d.1 : Int) else none
      | '-' :: r =>
        let d := scanDigits decDigit 10 r 0
        if d.2.1 ≠ 0 ∧ d.2.2 = [] then some (-(d.1 : Int)) else none
      | _ =>
        let d := scanDigits decDigit 10 rest 0
        if d.2.1 ≠ 0 ∧ d.2.2 = [] then some (d.1 : Int) else none
    else none

/-- The value `m * base^x` rounded to binary64 (`x` may be negative). -/
def scaled (m base : Nat) (x : Int) : Double :=
  Double.round false (m * base ^ x.toNat) (base ^ (-x).toNat)

/-- The value of `w` when the whole of `w` is a decimal floating constant
`digits [. digits] [(e|E) [sign] digits]` with at least one digit in the significand. -/
def decimalConstant (w : List Char) : Option Double :=
  let m := scanMantissa decDigit 10 w
  if m.digits = 0 then none
  else if m.rest = [] then some (scaled m.value 10 (-(m.fracDigits : Int)))
  else
    match exponentPart 'e' 'E' m.rest with
    | some x => some (scaled m.value 10 (x - m.fracDigits))
    | none => none

/-- The value of `w` when the whole of `w` is a hexadecimal floating constant
`0(x|X) hexdigits [. hexdigits] [(p|P) [sign] digits]` with at least one hexadecimal
digit. -/
def hexConstant (w : List Char) : Option Double :=
  match w with
  | '0' :: x :: body =>
    if x = 'x' ∨ x = 'X' then
      let m := scanMantissa hexDigit 16 body
      if m.digits = 0 then none
      else if m.rest = [] then some (scaled m.value 2 (-(4 * m.fracDigits : Int)))
      else
        match exponentPart 'p' 'P' m.rest with
        | some x => some (scaled m.value 2 (x - 4 * m.fracDigits))
        | none => none
    else none
  | _ => none

/-- The value of `w` when the whole of `w` has the expected form. -/
def floatConstant (w : List Char) : Option Double :=
  match hexConstant w with
  | some v => some v
  | none => decimalConstant w

/-- The longest prefix of `s` of length at most `k` that has the expected form: its value
and its length, or `(0.0, 0)` when there is none. -/
def strtodUpTo (s : List Char) : Nat → Double × Nat
  | 0 => (Double.zero false, 0)
  | k + 1 =>
    match floatConstant (s.take (k + 1)) with
    | some v => (v, k + 1)
    | none => strtodUpTo s k

/-- The C library function `strtod`: the value converted and `endptr - nptr`. -/
def strtod (s : List Char) : Double × Nat := strtodUpTo s s.length

/-! ## token.h, lexer.h, lexer.c -/

/-- The C enum `TokenType`. -/
inductive TokenType where
  | NUMBER | PLUS | MINUS | MULTIPLY | DIVIDE | LPAREN | RPAREN | END | ERROR
  deriving DecidableEq, Repr

/-- The C struct `Token`. -/
structure Token where
  type : TokenType
  value : Double
  deriving DecidableEq, Repr

/-- The C struct `Lexer`. -/
structure Lexer where
  input : List Char
  position : Nat
  deriving DecidableEq, Repr

/-- The C function `lexer_init`. -/
def lexer_init (input : List Char) : Lexer := ⟨input, 0⟩

/-- The character `lexer->input[lexer->position]`; the terminating NUL past the end. -/
def Lexer.cur (lexer : Lexer) : Char := lexer.input.getD lexer.position '\x00'

/-- The C library predicate `isspace` in the "C" locale. -/
def isspace (c : Char) : Bool :=
  c = ' ' ∨ c = '\t' ∨ c = '\n' ∨ c = '\x0b' ∨ c = '\x0c' ∨ c = '\r'

/-- The C library predicate `isdigit`. -/
def isdigit (c : Char) : Bool := '0' ≤ c ∧ c ≤ '9'

/-- The loop of `skip_whitespace`, unrolled at most `fuel` times. -/
def skip_whitespace_loop : Nat → Lexer → Lexer
  | 0, lexer => lexer
  | fuel + 1, lexer =>
    if isspace lexer.cur then skip_whitespace_loop fuel { lexer with position := lexer.position + 1 }
    else lexer

/-- The C function `skip_whitespace`. The loop stops at the terminating NUL at the latest,
so `input.length - position` iterations are all it can make. -/
def skip_whitespace (lexer : Lexer) : Lexer :=
  skip_whitespace_loop (lexer.input.length - lexer.position) lexer

/-- The C function `read_number`. -/
def read_number (lexer : Lexer) : Token × Lexer :=
  let r := strtod (lexer.input.drop lexer.position)
  (⟨.NUMBER, r.1⟩, { lexer with position := lexer.position + r.2 })

/-- The C function `lexer_next_token`: the token and the lexer after the call. -/
def lexer_next_token (lexer : Lexer) : Token × Lexer :=
  let lexer := skip_whitespace lexer
  let current := lexer.cur
  if current = '\x00' then (⟨.END, Double.zero false⟩, lexer)
  else if isdigit current ∨ current = '.' then read_number lexer
  else
    let lexer := { lexer with position := lexer.position + 1 }
    if current = '+' then (⟨.PLUS, Double.zero false⟩, lexer)
    else if current = '-' then (⟨.MINUS, Double.zero false⟩, lexer)
    else if current = '*' then (⟨.MULTIPLY, Double.zero false⟩, lexer)
    else if current = '/' then (⟨.DIVIDE, Double.zero false⟩, lexer)
    else if current = '(' then (⟨.LPAREN, Double.zero false⟩, lexer)
    else if current = ')' then (⟨.RPAREN, Double.zero false⟩, lexer)
    else (⟨.ERROR, Double.zero false⟩, lexer)

/-! ## parser.h, parser.c -/

/-- A value of type `ASTNode *`: NULL, or a pointer to a `NODE_NUMBER` node, or a pointer to
a `NODE_BINARY_OP` node with its operator tag and its two child pointers. -/
inductive ASTPtr where
  | null : ASTPtr
  | number (value : Double) : ASTPtr
  | binary_op (operator : TokenType) (left right : ASTPtr) : ASTPtr
  deriving DecidableEq, Repr

/-- The C test `!node`. -/
def ASTPtr.isNull : ASTPtr → Bool
  | .null => true
  | _ => false

/-- The allocator as seen by the parser: the outcomes of the coming `malloc` calls, in
order (`true` for a block, `false` for NULL); once the list is used up every call succeeds. -/
abbrev Heap := List Bool

/-- One `malloc(sizeof(ASTNode))` call: whether it returned a block, and the heap after. -/
def malloc : Heap → Bool × Heap
  | [] => (true, [])
  | b :: rest => (b, rest)

/-- The C struct `Parser`, with the slot `*parser->error` by value and the allocator state
that the parser's `malloc` calls act on. -/
structure Parser where
  lexer : Lexer
  current : Token
  error : Option String
  heap : Heap
  deriving DecidableEq, Repr

/-- The C function `advance`. -/
def advance (parser : Parser) : Parser :=
  let r := lexer_next_token parser.lexer
  { parser with lexer := r.2, current := r.1 }

/-- The C function `create_number_node`. -/
def create_number_node (value : Double) (heap : Heap) : ASTPtr × Heap :=
  let r := malloc heap
  if r.1 then (.number value, r.2) else (.null, r.2)

/-- The C function `create_binary_op_node` (on failure it frees both subtrees). -/
def create_binary_op_node (op : TokenType) (left right : ASTPtr) (heap : Heap) : ASTPtr × Heap :=
  let r := malloc heap
  if r.1 then (.binary_op op left right, r.2) else (.null, r.2)

mutual

/-- The C function `parse_expression`; `none` when the fuel runs out. -/
def parse_expression : Nat → Parser → Option (ASTPtr × Parser)
  | 0, _ => none
  | fuel + 1, parser =>
    match parse_term fuel parser with
    | none => none
    | some (node, parser) =>
      if node.isNull then some (.null, parser)
      else parse_expression_loop fuel node parser

/-- The `while` loop of `parse_expression`, entered with the tree built so far. -/
def parse_expression_loop : Nat → ASTPtr → Parser → Option (ASTPtr × Parser)
  | 0, _, _ => none
  | fuel + 1, node, parser =>
    if parser.current.type = .PLUS ∨ parser.current.type = .MINUS then
      let op := parser.current.type
      let parser := advance parser
      match parse_term fuel parser with
      | none => none
      | some (right, parser) =>
        if right.isNull then some (.null, parser)
        else
          let r := create_binary_op_node op node right parser.heap
          if r.1.isNull then
            some (.null, { parser with heap := r.2, error := some "Out of memory" })
          else parse_expression_loop fuel r.1 { parser with heap := r.2 }
    else some (node, parser)

/-- The C function `parse_term`; `none` when the fuel runs out. -/
def parse_term : Nat → Parser → Option (ASTPtr × Parser)
  | 0, _ => none
  | fuel + 1, parser =>
    match parse_factor fuel parser with
    | none => none
    | some (node, parser) =>
      if node.isNull then some (.null, parser)
      else parse_term_loop fuel node parser

/-- The `while` loop of `parse_term`, entered with the tree built so far. -/
def parse_term_loop : Nat → ASTPtr → Parser → Option (ASTPtr × Parser)
  | 0, _, _ => none
  | fuel + 1, node, parser =>
    if parser.current.type = .MULTIPLY ∨ parser.current.type = .DIVIDE then
      let op := parser.current.type
      let parser := advance parser
      match parse_factor fuel parser with
      | none => none
      | some (right, parser) =>
        if right.isNull then some (.null, parser)
        else
          let r := create_binary_op_node op node right parser.heap
          if r.1.isNull then
            some (.null, { parser with heap := r.2, error := some "Out of memory" })
          else parse_term_loop fuel r.1 { parser with heap := r.2 }
    else some (node, parser)

/-- The C function `parse_factor`; `none` when the fuel runs out. -/
def parse_factor : Nat → Parser → Option (ASTPtr × Parser)
  | 0, _ => none
  | fuel + 1, parser =>
    let token := parser.current
    if token.type = .NUMBER then
      let parser := advance parser
      let r := create_number_node token.value parser.heap
      some (r.1, { parser with heap := r.2 })
    else if token.type = .LPAREN then
      let parser := advance parser
      match parse_expression fuel parser with
      | none => none
      | some (node, parser) =>
        if node.isNull then some (.null, parser)
        else if parser.current.type ≠ .RPAREN then
          some (.null, { parser with error := some "Expected ')'" })
        else some (node, advance parser)
    else some (.null, { parser with error := some "Expected number or '('" })

end

/-- The fuel `parse` gives to `parse_expression`: three calls per remaining character and
three more. -/
def parseFuel (lexer : Lexer) : Nat := 3 * (lexer.input.length - lexer.position) + 3

/-- The C function `parse`: the returned pointer and the final parser state (its `lexer`,
`error` and `heap` fields are what the caller sees of `*lexer`, `*error` and the allocator).
`none` only if the fuel ran out, which never happens (`parse_total`). -/
def parse (lexer : Lexer) (error : Option String) (heap : Heap) : Option (ASTPtr × Parser) :=
  let parser : Parser := ⟨lexer, ⟨.ERROR, Double.zero false⟩, error, heap⟩
  let parser := advance parser
  match parse_expression (parseFuel lexer) parser with
  | none => none
  | some (ast, parser) =>
    if ast.isNull then some (.null, parser)
    else if parser.current.type ≠ .END then
      some (.null, { parser with error := some "Unexpected token after expression" })
    else some (ast, parser)

/-! ## evaluator.c -/

/-- The C function `evaluate`: the returned double and the error slot after the call. -/
def evaluate : ASTPtr → Option String → Double × Option String
  | .null, _ => (Double.zero false, some "Invalid AST node")
  | .number value, error => (value, error)
  | .binary_op operator l r, error =>
    let left := evaluate l error
    if left.2.isSome then (Double.zero false, left.2)
    else
      let right := evaluate r left.2
      if right.2.isSome then (Double.zero false, right.2)
      else
        match operator with
        | .PLUS => (Double.add left.1 right.1, right.2)
        | .MINUS => (Double.sub left.1 right.1, right.2)
        | .MULTIPLY => (Double.mul left.1 right.1, right.2)
        | .DIVIDE =>
          if right.1.isZero then (Double.zero false, some "Division by zero")
          else (Double.div left.1 right.1, right.2)
        | _ => (Double.zero false, some "Invalid operator")

/-! ## main.c -/

/-- What `main` does with one expression: the text after the prefix on stderr, or the
number handed to `printf("%g\n", ...)`. -/
inductive Outcome where
  | parse_error (message : Option String) : Outcome
  | evaluation_error (message : String) : Outcome
  | result (value : Double) : Outcome
  deriving DecidableEq, Repr

/-- The C function `main` called with one argument, `argv[1] = input`, and the allocator
`heap`: what it reports (exit status 1 for the two errors, 0 for a result). `none` only if
the parser ran out of fuel, which never happens. -/
def main (input : List Char) (heap : Heap) : Option Outcome :=
  let lexer := lexer_init input
  match parse lexer none heap with
  | none => none
  | some (ast, parser) =>
    if ast.isNull then some (.parse_error parser.error)
    else
      let r := evaluate ast parser.error
      match r.2 with
      | some message => some (.evaluation_error message)
      | none => some (.result r.1)

/-! ## Notions used to state the properties -/

/-- Number of characters between the cursor and the end of the input. -/
def Lexer.remaining (lexer : Lexer) : Nat := lexer.input.length - lexer.position

/-- Termination measure of the parser: the characters left, plus one when the lookahead is a
token that took a character of its own (anything but `NUMBER` and `END`). -/
def Parser.weight (parser : Parser) : Nat :=
  parser.lexer.remaining +
    (if parser.current.type = .NUMBER ∨ parser.current.type = .END then 0 else 1)

/-- The parser state with which `parse` calls `parse_expression`: the first token fetched. -/
def parse_start (lexer : Lexer) (error : Option String) (heap : Heap) : Parser :=
  advance ⟨lexer, ⟨.ERROR, Double.zero false⟩, error, heap⟩

/-- A C string literal as the list of its characters. -/
abbrev cstr (s : String) : List Char := s.toList

/-- A token without a value, as the lexer returns it. -/
def Token.op (type : TokenType) : Token := ⟨type, Double.zero false⟩

/-- A `NUMBER` token. -/
def Token.num (value : Double) : Token := ⟨.NUMBER, value⟩

/-- The tokens returned by the first `n` successive `lexer_next_token` calls. -/
def lexTokens : Nat → Lexer → List Token
  | 0, _ => []
  | n + 1, lexer => (lexer_next_token lexer).1 :: lexTokens n (lexer_next_token lexer).2

/-- Successive `lexer_next_token` calls on `lexer` return the tokens `ts`, in this order. -/
def LexYields (lexer : Lexer) (ts : List Token) : Prop := lexTokens ts.length lexer = ts

instance (lexer : Lexer) (ts : List Token) : Decidable (LexYields lexer ts) :=
  inferInstanceAs (Decidable (lexTokens ts.length lexer = ts))

/-- The parser has `ts` ahead: its lookahead is the first token of `ts` and its lexer
yields the others. -/
def Parser.Sees (parser : Parser) : List Token → Prop
  | [] => True
  | t :: ts => parser.current = t ∧ LexYields parser.lexer ts

/-- Every coming `malloc` call succeeds. -/
def AllocSucceeds (heap : Heap) : Prop := ∀ b ∈ heap, b = true

instance (heap : Heap) : Decidable (AllocSucceeds heap) :=
  inferInstanceAs (Decidable (∀ b ∈ heap, b = true))

/-- The nonterminals of the grammar of the parser, the two repetition parts carrying the
tree built so far. -/
inductive Sym where
  | factor | term | expression
  | term_rest (acc : ASTPtr)
  | expression_rest (acc : ASTPtr)

/-- The grammar
`expression = term (('+'|'-') term)*`, `term = factor (('*'|'/') factor)*`,
`factor = NUMBER | '(' expression ')'`
with the tree each phrase stands for: every repetition makes the tree built so far the left
child of a new binary-operation node. -/
inductive Derives : Sym → List Token → ASTPtr → Prop
  | number (v : Double) : Derives .factor [Token.num v] (.number v)
  | paren {ts : List Token} {t : ASTPtr} :
    Derives .expression ts t →
    Derives .factor (Token.op .LPAREN :: (ts ++ [Token.op .RPAREN])) t
  | term {ts rest : List Token} {t r : ASTPtr} :
    Derives .factor ts t → Derives (.term_rest t) rest r → Derives .term (ts ++ rest) r
  | term_done {acc : ASTPtr} : Derives (.term_rest acc) [] acc
  | term_more {acc : ASTPtr} {op : TokenType} {ts rest : List Token} {t r : ASTPtr} :
    (op = .MULTIPLY ∨ op = .DIVIDE) → Derives .factor ts t →
    Derives (.term_rest (.binary_op op acc t)) rest r →
    Derives (.term_rest acc) (Token.op op :: (ts ++ rest)) r
  | expression {ts rest : List Token} {t r : ASTPtr} :
    Derives .term ts t → Derives (.expression_rest t) rest r →
    Derives .expression (ts ++ rest) r
  | expression_done {acc : ASTPtr} : Derives (.expression_rest acc) [] acc
  | expression_more {acc : ASTPtr} {op : TokenType} {ts rest : List Token} {t r : ASTPtr} :
    (op = .PLUS ∨ op = .MINUS) → Derives .term ts t →
    Derives (.expression_rest (.binary_op op acc t)) rest r →
    Derives (.expression_rest acc) (Token.op op :: (ts ++ rest)) r

/-- The parser procedure for a nonterminal. -/
def Sym.run : Sym → Nat → Parser → Option (ASTPtr × Parser)
  | .factor, f, p => parse_factor f p
  | .term, f, p => parse_term f p
  | .expression, f, p => parse_expression f p
  | .term_rest acc, f, p => parse_term_loop f acc p
  | .expression_rest acc, f, p => parse_expression_loop f acc p

/-- The tokens that may follow a phrase of the nonterminal without continuing it. -/
def Sym.Follow : Sym → TokenType → Prop
  | .factor, _ => True
  | .term, ty => ty ≠ .MULTIPLY ∧ ty ≠ .DIVIDE
  | .term_rest _, ty => ty ≠ .MULTIPLY ∧ ty ≠ .DIVIDE
  | .expression, ty => ty ≠ .PLUS ∧ ty ≠ .MINUS ∧ ty ≠ .MULTIPLY ∧ ty ≠ .DIVIDE
  | .expression_rest _, ty => ty ≠ .PLUS ∧ ty ≠ .MINUS ∧ ty ≠ .MULTIPLY ∧ ty ≠ .DIVIDE

/-- The tree a repetition part starts from is a node. -/
def Sym.AccOk : Sym → Prop
  | .term_rest acc => acc.isNull = false
  | .expression_rest acc => acc.isNull = false
  | _ => True

/-- The tokens `op1 n1 ... opk nk` of a chain of operators and numbers. -/
def chainTokens : List (TokenType × Double) → List Token
  | [] => []
  | x :: rest => Token.op x.1 :: Token.num x.2 :: chainTokens rest

/-- The left fold `BinaryOp(opk, ... BinaryOp(op1, t, n1) ..., nk)`. -/
def leftFold (t : ASTPtr) : List (TokenType × Double) → ASTPtr
  | [] => t
  | x :: rest => leftFold (.binary_op x.1 t (.number x.2)) rest

/-- An invocation of one of the parser procedures (or of one of the two loops with the tree
built so far), with its fuel and the parser state on entry. -/
inductive Call where
  | expression (fuel : Nat) (parser : Parser)
  | expression_loop (fuel : Nat) (node : ASTPtr) (parser : Parser)
  | term (fuel : Nat) (parser : Parser)
  | term_loop (fuel : Nat) (node : ASTPtr) (parser : Parser)
  | factor (fuel : Nat) (parser : Parser)

/-- What an invocation returns. -/
def Call.result : Call → Option (ASTPtr × Parser)
  | .expression f p => parse_expression f p
  | .expression_loop f node p => parse_expression_loop f node p
  | .term f p => parse_term f p
  | .term_loop f node p => parse_term_loop f node p
  | .factor f p => parse_factor f p

/-- The body of the invocation on the left makes the invocation on the right: each rule is
one call site of `parser.c` (entering a loop or going round it counts as a call), with the
conditions under which control gets there. -/
inductive Invokes : Call → Call → Prop
  | expression_term (f : Nat) (p : Parser) :
    Invokes (.expression (f + 1) p) (.term f p)
  | expression_loop (f : Nat) (p : Parser) (node : ASTPtr) (q : Parser) :
    parse_term f p = some (node, q) → node.isNull = false →
    Invokes (.expression (f + 1) p) (.expression_loop f node q)
  | expression_loop_term (f : Nat) (node : ASTPtr) (p : Parser) :
    (p.current.type = .PLUS ∨ p.current.type = .MINUS) →
    Invokes (.expression_loop (f + 1) node p) (.term f (advance p))
  | expression_loop_again (f : Nat) (node : ASTPtr) (p : Parser) (right : ASTPtr)
      (q : Parser) :
    (p.current.type = .PLUS ∨ p.current.type = .MINUS) →
    parse_term f (advance p) = some (right, q) → right.isNull = false →
    (create_binary_op_node p.current.type node right q.heap).1.isNull = false →
    Invokes (.expression_loop (f + 1) node p)
      (.expression_loop f (create_binary_op_node p.current.type node right q.heap).1
        { q with heap := (create_binary_op_node p.current.type node right q.heap).2 })
  | term_factor (f : Nat) (p : Parser) :
    Invokes (.term (f + 1) p) (.factor f p)
  | term_loop (f : Nat) (p : Parser) (node : ASTPtr) (q : Parser) :
    parse_factor f p = some (node, q) → node.isNull = false →
    Invokes (.term (f + 1) p) (.term_loop f node q)
  | term_loop_factor (f : Nat) (node : ASTPtr) (p : Parser) :
    (p.current.type = .MULTIPLY ∨ p.current.type = .DIVIDE) →
    Invokes (.term_loop (f + 1) node p) (.factor f (advance p))
  | term_loop_again (f : Nat) (node : ASTPtr) (p : Parser) (right : ASTPtr) (q : Parser) :
    (p.current.type = .MULTIPLY ∨ p.current.type = .DIVIDE) →
    parse_factor f (advance p) = some (right, q) → right.isNull = false →
    (create_binary_op_node p.current.type node right q.heap).1.isNull = false →
    Invokes (.term_loop (f + 1) node p)
      (.term_loop f (create_binary_op_node p.current.type node right q.heap).1
        { q with heap := (create_binary_op_node p.current.type node right q.heap).2 })
  | factor_expression (f : Nat) (p : Parser) :
    p.current.type = .LPAREN →
    Invokes (.factor (f + 1) p) (.expression f (advance p))

/-- The call of `parse_expression` that `parse` makes. -/
def parse_call (lexer : Lexer) (error : Option String) (heap : Heap) : Call :=
  .expression (parseFuel lexer) (parse_start lexer error heap)

/-- While running `parse`, control reaches the invocation `c`. -/
def Reaches (lexer : Lexer) (error : Option String) (heap : Heap) (c : Call) : Prop :=
  Relation.ReflTransGen Invokes (parse_call lexer error heap) c

/-- The trees the parser builds: no NULL child, one of the four operators in every
binary-operation node, and no NaN in a leaf. -/
inductive WellFormed : ASTPtr → Prop
  | number (v : Double) : v.isNaN = false → WellFormed (.number v)
  | binary_op (op : TokenType) (l r : ASTPtr) :
    (op = .PLUS ∨ op = .MINUS ∨ op = .MULTIPLY ∨ op = .DIVIDE) →
    WellFormed l → WellFormed r → WellFormed (.binary_op op l r)

/-- The arithmetic value of an expression tree: the IEEE operation of every node applied to
the values of its two subtrees, a division as IEEE division whatever the divisor is. This is
the value the expression denotes; it says nothing of errors. -/
def ASTPtr.arithValue : ASTPtr → Double
  | .null => Double.zero false
  | .number v => v
  | .binary_op .PLUS l r => Double.add l.arithValue r.arithValue
  | .binary_op .MINUS l r => Double.sub l.arithValue r.arithValue
  | .binary_op .MULTIPLY l r => Double.mul l.arithValue r.arithValue
  | .binary_op .DIVIDE l r => Double.div l.arithValue r.arithValue
  | .binary_op _ _ _ => Double.zero false

/-- The node is a division whose divisor has the value zero (`0.0` or `-0.0`). -/
def zeroDivisor (op : TokenType) (r : ASTPtr) : Bool :=
  op = .DIVIDE && r.arithValue.isZero

/-- The tree contains a division by zero: a division node whose divisor has the value
zero. -/
def ASTPtr.dividesByZero : ASTPtr → Bool
  | .null => false
  | .number _ => false
  | .binary_op op l r => l.dividesByZero || r.dividesByZero || zeroDivisor op r

/-- The tree contains an overflow: a literal beyond the range of `double`, which `strtod`
turned into an infinity, or an operation that is not a division by zero, whose two operands
have finite values and whose rounded result is an infinity. -/
def overflows : ASTPtr → Bool
  | .null => false
  | .number v => v.isInf
  | .binary_op op l r =>
    overflows l || overflows r ||
      (l.arithValue.isFinite && r.arithValue.isFinite && !zeroDivisor op r &&
        (ASTPtr.binary_op op l r).arithValue.isInf)

/-- The decimal literal of `10^309`, one followed by 309 zeros: digits only, and beyond the
largest finite `double` (about `1.8 * 10^308`). -/
def hugeLiteral : List Char := '1' :: List.replicate 309 '0'

/-- Number of white-space characters at the start of `s`. -/
def countSpaces : List Char → Nat
  | [] => 0
  | c :: cs => if isspace c then countSpaces cs + 1 else 0

/-- The token type of a character that is a token on its own (the `switch` of
`lexer_next_token`). -/
def charToken (c : Char) : TokenType :=
  if c = '+' then .PLUS
  else if c = '-' then .MINUS
  else if c = '*' then .MULTIPLY
  else if c = '/' then .DIVIDE
  else if c = '(' then .LPAREN
  else if c = ')' then .RPAREN
  else .ERROR

/-- The token at the start of `s`, which does not start with white space, and its
length. -/
def scanHead : List Char → Token × Nat
  | [] => (⟨.END, Double.zero false⟩, 0)
  | c :: rest =>
    if c = '\x00' then (⟨.END, Double.zero false⟩, 0)
    else if isdigit c ∨ c = '.' then (⟨.NUMBER, (strtod (c :: rest)).1⟩, (strtod (c :: rest)).2)
    else (⟨charToken c, Double.zero false⟩, 1)

/-- `lexer_next_token` as seen from the unread input `s`: the token returned and the number
of characters the cursor moves (the white space skipped and the token). -/
def scanToken (s : List Char) : Token × Nat :=
  ((scanHead (s.drop (countSpaces s))).1,
    countSpaces s + (scanHead (s.drop (countSpaces s))).2)

/-- The lexer after `k` calls of `lexer_next_token`. -/
def lexAfter : Nat → Lexer → Lexer
  | 0, lexer => lexer
  | k + 1, lexer => lexAfter k (lexer_next_token lexer).2

/-- Position `i` of `input` is a token boundary: for some `k` it lies between the cursor
after `k` tokens and the start of the next token (the white space between them, if any).
`k = 0` is the place before the first token; past the last token, that is the trailing
white space up to the end of the input. -/
def TokenBoundary (input : List Char) (i : Nat) : Prop :=
  ∃ k, (lexAfter k (lexer_init input)).position ≤ i ∧
    i ≤ (skip_whitespace (lexAfter k (lexer_init input))).position

/-- The characters that can occur in a decimal or hexadecimal floating constant. -/
def numChar (c : Char) : Bool :=
  (hexDigit c).isSome ∨ c = '.' ∨ c = 'x' ∨ c = 'X' ∨ c = 'p' ∨ c = 'P' ∨ c = '+' ∨ c = '-'

/-- The two lexers return the same tokens, call after call. -/
def SameTokens (l1 l2 : Lexer) : Prop := ∀ n, lexTokens n l1 = lexTokens n l2

/-- The two parser states differ at most in their lexers, which return the same tokens. -/
def Parser.Similar (p q : Parser) : Prop :=
  p.current = q.current ∧ p.error = q.error ∧ p.heap = q.heap ∧ SameTokens p.lexer q.lexer

/-- The two results are both out of fuel, or the same pointer with similar parser states. -/
def ResultSimilar : Option (ASTPtr × Parser) → Option (ASTPtr × Parser) → Prop
  | none, none => True
  | some r1, some r2 => r1.1 = r2.1 ∧ r1.2.Similar r2.2
  | _, _ => False

/-- The string on the right is the one on the left with runs of white space inserted, one
after the other, each at a token boundary. -/
inductive WhitespaceInserted : List Char → List Char → Prop
  | refl (s : List Char) : WhitespaceInserted s s
  | step {s : List Char} (pre ws post : List Char) :
    WhitespaceInserted s (pre ++ post) → (∀ c ∈ ws, isspace c = true) →
    TokenBoundary (pre ++ post) pre.length → WhitespaceInserted s (pre ++ ws ++ post)

/-- The shape of the trees the parser returns: a node, every binary-operation node with one
of the four operator tags and with both children present, down to the leaves. -/
def ASTPtr.wellShaped : ASTPtr → Bool
  | .null => false
  | .number _ => true
  | .binary_op op l r =>
    (op = .PLUS ∨ op = .MINUS ∨ op = .MULTIPLY ∨ op = .DIVIDE) && l.wellShaped && r.wellShaped

/-- The tokens of a fully parenthesised rendering of a tree. -/
def render : ASTPtr → List Token
  | .null => []
  | .number v => [Token.num v]
  | .binary_op op l r =>
    [Token.op .LPAREN] ++ render l ++ [Token.op op] ++ render r ++ [Token.op .RPAREN]

/-- The C library function `strlen`: the number of characters before the terminating NUL
(a NUL character in the list, or its end). -/
def strlen : List Char → Nat
  | [] => 0
  | c :: cs => if c = '\x00' then 0 else strlen cs + 1

/-- The unread part of the C string: the characters from the cursor up to the terminator. -/
def Lexer.unread (lexer : Lexer) : List Char :=
  (lexer.input.drop lexer.position).take (strlen (lexer.input.drop lexer.position))

end MathInterp

/-! # The arena allocator (`arena-allocator-c`)

`size_t` and `uintptr_t` are unsigned types of `w` bits: their values are the naturals
below `2 ^ w`, and every operation on them is taken modulo `2 ^ w`. An address is the value
of the pointer as `uintptr_t`; the null pointer is the address 0. -/

namespace ArenaAllocator

/-- Unsigned `a + b` on `w` bits. -/
def uadd (w a b : Nat) : Nat := (a + b) % 2 ^ w

/-- Unsigned `a - b` on `w` bits. -/
def usub (w a b : Nat) : Nat := (a + (2 ^ w - b % 2 ^ w)) % 2 ^ w

/-- Unsigned `~a` on `w` bits. -/
def unot (w a : Nat) : Nat := 2 ^ w - 1 - a % 2 ^ w

/-- The C struct `Arena`; `memory` is the address held by the pointer. -/
structure Arena where
  memory : Nat
  size : Nat
  offset : Nat
  deriving DecidableEq, Repr

/-- The C macro `ALIGN_UP(ptr, align)`:
`(((uintptr_t)(ptr) + (align) - 1) & ~((align) - 1))`. -/
def ALIGN_UP (w ptr align : Nat) : Nat :=
  Nat.land (usub w (uadd w ptr align) 1) (unot w (usub w align 1))

/-- The C macro `IS_POWER_OF_TWO(x)`: `((x) != 0 && ((x) & ((x) - 1)) == 0)`. -/
def IS_POWER_OF_TWO (w x : Nat) : Bool :=
  x ≠ 0 ∧ Nat.land x (usub w x 1) = 0

/-- The C macro `DEFAULT_ALIGNMENT`, `sizeof(void *)`: the bytes of a pointer of `w` bits,
a byte having 8. -/
def DEFAULT_ALIGNMENT (w : Nat) : Nat := w / 8

/-- The C function `arena_init`. -/
def arena_init (buffer size : Nat) : Arena := ⟨buffer, size, 0⟩

/-- The C function `arena_alloc_aligned`: the address returned (0 for NULL) and the arena
behind the pointer after the call; `none` is the call with `arena == NULL`. -/
def arena_alloc_aligned (w : Nat) (arena : Option Arena) (size alignment : Nat) :
    Nat × Option Arena :=
  match arena with
  | none => (0, none)
  | some a =>
    if a.memory = 0 then (0, some a)
    else if ¬ IS_POWER_OF_TWO w alignment then (0, some a)
    else
      let current_ptr := uadd w a.memory a.offset
      let aligned_ptr := ALIGN_UP w current_ptr alignment
      let alignment_padding := usub w aligned_ptr current_ptr
      let total_size := uadd w alignment_padding size
      if total_size < size then (0, some a)
      else
        let new_offset := uadd w a.offset total_size
        if new_offset > a.size then (0, some a)
        else (aligned_ptr, some { a with offset := new_offset })

/-- The C function `arena_alloc`. -/
def arena_alloc (w : Nat) (arena : Option Arena) (size : Nat) : Nat × Option Arena :=
  arena_alloc_aligned w arena size (DEFAULT_ALIGNMENT w)

/-- The C function `arena_reset`: the arena behind the pointer after the call. -/
def arena_reset (arena : Option Arena) : Option Arena :=
  match arena with
  | none => none
  | some a => some { a with offset := 0 }

/-- The C function `arena_space_remaining`. -/
def arena_space_remaining (arena : Option Arena) : Nat :=
  match arena with
  | none => 0
  | some a => if a.offset > a.size then 0 else a.size - a.offset

/-! ## Notions used to state the properties of the arena -/

/-- The alignment padding of a call, as `arena_alloc_aligned` computes it:
`aligned_ptr - current_ptr`. -/
def alignment_padding (w : Nat) (a : Arena) (alignment : Nat) : Nat :=
  usub w (ALIGN_UP w (uadd w a.memory a.offset) alignment) (uadd w a.memory a.offset)

/-- A call on an arena: `arena_alloc`, `arena_alloc_aligned` or `arena_reset`. -/
inductive ArenaCall where
  | alloc (size : Nat) : ArenaCall
  | alloc_aligned (size alignment : Nat) : ArenaCall
  | reset : ArenaCall
  deriving DecidableEq, Repr

/-- One call on the arena `a`: the address returned (`none` for `arena_reset`, which returns
nothing) and the arena after the call. -/
def ArenaCall.run (w : Nat) (a : Arena) : ArenaCall → Option Nat × Arena
  | .alloc size =>
    ((arena_alloc w (some a) size).1, ((arena_alloc w (some a) size).2).getD a)
  | .alloc_aligned size alignment =>
    ((arena_alloc_aligned w (some a) size alignment).1,
      ((arena_alloc_aligned w (some a) size alignment).2).getD a)
  | .reset => (none, ((arena_reset (some a))).getD a)

/-- The arena after a sequence of calls. -/
def runCalls (w : Nat) (a : Arena) : List ArenaCall → Arena
  | [] => a
  | c :: cs => runCalls w (c.run w a).2 cs

end ArenaAllocator

/-! # Properties -/

namespace MathInterp

/-! ## Lexer: the cursor only moves forward -/

theorem skip_whitespace_loop_input (fuel : Nat) (lexer : Lexer) :
    (skip_whitespace_loop fuel lexer).input = lexer.input := by
  induction fuel generalizing lexer with
  | zero => rfl
  | succ n ih =>
    unfold skip_whitespace_loop
    split
    · rw [ih]
    · rfl

theorem skip_whitespace_loop_position (fuel : Nat) (lexer : Lexer) :
    lexer.position ≤ (skip_whitespace_loop fuel lexer).position := by
  induction fuel generalizing lexer with
  | zero => exact Nat.le_refl _
  | succ n ih =>
    unfold skip_whitespace_loop
    split
    · exact Nat.le_trans (Nat.le_succ _) (ih ⟨lexer.input, lexer.position + 1⟩)
    · exact Nat.le_refl _

theorem skip_whitespace_input (lexer : Lexer) : (skip_whitespace lexer).input = lexer.input :=
  skip_whitespace_loop_input _ _

theorem skip_whitespace_position (lexer : Lexer) :
    lexer.position ≤ (skip_whitespace lexer).position :=
  skip_whitespace_loop_position _ _

theorem Lexer.cur_ne_nul_lt (lexer : Lexer) (h : lexer.cur ≠ '\x00') :
    lexer.position < lexer.input.length := by
  by_contra hlt
  apply h
  unfold Lexer.cur
  rw [List.getD_eq_default]
  omega

/-- The three ways `lexer_next_token` returns: `END` at the terminator (cursor left on it),
a number read by `read_number`, or a one-character token. -/
theorem lexer_next_token_cases (lexer : Lexer) :
    ((skip_whitespace lexer).cur = '\x00' ∧
      lexer_next_token lexer = (⟨.END, Double.zero false⟩, skip_whitespace lexer)) ∨
    ((skip_whitespace lexer).cur ≠ '\x00' ∧
      (isdigit (skip_whitespace lexer).cur ∨ (skip_whitespace lexer).cur = '.') ∧
      lexer_next_token lexer = read_number (skip_whitespace lexer)) ∨
    ((skip_whitespace lexer).cur ≠ '\x00' ∧
      ¬ (isdigit (skip_whitespace lexer).cur ∨ (skip_whitespace lexer).cur = '.') ∧
      ∃ ty : TokenType, ty ≠ .NUMBER ∧ ty ≠ .END ∧
        lexer_next_token lexer =
          (⟨ty, Double.zero false⟩,
            { skip_whitespace lexer with position := (skip_whitespace lexer).position + 1 })) := by
  unfold lexer_next_token
  by_cases h0 : (skip_whitespace lexer).cur = '\x00'
  · exact Or.inl ⟨h0, if_pos h0⟩
  · by_cases h1 : isdigit (skip_whitespace lexer).cur ∨ (skip_whitespace lexer).cur = '.'
    · exact Or.inr (Or.inl ⟨h0, h1, (if_neg h0).trans (if_pos h1)⟩)
    · refine Or.inr (Or.inr ⟨h0, h1, ?_⟩)
      show ∃ ty : TokenType, ty ≠ .NUMBER ∧ ty ≠ .END ∧ ite _ _ _ = _
      rw [if_neg h0, if_neg h1]
      repeat' split
      all_goals exact ⟨_, by decide, by decide, rfl⟩

theorem lexer_next_token_input (lexer : Lexer) :
    (lexer_next_token lexer).2.input = lexer.input := by
  rcases lexer_next_token_cases lexer with ⟨_, h⟩ | ⟨_, _, h⟩ | ⟨_, _, ty, _, _, h⟩ <;> rw [h]
  · exact skip_whitespace_input lexer
  · exact skip_whitespace_input lexer
  · exact skip_whitespace_input lexer

theorem lexer_next_token_position (lexer : Lexer) :
    lexer.position ≤ (lexer_next_token lexer).2.position := by
  have hp := skip_whitespace_position lexer
  rcases lexer_next_token_cases lexer with ⟨_, h⟩ | ⟨_, _, h⟩ | ⟨_, _, ty, _, _, h⟩ <;> rw [h]
  · exact hp
  · exact Nat.le_trans hp (Nat.le_add_right _ _)
  · exact Nat.le_trans hp (Nat.le_add_right _ _)

theorem lexer_next_token_remaining_le (lexer : Lexer) :
    (lexer_next_token lexer).2.remaining ≤ lexer.remaining := by
  have h1 := lexer_next_token_input lexer
  have h2 := lexer_next_token_position lexer
  unfold Lexer.remaining
  rw [h1]
  omega

theorem lexer_next_token_remaining_lt (lexer : Lexer)
    (hn : (lexer_next_token lexer).1.type ≠ .NUMBER)
    (he : (lexer_next_token lexer).1.type ≠ .END) :
    (lexer_next_token lexer).2.remaining + 1 ≤ lexer.remaining := by
  have hp := skip_whitespace_position lexer
  have hi := skip_whitespace_input lexer
  rcases lexer_next_token_cases lexer with ⟨_, h⟩ | ⟨_, _, h⟩ | ⟨h0, _, ty, _, _, h⟩
  · rw [h] at he; exact absurd rfl he
  · rw [h] at hn; exact absurd rfl hn
  · have hlt := Lexer.cur_ne_nul_lt _ h0
    rw [h]
    show (skip_whitespace lexer).input.length - ((skip_whitespace lexer).position + 1) + 1
      ≤ lexer.input.length - lexer.position
    rw [hi] at hlt ⊢
    omega

/-! ## Parser: the termination measure -/

theorem advance_weight_le (parser : Parser) :
    (advance parser).weight ≤ parser.lexer.remaining := by
  have h1 := lexer_next_token_remaining_le parser.lexer
  have h2 := lexer_next_token_remaining_lt parser.lexer
  show (lexer_next_token parser.lexer).2.remaining + ite _ 0 1 ≤ _
  split
  · omega
  · next h =>
    have := h2 (fun e => h (Or.inl e)) (fun e => h (Or.inr e))
    omega

theorem remaining_le_weight (parser : Parser) : parser.lexer.remaining ≤ parser.weight :=
  Nat.le_add_right _ _

theorem advance_weight (parser : Parser) : (advance parser).weight ≤ parser.weight :=
  Nat.le_trans (advance_weight_le parser) (remaining_le_weight parser)

theorem advance_weight_lt (parser : Parser) (hn : parser.current.type ≠ .NUMBER)
    (he : parser.current.type ≠ .END) : (advance parser).weight + 1 ≤ parser.weight := by
  have h := advance_weight_le parser
  have hw : parser.weight = parser.lexer.remaining + 1 := by
    unfold Parser.weight
    rw [if_neg (fun h => h.elim hn he)]
  omega

theorem advance_error (parser : Parser) : (advance parser).error = parser.error := rfl

theorem advance_heap (parser : Parser) : (advance parser).heap = parser.heap := rfl

/-! ## Parser: the fuel given by `parse` is enough -/

/-- With fuel above three times the measure (plus 1, 1, 2, 2, 3 for factor, term loop, term,
expression loop, expression) every parser procedure returns, and the measure does not grow. -/
theorem parse_fuel_enough (fuel : Nat) :
    (∀ p : Parser, 3 * p.weight + 1 ≤ fuel →
      ∃ n q, parse_factor fuel p = some (n, q) ∧ q.weight ≤ p.weight) ∧
    (∀ (node : ASTPtr) (p : Parser), 3 * p.weight + 1 ≤ fuel →
      ∃ n q, parse_term_loop fuel node p = some (n, q) ∧ q.weight ≤ p.weight) ∧
    (∀ p : Parser, 3 * p.weight + 2 ≤ fuel →
      ∃ n q, parse_term fuel p = some (n, q) ∧ q.weight ≤ p.weight) ∧
    (∀ (node : ASTPtr) (p : Parser), 3 * p.weight + 2 ≤ fuel →
      ∃ n q, parse_expression_loop fuel node p = some (n, q) ∧ q.weight ≤ p.weight) ∧
    (∀ p : Parser, 3 * p.weight + 3 ≤ fuel →
      ∃ n q, parse_expression fuel p = some (n, q) ∧ q.weight ≤ p.weight) := by
  induction fuel with
  | zero =>
    refine ⟨?_, ?_, ?_, ?_, ?_⟩ <;> intros <;> omega
  | succ f ih =>
    obtain ⟨ihF, ihTL, ihT, ihEL, ihE⟩ := ih
    refine ⟨?_, ?_, ?_, ?_, ?_⟩
    · -- parse_factor
      intro p hp
      rw [parse_factor]
      by_cases h1 : p.current.type = .NUMBER
      · rw [if_pos h1]
        exact ⟨_, _, rfl, advance_weight p⟩
      · rw [if_neg h1]
        by_cases h2 : p.current.type = .LPAREN
        · rw [if_pos h2]
          have hlt := advance_weight_lt p h1 (by rw [h2]; decide)
          obtain ⟨n, q, hq, hw⟩ := ihE (advance p) (by omega)
          simp only [hq]
          by_cases hn : n.isNull = true
          · rw [if_pos hn]
            exact ⟨_, _, rfl, by omega⟩
          · rw [if_neg hn]
            by_cases hr : q.current.type ≠ .RPAREN
            · rw [if_pos hr]
              exact ⟨_, _, rfl, (by omega : q.weight ≤ p.weight)⟩
            · rw [if_neg hr]
              exact ⟨_, _, rfl, Nat.le_trans (advance_weight q) (by omega)⟩
        · rw [if_neg h2]
          exact ⟨_, _, rfl, Nat.le_refl p.weight⟩
    · -- parse_term_loop
      intro node p hp
      rw [parse_term_loop]
      by_cases h1 : p.current.type = .MULTIPLY ∨ p.current.type = .DIVIDE
      · rw [if_pos h1]
        have hlt := advance_weight_lt p (by rcases h1 with h | h <;> rw [h] <;> decide)
          (by rcases h1 with h | h <;> rw [h] <;> decide)
        obtain ⟨n, q, hq, hw⟩ := ihF (advance p) (by omega)
        simp only [hq]
        by_cases hn : n.isNull = true
        · rw [if_pos hn]
          exact ⟨_, _, rfl, by omega⟩
        · rw [if_neg hn]
          by_cases hc : (create_binary_op_node p.current.type node n q.heap).1.isNull = true
          · rw [if_pos hc]
            exact ⟨_, _, rfl, (by omega : q.weight ≤ p.weight)⟩
          · rw [if_neg hc]
            obtain ⟨n2, q2, hq2, hw2⟩ := ihTL (create_binary_op_node p.current.type node n q.heap).1
              { q with heap := (create_binary_op_node p.current.type node n q.heap).2 }
              (by show 3 * q.weight + 1 ≤ f; omega)
            exact ⟨n2, q2, hq2, Nat.le_trans hw2 (by show q.weight ≤ p.weight; omega)⟩
      · rw [if_neg h1]
        exact ⟨_, _, rfl, Nat.le_refl _⟩
    · -- parse_term
      intro p hp
      rw [parse_term]
      obtain ⟨n, q, hq, hw⟩ := ihF p (by omega)
      simp only [hq]
      by_cases hn : n.isNull = true
      · rw [if_pos hn]
        exact ⟨_, _, rfl, hw⟩
      · rw [if_neg hn]
        obtain ⟨n2, q2, hq2, hw2⟩ := ihTL n q (by omega)
        exact ⟨n2, q2, hq2, Nat.le_trans hw2 hw⟩
    · -- parse_expression_loop
      intro node p hp
      rw [parse_expression_loop]
      by_cases h1 : p.current.type = .PLUS ∨ p.current.type = .MINUS
      · rw [if_pos h1]
        have hlt := advance_weight_lt p (by rcases h1 with h | h <;> rw [h] <;> decide)
          (by rcases h1 with h | h <;> rw [h] <;> decide)
        obtain ⟨n, q, hq, hw⟩ := ihT (advance p) (by omega)
        simp only [hq]
        by_cases hn : n.isNull = true
        · rw [if_pos hn]
          exact ⟨_, _, rfl, by omega⟩
        · rw [if_neg hn]
          by_cases hc : (create_binary_op_node p.current.type node n q.heap).1.isNull = true
          · rw [if_pos hc]
            exact ⟨_, _, rfl, (by omega : q.weight ≤ p.weight)⟩
          · rw [if_neg hc]
            obtain ⟨n2, q2, hq2, hw2⟩ := ihEL (create_binary_op_node p.current.type node n q.heap).1
              { q with heap := (create_binary_op_node p.current.type node n q.heap).2 }
              (by show 3 * q.weight + 2 ≤ f; omega)
            exact ⟨n2, q2, hq2, Nat.le_trans hw2 (by show q.weight ≤ p.weight; omega)⟩
      · rw [if_neg h1]
        exact ⟨_, _, rfl, Nat.le_refl _⟩
    · -- parse_expression
      intro p hp
      rw [parse_expression]
      obtain ⟨n, q, hq, hw⟩ := ihT p (by omega)
      simp only [hq]
      by_cases hn : n.isNull = true
      · rw [if_pos hn]
        exact ⟨_, _, rfl, hw⟩
      · rw [if_neg hn]
        obtain ⟨n2, q2, hq2, hw2⟩ := ihEL n q (by omega)
        exact ⟨n2, q2, hq2, Nat.le_trans hw2 hw⟩

/-! ## Parser: a result does not depend on the fuel -/

/-- One more unit of fuel does not change a result. -/
theorem parse_fuel_succ (fuel : Nat) :
    (∀ (p : Parser) r, parse_factor fuel p = some r → parse_factor (fuel + 1) p = some r) ∧
    (∀ (node : ASTPtr) (p : Parser) r, parse_term_loop fuel node p = some r →
      parse_term_loop (fuel + 1) node p = some r) ∧
    (∀ (p : Parser) r, parse_term fuel p = some r → parse_term (fuel + 1) p = some r) ∧
    (∀ (node : ASTPtr) (p : Parser) r, parse_expression_loop fuel node p = some r →
      parse_expression_loop (fuel + 1) node p = some r) ∧
    (∀ (p : Parser) r, parse_expression fuel p = some r →
      parse_expression (fuel + 1) p = some r) := by
  induction fuel with
  | zero =>
    refine ⟨?_, ?_, ?_, ?_, ?_⟩
    · intro p r h; rw [parse_factor] at h; exact absurd h (by simp)
    · intro node p r h; rw [parse_term_loop] at h; exact absurd h (by simp)
    · intro p r h; rw [parse_term] at h; exact absurd h (by simp)
    · intro node p r h; rw [parse_expression_loop] at h; exact absurd h (by simp)
    · intro p r h; rw [parse_expression] at h; exact absurd h (by simp)
  | succ f ih =>
    obtain ⟨ihF, ihTL, ihT, ihEL, ihE⟩ := ih
    refine ⟨?_, ?_, ?_, ?_, ?_⟩
    · -- parse_factor
      intro p r h
      rw [parse_factor] at h ⊢
      by_cases h1 : p.current.type = .NUMBER
      · rw [if_pos h1] at h ⊢; exact h
      · rw [if_neg h1] at h ⊢
        by_cases h2 : p.current.type = .LPAREN
        · rw [if_pos h2] at h ⊢
          dsimp only at h ⊢
          cases hq : parse_expression f (advance p) with
          | none => rw [hq] at h; exact absurd h (by simp)
          | some nq => rw [ihE _ _ hq]; rw [hq] at h; exact h
        · rw [if_neg h2] at h ⊢; exact h
    · -- parse_term_loop
      intro node p r h
      rw [parse_term_loop] at h ⊢
      by_cases h1 : p.current.type = .MULTIPLY ∨ p.current.type = .DIVIDE
      · rw [if_pos h1] at h ⊢
        dsimp only at h ⊢
        cases hq : parse_factor f (advance p) with
        | none => rw [hq] at h; exact absurd h (by simp)
        | some nq =>
          obtain ⟨n, q⟩ := nq
          rw [ihF _ _ hq]
          rw [hq] at h
          dsimp only at h ⊢
          by_cases hn : n.isNull = true
          · rw [if_pos hn] at h ⊢; exact h
          · rw [if_neg hn] at h ⊢
            by_cases hc : (create_binary_op_node p.current.type node n q.heap).1.isNull = true
            · rw [if_pos hc] at h ⊢; exact h
            · rw [if_neg hc] at h ⊢; exact ihTL _ _ _ h
      · rw [if_neg h1] at h ⊢; exact h
    · -- parse_term
      intro p r h
      rw [parse_term] at h ⊢
      cases hq : parse_factor f p with
      | none => rw [hq] at h; exact absurd h (by simp)
      | some nq =>
        obtain ⟨n, q⟩ := nq
        rw [ihF _ _ hq]
        rw [hq] at h
        dsimp only at h ⊢
        by_cases hn : n.isNull = true
        · rw [if_pos hn] at h ⊢; exact h
        · rw [if_neg hn] at h ⊢; exact ihTL _ _ _ h
    · -- parse_expression_loop
      intro node p r h
      rw [parse_expression_loop] at h ⊢
      by_cases h1 : p.current.type = .PLUS ∨ p.current.type = .MINUS
      · rw [if_pos h1] at h ⊢
        dsimp only at h ⊢
        cases hq : parse_term f (advance p) with
        | none => rw [hq] at h; exact absurd h (by simp)
        | some nq =>
          obtain ⟨n, q⟩ := nq
          rw [ihT _ _ hq]
          rw [hq] at h
          dsimp only at h ⊢
          by_cases hn : n.isNull = true
          · rw [if_pos hn] at h ⊢; exact h
          · rw [if_neg hn] at h ⊢
            by_cases hc : (create_binary_op_node p.current.type node n q.heap).1.isNull = true
            · rw [if_pos hc] at h ⊢; exact h
            · rw [if_neg hc] at h ⊢; exact ihEL _ _ _ h
      · rw [if_neg h1] at h ⊢; exact h
    · -- parse_expression
      intro p r h
      rw [parse_expression] at h ⊢
      cases hq : parse_term f p with
      | none => rw [hq] at h; exact absurd h (by simp)
      | some nq =>
        obtain ⟨n, q⟩ := nq
        rw [ihT _ _ hq]
        rw [hq] at h
        dsimp only at h ⊢
        by_cases hn : n.isNull = true
        · rw [if_pos hn] at h ⊢; exact h
        · rw [if_neg hn] at h ⊢; exact ihEL _ _ _ h

/-- More fuel does not change a result of `parse_expression`. -/
theorem parse_expression_fuel_le {f1 f2 : Nat} (hle : f1 ≤ f2) (p : Parser)
    (r : ASTPtr × Parser) (h : parse_expression f1 p = some r) :
    parse_expression f2 p = some r := by
  induction hle with
  | refl => exact h
  | step _ ih => exact (parse_fuel_succ _).2.2.2.2 _ _ ih

/-- Whatever fuel makes `parse_expression` return gives the result that `parse` computes
with its own fuel, when the measure of `p` is at most the characters left in `lexer`. -/
theorem parse_expression_parseFuel (lexer : Lexer) (p : Parser)
    (hw : p.weight ≤ lexer.remaining) (f : Nat) (r : ASTPtr × Parser)
    (h : parse_expression f p = some r) : parse_expression (parseFuel lexer) p = some r := by
  obtain ⟨n, q, hq, _⟩ := (parse_fuel_enough (parseFuel lexer)).2.2.2.2 p
    (by unfold parseFuel; unfold Lexer.remaining at hw; omega)
  rcases Nat.le_total f (parseFuel lexer) with hle | hle
  · exact parse_expression_fuel_le hle p r h
  · have := parse_expression_fuel_le hle p (n, q) hq
    rw [h] at this
    rw [hq, ← Option.some.inj this]

/-! ## `parse` in terms of `parse_expression` -/

theorem parse_start_weight (lexer : Lexer) (error : Option String) (heap : Heap) :
    (parse_start lexer error heap).weight ≤ lexer.remaining :=
  advance_weight_le ⟨lexer, ⟨.ERROR, Double.zero false⟩, error, heap⟩

/-- The result of `parse` from a result of `parse_expression` obtained with any fuel. -/
theorem parse_of_expression (lexer : Lexer) (error : Option String) (heap : Heap) (f : Nat)
    (ast : ASTPtr) (q : Parser)
    (h : parse_expression f (parse_start lexer error heap) = some (ast, q)) :
    parse lexer error heap =
      if ast.isNull then some (.null, q)
      else if q.current.type ≠ .END then
        some (.null, { q with error := some "Unexpected token after expression" })
      else some (ast, q) := by
  have h2 := parse_expression_parseFuel lexer _ (parse_start_weight lexer error heap) f _ h
  unfold parse
  unfold parse_start at h2
  dsimp only
  rw [h2]

/-- `parse` always returns: an AST or NULL, never out of fuel. -/
theorem parse_total (lexer : Lexer) (error : Option String) (heap : Heap) :
    ∃ ast q, parse lexer error heap = some (ast, q) := by
  obtain ⟨n, q, hq, _⟩ := (parse_fuel_enough (parseFuel lexer)).2.2.2.2
    (parse_start lexer error heap)
    (by have := parse_start_weight lexer error heap
        unfold parseFuel; unfold Lexer.remaining at this; omega)
  rw [parse_of_expression lexer error heap _ n q hq]
  split_ifs
  · exact ⟨_, _, rfl⟩
  · exact ⟨_, _, rfl⟩
  · exact ⟨_, _, rfl⟩

/-! ## Token streams -/

theorem LexYields_cons (lexer : Lexer) (t : Token) (ts : List Token) :
    LexYields lexer (t :: ts) ↔
      (lexer_next_token lexer).1 = t ∧ LexYields (lexer_next_token lexer).2 ts := by
  unfold LexYields
  simp [lexTokens]

theorem Parser.Sees.advance_sees {p : Parser} {t : Token} {ts : List Token}
    (h : p.Sees (t :: ts)) : (advance p).Sees ts := by
  cases ts with
  | nil => trivial
  | cons t2 ts2 =>
    have h2 := (LexYields_cons _ _ _).1 h.2
    exact ⟨h2.1, h2.2⟩

theorem Parser.Sees.current {p : Parser} {t : Token} {ts : List Token}
    (h : p.Sees (t :: ts)) : p.current = t := h.1

theorem parse_start_sees (lexer : Lexer) (error : Option String) (heap : Heap)
    (ts : List Token) (h : LexYields lexer ts) : (parse_start lexer error heap).Sees ts := by
  cases ts with
  | nil => trivial
  | cons t ts =>
    have h2 := (LexYields_cons _ _ _).1 h
    exact ⟨h2.1, h2.2⟩

theorem malloc_of_succeeds (heap : Heap) (h : AllocSucceeds heap) :
    (malloc heap).1 = true ∧ AllocSucceeds (malloc heap).2 := by
  cases heap with
  | nil => exact ⟨rfl, h⟩
  | cons b rest =>
    exact ⟨h b (List.mem_cons_self _ _), fun x hx => h x (List.mem_cons_of_mem _ hx)⟩

theorem create_number_node_of_succeeds (v : Double) (heap : Heap) (h : AllocSucceeds heap) :
    (create_number_node v heap).1 = .number v ∧
      AllocSucceeds (create_number_node v heap).2 := by
  have hm := malloc_of_succeeds heap h
  unfold create_number_node
  simp only [hm.1, if_true]
  exact ⟨trivial, hm.2⟩

theorem create_binary_op_node_of_succeeds (op : TokenType) (l r : ASTPtr) (heap : Heap)
    (h : AllocSucceeds heap) :
    (create_binary_op_node op l r heap).1 = .binary_op op l r ∧
      AllocSucceeds (create_binary_op_node op l r heap).2 := by
  have hm := malloc_of_succeeds heap h
  unfold create_binary_op_node
  simp only [hm.1, if_true]
  exact ⟨trivial, hm.2⟩

/-! ## The parser accepts every phrase of the grammar and builds its tree -/

theorem Derives.expression_rest_head {acc r : ASTPtr} {ts : List Token}
    (h : Derives (.expression_rest acc) ts r) (t0 : Token) (tl : List Token) :
    ∃ t1 tl1, ts ++ t0 :: tl = t1 :: tl1 ∧
      (t1 = t0 ∨ t1.type = .PLUS ∨ t1.type = .MINUS) := by
  cases h with
  | expression_done => exact ⟨t0, tl, rfl, Or.inl rfl⟩
  | expression_more hop _ _ =>
    refine ⟨_, _, rfl, Or.inr ?_⟩
    rcases hop with h | h
    · exact Or.inl h
    · exact Or.inr h

theorem Derives.term_rest_head_any (ts : List Token) (t0 : Token) (tl : List Token) :
    ∃ t1 tl1, ts ++ t0 :: tl = t1 :: tl1 := by
  cases ts with
  | nil => exact ⟨t0, tl, rfl⟩
  | cons a as => exact ⟨a, as ++ t0 :: tl, rfl⟩

/-- Completeness of the parser procedures: a parser that has a phrase of a nonterminal
ahead, followed by a token that does not continue it, returns the tree of the phrase when
allocation succeeds, with any fuel above some bound; it stops with the following token as
lookahead and leaves the error slot untouched. -/
theorem parse_complete {sym : Sym} {ts : List Token} {t : ASTPtr} (h : Derives sym ts t) :
    ∀ (p : Parser) (t0 : Token) (rest : List Token),
      p.Sees (ts ++ t0 :: rest) → sym.Follow t0.type → sym.AccOk → AllocSucceeds p.heap →
      ∃ f0 q, q.Sees (t0 :: rest) ∧ q.error = p.error ∧ AllocSucceeds q.heap ∧
        t.isNull = false ∧ ∀ f, f0 ≤ f → sym.run f p = some (t, q) := by
  induction h with
  | number v =>
    intro p t0 rest hs _ _ hh
    have hc : p.current = Token.num v := hs.1
    have hn := create_number_node_of_succeeds v (advance p).heap hh
    refine ⟨1, { advance p with heap := (create_number_node v (advance p).heap).2 },
      Parser.Sees.advance_sees hs, rfl, hn.2, rfl, fun f hf => ?_⟩
    obtain ⟨f, rfl⟩ : ∃ f1, f = f1 + 1 := ⟨f - 1, by omega⟩
    show parse_factor (f + 1) p = _
    rw [parse_factor, if_pos (by rw [hc]; rfl)]
    dsimp only
    rw [hc]
    show some ((create_number_node v (advance p).heap).1, _) = _
    rw [hn.1]
    rfl
  | @paren ts t _ ih =>
    intro p t0 rest hs _ _ hh
    have hc : p.current = Token.op .LPAREN := hs.1
    have hs1 : (advance p).Sees (ts ++ Token.op .RPAREN :: t0 :: rest) := by
      have := Parser.Sees.advance_sees hs
      simpa [List.append_assoc] using this
    obtain ⟨f0, q, hqs, hqe, hqh, hnn, hf0⟩ := ih (advance p) (Token.op .RPAREN) (t0 :: rest) hs1
      ⟨by decide, by decide, by decide, by decide⟩ trivial hh
    refine ⟨f0 + 1, advance q, Parser.Sees.advance_sees hqs, hqe, hqh, hnn, fun f hf => ?_⟩
    obtain ⟨f, rfl⟩ : ∃ f1, f = f1 + 1 := ⟨f - 1, by omega⟩
    have hq2 : parse_expression f (advance p) = some (t, q) := hf0 f (by omega)
    show parse_factor (f + 1) p = _
    rw [parse_factor, if_neg (by rw [hc]; decide), if_pos (by rw [hc]; rfl)]
    dsimp only
    rw [hq2]
    dsimp only
    rw [if_neg (by simp [hnn]), if_neg (by rw [hqs.1]; simp [Token.op])]
  | @term ts rest1 t r _ h2 ih1 ih2 =>
    intro p t0 rest hs hfo _ hh
    obtain ⟨t1, tl1, htl⟩ := Derives.term_rest_head_any rest1 t0 rest
    
    have hs1 : p.Sees (ts ++ t1 :: tl1) := by
      rw [← htl, ← List.append_assoc]; exact hs
    obtain ⟨f1, q1, hq1s, hq1e, hq1h, hn1, hf1⟩ := ih1 p t1 tl1 hs1 trivial trivial hh
    rw [← htl] at hq1s
    obtain ⟨f2, q2, hq2s, hq2e, hq2h, hn2, hf2⟩ := ih2 q1 t0 rest hq1s hfo hn1 hq1h
    refine ⟨max f1 f2 + 1, q2, hq2s, hq2e.trans hq1e, hq2h, hn2, fun f hf => ?_⟩
    obtain ⟨f, rfl⟩ : ∃ f3, f = f3 + 1 := ⟨f - 1, by omega⟩
    have e1 : parse_factor f p = some (t, q1) := hf1 f (by omega)
    have e2 : parse_term_loop f t q1 = some (r, q2) := hf2 f (by omega)
    show parse_term (f + 1) p = _
    rw [parse_term, e1]
    dsimp only
    rw [if_neg (by simp [hn1])]
    exact e2
  | @term_done acc =>
    intro p t0 rest hs hfo _ hh
    have hc : p.current = t0 := hs.1
    refine ⟨1, p, hs, rfl, hh, ‹_›, fun f hf => ?_⟩
    obtain ⟨f, rfl⟩ : ∃ f1, f = f1 + 1 := ⟨f - 1, by omega⟩
    show parse_term_loop (f + 1) acc p = _
    rw [parse_term_loop, if_neg (by rw [hc]; exact fun h => h.elim hfo.1 hfo.2)]
  | @term_more acc op ts rest1 t r hop _ h2 ih1 ih2 =>
    intro p t0 rest hs hfo hacc hh
    have hc : p.current = Token.op op := hs.1
    obtain ⟨t1, tl1, htl⟩ := Derives.term_rest_head_any rest1 t0 rest
    
    have hs1 : (advance p).Sees (ts ++ t1 :: tl1) := by
      have := Parser.Sees.advance_sees hs
      rw [← htl, ← List.append_assoc]; exact this
    obtain ⟨f1, q1, hq1s, hq1e, hq1h, hn1, hf1⟩ := ih1 (advance p) t1 tl1 hs1 trivial trivial hh
    rw [← htl] at hq1s
    have hb := create_binary_op_node_of_succeeds op acc t q1.heap hq1h
    obtain ⟨f2, q2, hq2s, hq2e, hq2h, hn2, hf2⟩ := ih2
      { q1 with heap := (create_binary_op_node op acc t q1.heap).2 } t0 rest hq1s hfo rfl hb.2
    refine ⟨max f1 f2 + 1, q2, hq2s, hq2e.trans hq1e, hq2h, hn2, fun f hf => ?_⟩
    obtain ⟨f, rfl⟩ : ∃ f3, f = f3 + 1 := ⟨f - 1, by omega⟩
    have e1 : parse_factor f (advance p) = some (t, q1) := hf1 f (by omega)
    have e2 : parse_term_loop f (.binary_op op acc t)
        { q1 with heap := (create_binary_op_node op acc t q1.heap).2 } = some (r, q2) :=
      hf2 f (by omega)
    show parse_term_loop (f + 1) acc p = _
    rw [parse_term_loop, if_pos (by rw [hc]; exact hop)]
    dsimp only
    rw [e1]
    dsimp only
    rw [if_neg (by simp [hn1]), hc]
    simp only [show (Token.op op).type = op from rfl]
    rw [hb.1, if_neg (by simp [ASTPtr.isNull])]
    exact e2
  | @expression ts rest1 t r _ h2 ih1 ih2 =>
    intro p t0 rest hs hfo _ hh
    obtain ⟨t1, tl1, htl⟩ := Derives.term_rest_head_any rest1 t0 rest
    have hfl : Sym.term.Follow t1.type := by
      obtain ⟨t1b, tl1b, htl2, hor⟩ := Derives.expression_rest_head h2 t0 rest
      have ht : t1 = t1b := by rw [htl] at htl2; exact (List.cons.inj htl2).1
      rw [ht]
      rcases hor with h | h | h
      · rw [h]; exact ⟨hfo.2.2.1, hfo.2.2.2⟩
      · rw [h]; exact ⟨by decide, by decide⟩
      · rw [h]; exact ⟨by decide, by decide⟩
    have hs1 : p.Sees (ts ++ t1 :: tl1) := by
      rw [← htl, ← List.append_assoc]; exact hs
    obtain ⟨f1, q1, hq1s, hq1e, hq1h, hn1, hf1⟩ := ih1 p t1 tl1 hs1 hfl trivial hh
    rw [← htl] at hq1s
    obtain ⟨f2, q2, hq2s, hq2e, hq2h, hn2, hf2⟩ := ih2 q1 t0 rest hq1s hfo hn1 hq1h
    refine ⟨max f1 f2 + 1, q2, hq2s, hq2e.trans hq1e, hq2h, hn2, fun f hf => ?_⟩
    obtain ⟨f, rfl⟩ : ∃ f3, f = f3 + 1 := ⟨f - 1, by omega⟩
    have e1 : parse_term f p = some (t, q1) := hf1 f (by omega)
    have e2 : parse_expression_loop f t q1 = some (r, q2) := hf2 f (by omega)
    show parse_expression (f + 1) p = _
    rw [parse_expression, e1]
    dsimp only
    rw [if_neg (by simp [hn1])]
    exact e2
  | @expression_done acc =>
    intro p t0 rest hs hfo _ hh
    have hc : p.current = t0 := hs.1
    refine ⟨1, p, hs, rfl, hh, ‹_›, fun f hf => ?_⟩
    obtain ⟨f, rfl⟩ : ∃ f1, f = f1 + 1 := ⟨f - 1, by omega⟩
    show parse_expression_loop (f + 1) acc p = _
    rw [parse_expression_loop, if_neg (by rw [hc]; exact fun h => h.elim hfo.1 hfo.2.1)]
  | @expression_more acc op ts rest1 t r hop _ h2 ih1 ih2 =>
    intro p t0 rest hs hfo hacc hh
    have hc : p.current = Token.op op := hs.1
    obtain ⟨t1, tl1, htl⟩ := Derives.term_rest_head_any rest1 t0 rest
    have hfl : Sym.term.Follow t1.type := by
      obtain ⟨t1b, tl1b, htl2, hor⟩ := Derives.expression_rest_head h2 t0 rest
      have ht : t1 = t1b := by rw [htl] at htl2; exact (List.cons.inj htl2).1
      rw [ht]
      rcases hor with h | h | h
      · rw [h]; exact ⟨hfo.2.2.1, hfo.2.2.2⟩
      · rw [h]; exact ⟨by decide, by decide⟩
      · rw [h]; exact ⟨by decide, by decide⟩
    have hs1 : (advance p).Sees (ts ++ t1 :: tl1) := by
      have := Parser.Sees.advance_sees hs
      rw [← htl, ← List.append_assoc]; exact this
    obtain ⟨f1, q1, hq1s, hq1e, hq1h, hn1, hf1⟩ := ih1 (advance p) t1 tl1 hs1 hfl trivial hh
    rw [← htl] at hq1s
    have hb := create_binary_op_node_of_succeeds op acc t q1.heap hq1h
    obtain ⟨f2, q2, hq2s, hq2e, hq2h, hn2, hf2⟩ := ih2
      { q1 with heap := (create_binary_op_node op acc t q1.heap).2 } t0 rest hq1s hfo rfl hb.2
    refine ⟨max f1 f2 + 1, q2, hq2s, hq2e.trans hq1e, hq2h, hn2, fun f hf => ?_⟩
    obtain ⟨f, rfl⟩ : ∃ f3, f = f3 + 1 := ⟨f - 1, by omega⟩
    have e1 : parse_term f (advance p) = some (t, q1) := hf1 f (by omega)
    have e2 : parse_expression_loop f (.binary_op op acc t)
        { q1 with heap := (create_binary_op_node op acc t q1.heap).2 } = some (r, q2) :=
      hf2 f (by omega)
    show parse_expression_loop (f + 1) acc p = _
    rw [parse_expression_loop, if_pos (by rw [hc]; exact hop)]
    dsimp only
    rw [e1]
    dsimp only
    rw [if_neg (by simp [hn1]), hc]
    simp only [show (Token.op op).type = op from rfl]
    rw [hb.1, if_neg (by simp [ASTPtr.isNull])]
    exact e2

/-- `parse` on a lexer that yields a phrase of `expression` followed by `END` returns the
tree of the phrase and leaves the error slot as it was. -/
theorem parse_of_derives {ts : List Token} {t : ASTPtr} (h : Derives .expression ts t)
    (lexer : Lexer) (error : Option String) (heap : Heap)
    (hy : LexYields lexer (ts ++ [Token.op .END])) (hh : AllocSucceeds heap) :
    ∃ q, parse lexer error heap = some (t, q) ∧ q.error = error := by
  obtain ⟨f0, q, hqs, hqe, _, hnn, hf⟩ := parse_complete h (parse_start lexer error heap)
    (Token.op .END) [] (parse_start_sees lexer error heap _ hy)
    ⟨by decide, by decide, by decide, by decide⟩ trivial hh
  refine ⟨q, ?_, hqe⟩
  rw [parse_of_expression lexer error heap f0 t q (hf f0 (Nat.le_refl _)), hnn,
    if_neg (by simp), if_neg (by rw [hqs.1]; simp [Token.op])]

/-! ## Chains of operators of one tier -/

theorem Derives.expression_chain (acc : ASTPtr) (rest : List (TokenType × Double))
    (h : ∀ x ∈ rest, x.1 = .PLUS ∨ x.1 = .MINUS) :
    Derives (.expression_rest acc) (chainTokens rest) (leftFold acc rest) := by
  induction rest generalizing acc with
  | nil => exact .expression_done
  | cons x rest ih =>
    have d := @Derives.expression_more acc _ _ _ _ _ (h x (List.mem_cons_self _ _))
      (.term (.number x.2) .term_done)
      (ih (.binary_op x.1 acc (.number x.2)) (fun y hy => h y (List.mem_cons_of_mem _ hy)))
    simpa [chainTokens, leftFold] using d

theorem Derives.term_chain (acc : ASTPtr) (rest : List (TokenType × Double))
    (h : ∀ x ∈ rest, x.1 = .MULTIPLY ∨ x.1 = .DIVIDE) :
    Derives (.term_rest acc) (chainTokens rest) (leftFold acc rest) := by
  induction rest generalizing acc with
  | nil => exact .term_done
  | cons x rest ih =>
    have d := @Derives.term_more acc _ _ _ _ _ (h x (List.mem_cons_self _ _))
      (.number x.2)
      (ih (.binary_op x.1 acc (.number x.2)) (fun y hy => h y (List.mem_cons_of_mem _ hy)))
    simpa [chainTokens, leftFold] using d

/-! ## Calls made while parsing, and how a failure travels up -/

/-- If the caller returns, the callee returned. -/
theorem Invokes.callee_returns {c d : Call} (h : Invokes c d) (hc : c.result ≠ none) :
    d.result ≠ none := by
  intro hd
  apply hc
  cases h with
  | expression_term f p =>
    show parse_expression (f + 1) p = none
    rw [parse_expression, show parse_term f p = none from hd]
  | expression_loop f p node q h1 h2 =>
    show parse_expression (f + 1) p = none
    rw [parse_expression, h1]
    dsimp only
    rw [if_neg (by simp [h2])]
    exact hd
  | expression_loop_term f node p h1 =>
    show parse_expression_loop (f + 1) node p = none
    rw [parse_expression_loop, if_pos h1]
    dsimp only
    rw [show parse_term f (advance p) = none from hd]
  | expression_loop_again f node p right q h1 h2 h3 h4 =>
    show parse_expression_loop (f + 1) node p = none
    rw [parse_expression_loop, if_pos h1]
    dsimp only
    rw [h2]
    dsimp only
    rw [if_neg (by simp [h3]), if_neg (by simp [h4])]
    exact hd
  | term_factor f p =>
    show parse_term (f + 1) p = none
    rw [parse_term, show parse_factor f p = none from hd]
  | term_loop f p node q h1 h2 =>
    show parse_term (f + 1) p = none
    rw [parse_term, h1]
    dsimp only
    rw [if_neg (by simp [h2])]
    exact hd
  | term_loop_factor f node p h1 =>
    show parse_term_loop (f + 1) node p = none
    rw [parse_term_loop, if_pos h1]
    dsimp only
    rw [show parse_factor f (advance p) = none from hd]
  | term_loop_again f node p right q h1 h2 h3 h4 =>
    show parse_term_loop (f + 1) node p = none
    rw [parse_term_loop, if_pos h1]
    dsimp only
    rw [h2]
    dsimp only
    rw [if_neg (by simp [h3]), if_neg (by simp [h4])]
    exact hd
  | factor_expression f p h1 =>
    show parse_factor (f + 1) p = none
    rw [parse_factor, if_neg (by rw [h1]; decide), if_pos h1]
    dsimp only
    rw [show parse_expression f (advance p) = none from hd]

/-- If the callee returns NULL, the caller returns NULL in the same parser state: nothing
more is consumed or built, and the error slot is not written again. -/
theorem Invokes.null_passes {c d : Call} (h : Invokes c d) (q : Parser)
    (hd : d.result = some (.null, q)) : c.result = some (.null, q) := by
  cases h with
  | expression_term f p =>
    show parse_expression (f + 1) p = _
    rw [parse_expression, show parse_term f p = _ from hd]
    rfl
  | expression_loop f p node q1 h1 h2 =>
    show parse_expression (f + 1) p = _
    rw [parse_expression, h1]
    dsimp only
    rw [if_neg (by simp [h2])]
    exact hd
  | expression_loop_term f node p h1 =>
    show parse_expression_loop (f + 1) node p = _
    rw [parse_expression_loop, if_pos h1]
    dsimp only
    rw [show parse_term f (advance p) = _ from hd]
    rfl
  | expression_loop_again f node p right q1 h1 h2 h3 h4 =>
    show parse_expression_loop (f + 1) node p = _
    rw [parse_expression_loop, if_pos h1]
    dsimp only
    rw [h2]
    dsimp only
    rw [if_neg (by simp [h3]), if_neg (by simp [h4])]
    exact hd
  | term_factor f p =>
    show parse_term (f + 1) p = _
    rw [parse_term, show parse_factor f p = _ from hd]
    rfl
  | term_loop f p node q1 h1 h2 =>
    show parse_term (f + 1) p = _
    rw [parse_term, h1]
    dsimp only
    rw [if_neg (by simp [h2])]
    exact hd
  | term_loop_factor f node p h1 =>
    show parse_term_loop (f + 1) node p = _
    rw [parse_term_loop, if_pos h1]
    dsimp only
    rw [show parse_factor f (advance p) = _ from hd]
    rfl
  | term_loop_again f node p right q1 h1 h2 h3 h4 =>
    show parse_term_loop (f + 1) node p = _
    rw [parse_term_loop, if_pos h1]
    dsimp only
    rw [h2]
    dsimp only
    rw [if_neg (by simp [h3]), if_neg (by simp [h4])]
    exact hd
  | factor_expression f p h1 =>
    show parse_factor (f + 1) p = _
    rw [parse_factor, if_neg (by rw [h1]; decide), if_pos h1]
    dsimp only
    rw [show parse_expression f (advance p) = _ from hd]
    rfl

theorem parse_call_result_ne_none (lexer : Lexer) (error : Option String) (heap : Heap) :
    (parse_call lexer error heap).result ≠ none := by
  obtain ⟨n, q, hq, _⟩ := (parse_fuel_enough (parseFuel lexer)).2.2.2.2
    (parse_start lexer error heap)
    (by have := parse_start_weight lexer error heap
        unfold parseFuel; unfold Lexer.remaining at this; omega)
  show parse_expression _ _ ≠ none
  rw [hq]
  simp

/-- Every invocation reached while running `parse` returns. -/
theorem Reaches.result_ne_none {lexer : Lexer} {error : Option String} {heap : Heap}
    {c : Call} (h : Reaches lexer error heap c) : c.result ≠ none := by
  induction h with
  | refl => exact parse_call_result_ne_none lexer error heap
  | tail _ hinv ih => exact hinv.callee_returns ih

/-- A NULL returned by an invocation reached while running `parse` is what `parse` returns,
with the parser state (the error slot in it) of that moment. -/
theorem Reaches.null_propagates {lexer : Lexer} {error : Option String} {heap : Heap}
    {c : Call} (h : Reaches lexer error heap c) (q : Parser)
    (hc : c.result = some (.null, q)) : parse lexer error heap = some (.null, q) := by
  have hroot : (parse_call lexer error heap).result = some (.null, q) := by
    induction h with
    | refl => exact hc
    | tail _ hinv ih => exact ih (hinv.null_passes q hc)
  rw [parse_of_expression lexer error heap _ _ _ hroot]
  rfl

/-! ## What the parser builds -/

theorem Double.pack_cases (neg : Bool) (m : Nat) (e : Int) :
    (∃ m1 e1, Double.pack neg m e = .fin neg m1 e1) ∨ Double.pack neg m e = .inf neg := by
  unfold Double.pack
  dsimp only
  by_cases hm : m = 2 ^ 53
  · simp only [if_pos hm]
    by_cases h : (971 : Int) < e + 1
    · rw [if_pos h]; exact Or.inr rfl
    · rw [if_neg h]; exact Or.inl ⟨_, _, rfl⟩
  · simp only [if_neg hm]
    by_cases h : (971 : Int) < e
    · rw [if_pos h]; exact Or.inr rfl
    · rw [if_neg h]; exact Or.inl ⟨_, _, rfl⟩

/-- Rounding gives a finite value or an infinity of the given sign. -/
theorem Double.round_cases (neg : Bool) (num den : Nat) :
    (∃ m e, Double.round neg num den = .fin neg m e) ∨
      Double.round neg num den = .inf neg := by
  unfold Double.round
  split
  · exact Or.inl ⟨_, _, rfl⟩
  · exact Double.pack_cases _ _ _

theorem Double.round_isNaN (neg : Bool) (num den : Nat) :
    (Double.round neg num den).isNaN = false := by
  rcases Double.round_cases neg num den with ⟨m, e, h⟩ | h <;> rw [h] <;> rfl

theorem scaled_isNaN (m base : Nat) (x : Int) : (scaled m base x).isNaN = false :=
  Double.round_isNaN _ _ _

theorem decimalConstant_isNaN (w : List Char) (v : Double) (h : decimalConstant w = some v) :
    v.isNaN = false := by
  unfold decimalConstant at h
  dsimp only at h
  split at h
  · exact absurd h (by simp)
  · split at h
    · rw [← Option.some.inj h]; exact scaled_isNaN _ _ _
    · split at h
      · rw [← Option.some.inj h]; exact scaled_isNaN _ _ _
      · exact absurd h (by simp)

theorem hexConstant_isNaN (w : List Char) (v : Double) (h : hexConstant w = some v) :
    v.isNaN = false := by
  unfold hexConstant at h
  split at h
  · split at h
    · dsimp only at h
      split at h
      · exact absurd h (by simp)
      · split at h
        · rw [← Option.some.inj h]; exact scaled_isNaN _ _ _
        · split at h
          · rw [← Option.some.inj h]; exact scaled_isNaN _ _ _
          · exact absurd h (by simp)
    · exact absurd h (by simp)
  · exact absurd h (by simp)

theorem floatConstant_isNaN (w : List Char) (v : Double) (h : floatConstant w = some v) :
    v.isNaN = false := by
  unfold floatConstant at h
  split at h
  · next v1 h1 => rw [← Option.some.inj h]; exact hexConstant_isNaN w v1 h1
  · exact decimalConstant_isNaN w v h

theorem strtodUpTo_isNaN (s : List Char) (k : Nat) : (strtodUpTo s k).1.isNaN = false := by
  induction k with
  | zero => rfl
  | succ k ih =>
    unfold strtodUpTo
    split
    · next v hv => exact floatConstant_isNaN _ v hv
    · exact ih

theorem strtod_isNaN (s : List Char) : (strtod s).1.isNaN = false :=
  strtodUpTo_isNaN s _

/-- No token carries a NaN. -/
theorem lexer_next_token_value_not_nan (lexer : Lexer) :
    (lexer_next_token lexer).1.value.isNaN = false := by
  rcases lexer_next_token_cases lexer with ⟨_, h⟩ | ⟨_, _, h⟩ | ⟨_, _, ty, _, _, h⟩ <;> rw [h]
  · rfl
  · exact strtod_isNaN _
  · rfl

theorem advance_value_not_nan (p : Parser) : (advance p).current.value.isNaN = false :=
  lexer_next_token_value_not_nan p.lexer

theorem create_binary_op_node_cases (op : TokenType) (l r : ASTPtr) (heap : Heap) :
    (create_binary_op_node op l r heap).1 = .null ∨
      (create_binary_op_node op l r heap).1 = .binary_op op l r := by
  unfold create_binary_op_node
  dsimp only
  split
  · exact Or.inr rfl
  · exact Or.inl rfl

theorem create_number_node_cases (v : Double) (heap : Heap) :
    (create_number_node v heap).1 = .null ∨ (create_number_node v heap).1 = .number v := by
  unfold create_number_node
  dsimp only
  split
  · exact Or.inr rfl
  · exact Or.inl rfl

/-- Every procedure returns NULL or a well-formed tree, and the lookahead never carries a
NaN. -/
theorem parse_wellformed (fuel : Nat) :
    (∀ (p : Parser) n q, p.current.value.isNaN = false → parse_factor fuel p = some (n, q) →
      (n = .null ∨ WellFormed n) ∧ q.current.value.isNaN = false) ∧
    (∀ (node : ASTPtr) (p : Parser) n q, p.current.value.isNaN = false → WellFormed node →
      parse_term_loop fuel node p = some (n, q) →
      (n = .null ∨ WellFormed n) ∧ q.current.value.isNaN = false) ∧
    (∀ (p : Parser) n q, p.current.value.isNaN = false → parse_term fuel p = some (n, q) →
      (n = .null ∨ WellFormed n) ∧ q.current.value.isNaN = false) ∧
    (∀ (node : ASTPtr) (p : Parser) n q, p.current.value.isNaN = false → WellFormed node →
      parse_expression_loop fuel node p = some (n, q) →
      (n = .null ∨ WellFormed n) ∧ q.current.value.isNaN = false) ∧
    (∀ (p : Parser) n q, p.current.value.isNaN = false →
      parse_expression fuel p = some (n, q) →
      (n = .null ∨ WellFormed n) ∧ q.current.value.isNaN = false) := by
  induction fuel with
  | zero =>
    refine ⟨?_, ?_, ?_, ?_, ?_⟩
    · intro p n q _ h; rw [parse_factor] at h; exact absurd h (by simp)
    · intro node p n q _ _ h; rw [parse_term_loop] at h; exact absurd h (by simp)
    · intro p n q _ h; rw [parse_term] at h; exact absurd h (by simp)
    · intro node p n q _ _ h; rw [parse_expression_loop] at h; exact absurd h (by simp)
    · intro p n q _ h; rw [parse_expression] at h; exact absurd h (by simp)
  | succ f ih =>
    obtain ⟨ihF, ihTL, ihT, ihEL, ihE⟩ := ih
    refine ⟨?_, ?_, ?_, ?_, ?_⟩
    · -- parse_factor
      intro p n q hp h
      rw [parse_factor] at h
      by_cases h1 : p.current.type = .NUMBER
      · rw [if_pos h1] at h
        dsimp only at h
        obtain ⟨rfl, rfl⟩ := Prod.mk.inj (Option.some.inj h)
        refine ⟨?_, advance_value_not_nan p⟩
        rcases create_number_node_cases p.current.value (advance p).heap with e | e
        · exact Or.inl e
        · rw [e]; exact Or.inr (.number _ hp)
      · rw [if_neg h1] at h
        by_cases h2 : p.current.type = .LPAREN
        · rw [if_pos h2] at h
          dsimp only at h
          cases hq : parse_expression f (advance p) with
          | none => rw [hq] at h; exact absurd h (by simp)
          | some nq =>
            obtain ⟨n1, q1⟩ := nq
            rw [hq] at h
            dsimp only at h
            obtain ⟨hw1, hv1⟩ := ihE _ _ _ (advance_value_not_nan p) hq
            by_cases hn : n1.isNull = true
            · rw [if_pos hn] at h
              obtain ⟨rfl, rfl⟩ := Prod.mk.inj (Option.some.inj h)
              exact ⟨Or.inl rfl, hv1⟩
            · rw [if_neg hn] at h
              by_cases hr : q1.current.type ≠ .RPAREN
              · rw [if_pos hr] at h
                obtain ⟨rfl, rfl⟩ := Prod.mk.inj (Option.some.inj h)
                exact ⟨Or.inl rfl, hv1⟩
              · rw [if_neg hr] at h
                obtain ⟨rfl, rfl⟩ := Prod.mk.inj (Option.some.inj h)
                exact ⟨hw1, advance_value_not_nan _⟩
        · rw [if_neg h2] at h
          obtain ⟨rfl, rfl⟩ := Prod.mk.inj (Option.some.inj h)
          exact ⟨Or.inl rfl, hp⟩
    · -- parse_term_loop
      intro node p n q hp hnode h
      rw [parse_term_loop] at h
      by_cases h1 : p.current.type = .MULTIPLY ∨ p.current.type = .DIVIDE
      · rw [if_pos h1] at h
        dsimp only at h
        cases hq : parse_factor f (advance p) with
        | none => rw [hq] at h; exact absurd h (by simp)
        | some nq =>
          obtain ⟨n1, q1⟩ := nq
          rw [hq] at h
          dsimp only at h
          obtain ⟨hw1, hv1⟩ := ihF _ _ _ (advance_value_not_nan p) hq
          by_cases hn : n1.isNull = true
          · rw [if_pos hn] at h
            obtain ⟨rfl, rfl⟩ := Prod.mk.inj (Option.some.inj h)
            exact ⟨Or.inl rfl, hv1⟩
          · rw [if_neg hn] at h
            by_cases hc : (create_binary_op_node p.current.type node n1 q1.heap).1.isNull = true
            · rw [if_pos hc] at h
              obtain ⟨rfl, rfl⟩ := Prod.mk.inj (Option.some.inj h)
              exact ⟨Or.inl rfl, hv1⟩
            · rw [if_neg hc] at h
              have hwf1 : WellFormed n1 := by
                rcases hw1 with h0 | h0
                · rw [h0] at hn; exact absurd rfl hn
                · exact h0
              refine ihTL _
                { q1 with heap := (create_binary_op_node p.current.type node n1 q1.heap).2 }
                _ _ hv1 ?_ h
              rcases create_binary_op_node_cases p.current.type node n1 q1.heap with e | e
              · rw [e] at hc; exact absurd rfl hc
              · rw [e]
                exact .binary_op _ _ _ (by rcases h1 with h | h <;> simp [h]) hnode hwf1
      · rw [if_neg h1] at h
        obtain ⟨rfl, rfl⟩ := Prod.mk.inj (Option.some.inj h)
        exact ⟨Or.inr hnode, hp⟩
    · -- parse_term
      intro p n q hp h
      rw [parse_term] at h
      cases hq : parse_factor f p with
      | none => rw [hq] at h; exact absurd h (by simp)
      | some nq =>
        obtain ⟨n1, q1⟩ := nq
        rw [hq] at h
        dsimp only at h
        obtain ⟨hw1, hv1⟩ := ihF _ _ _ hp hq
        by_cases hn : n1.isNull = true
        · rw [if_pos hn] at h
          obtain ⟨rfl, rfl⟩ := Prod.mk.inj (Option.some.inj h)
          exact ⟨Or.inl rfl, hv1⟩
        · rw [if_neg hn] at h
          have hwf1 : WellFormed n1 := by
            rcases hw1 with h0 | h0
            · rw [h0] at hn; exact absurd rfl hn
            · exact h0
          exact ihTL _ _ _ _ hv1 hwf1 h
    · -- parse_expression_loop
      intro node p n q hp hnode h
      rw [parse_expression_loop] at h
      by_cases h1 : p.current.type = .PLUS ∨ p.current.type = .MINUS
      · rw [if_pos h1] at h
        dsimp only at h
        cases hq : parse_term f (advance p) with
        | none => rw [hq] at h; exact absurd h (by simp)
        | some nq =>
          obtain ⟨n1, q1⟩ := nq
          rw [hq] at h
          dsimp only at h
          obtain ⟨hw1, hv1⟩ := ihT _ _ _ (advance_value_not_nan p) hq
          by_cases hn : n1.isNull = true
          · rw [if_pos hn] at h
            obtain ⟨rfl, rfl⟩ := Prod.mk.inj (Option.some.inj h)
            exact ⟨Or.inl rfl, hv1⟩
          · rw [if_neg hn] at h
            by_cases hc : (create_binary_op_node p.current.type node n1 q1.heap).1.isNull = true
            · rw [if_pos hc] at h
              obtain ⟨rfl, rfl⟩ := Prod.mk.inj (Option.some.inj h)
              exact ⟨Or.inl rfl, hv1⟩
            · rw [if_neg hc] at h
              have hwf1 : WellFormed n1 := by
                rcases hw1 with h0 | h0
                · rw [h0] at hn; exact absurd rfl hn
                · exact h0
              refine ihEL _
                { q1 with heap := (create_binary_op_node p.current.type node n1 q1.heap).2 }
                _ _ hv1 ?_ h
              rcases create_binary_op_node_cases p.current.type node n1 q1.heap with e | e
              · rw [e] at hc; exact absurd rfl hc
              · rw [e]
                exact .binary_op _ _ _ (by rcases h1 with h | h <;> simp [h]) hnode hwf1
      · rw [if_neg h1] at h
        obtain ⟨rfl, rfl⟩ := Prod.mk.inj (Option.some.inj h)
        exact ⟨Or.inr hnode, hp⟩
    · -- parse_expression
      intro p n q hp h
      rw [parse_expression] at h
      cases hq : parse_term f p with
      | none => rw [hq] at h; exact absurd h (by simp)
      | some nq =>
        obtain ⟨n1, q1⟩ := nq
        rw [hq] at h
        dsimp only at h
        obtain ⟨hw1, hv1⟩ := ihT _ _ _ hp hq
        by_cases hn : n1.isNull = true
        · rw [if_pos hn] at h
          obtain ⟨rfl, rfl⟩ := Prod.mk.inj (Option.some.inj h)
          exact ⟨Or.inl rfl, hv1⟩
        · rw [if_neg hn] at h
          have hwf1 : WellFormed n1 := by
            rcases hw1 with h0 | h0
            · rw [h0] at hn; exact absurd rfl hn
            · exact h0
          exact ihEL _ _ _ _ hv1 hwf1 h

/-- A tree returned by `parse` is well formed. -/
theorem parse_result_wellformed (lexer : Lexer) (error : Option String) (heap : Heap)
    (ast : ASTPtr) (q : Parser) (h : parse lexer error heap = some (ast, q))
    (hast : ast.isNull = false) : WellFormed ast := by
  obtain ⟨n, q1, hq, _⟩ := (parse_fuel_enough (parseFuel lexer)).2.2.2.2
    (parse_start lexer error heap)
    (by have := parse_start_weight lexer error heap
        unfold parseFuel; unfold Lexer.remaining at this; omega)
  have hw := ((parse_wellformed (parseFuel lexer)).2.2.2.2 _ n q1
    (advance_value_not_nan _) hq).1
  rw [parse_of_expression lexer error heap _ n q1 hq] at h
  by_cases hn : n.isNull = true
  · rw [if_pos hn] at h
    obtain ⟨rfl, rfl⟩ := Prod.mk.inj (Option.some.inj h)
    exact absurd hast (by simp [ASTPtr.isNull])
  · rw [if_neg hn] at h
    by_cases he : q1.current.type ≠ .END
    · rw [if_pos he] at h
      obtain ⟨rfl, rfl⟩ := Prod.mk.inj (Option.some.inj h)
      exact absurd hast (by simp [ASTPtr.isNull])
    · rw [if_neg he] at h
      obtain ⟨rfl, rfl⟩ := Prod.mk.inj (Option.some.inj h)
      rcases hw with h0 | h0
      · rw [h0] at hast; exact absurd hast (by simp [ASTPtr.isNull])
      · exact h0

/-! ## Evaluation of well-formed trees -/

theorem Double.isNaN_ite (c : Prop) [Decidable c] {a b : Double} (ha : a.isNaN = false)
    (hb : b.isNaN = false) : (if c then a else b).isNaN = false := by
  by_cases h : c
  · rw [if_pos h]; exact ha
  · rw [if_neg h]; exact hb

theorem Double.add_fin_isNaN (s1 : Bool) (m1 : Nat) (e1 : Int) (s2 : Bool) (m2 : Nat)
    (e2 : Int) : (Double.add (.fin s1 m1 e1) (.fin s2 m2 e2)).isNaN = false := by
  rw [Double.add]
  exact Double.isNaN_ite _ rfl (Double.round_isNaN _ _ _)

theorem Double.sub_fin_isNaN (s1 : Bool) (m1 : Nat) (e1 : Int) (s2 : Bool) (m2 : Nat)
    (e2 : Int) : (Double.sub (.fin s1 m1 e1) (.fin s2 m2 e2)).isNaN = false :=
  Double.add_fin_isNaN _ _ _ _ _ _

theorem Double.mul_fin_isNaN (s1 : Bool) (m1 : Nat) (e1 : Int) (s2 : Bool) (m2 : Nat)
    (e2 : Int) : (Double.mul (.fin s1 m1 e1) (.fin s2 m2 e2)).isNaN = false := by
  rw [Double.mul]
  exact Double.round_isNaN _ _ _

theorem Double.div_fin_isNaN (s1 : Bool) (m1 : Nat) (e1 : Int) (s2 : Bool) (m2 : Nat)
    (e2 : Int) (h : (Double.fin s2 m2 e2).isZero = false) :
    (Double.div (.fin s1 m1 e1) (.fin s2 m2 e2)).isNaN = false := by
  have hm : m2 ≠ 0 := by simpa [Double.isZero] using h
  rw [Double.div, if_neg hm]
  exact Double.round_isNaN _ _ _

/-- A value that is not a NaN is finite or an infinity. -/
theorem Double.finite_or_inf (x : Double) (h : x.isNaN = false) :
    x.isFinite = true ∨ x.isInf = true := by
  cases x with
  | nan => exact absurd h (by simp [Double.isNaN])
  | inf s => exact Or.inr rfl
  | fin s m e => exact Or.inl rfl

/-- The value of a binary-operation node whose two subtrees evaluate without error. -/
theorem evaluate_binary_op (op : TokenType) (l r : ASTPtr)
    (hl : (evaluate l none).2 = none) (hr : (evaluate r none).2 = none) :
    evaluate (.binary_op op l r) none =
      match op with
      | .PLUS => (Double.add (evaluate l none).1 (evaluate r none).1, none)
      | .MINUS => (Double.sub (evaluate l none).1 (evaluate r none).1, none)
      | .MULTIPLY => (Double.mul (evaluate l none).1 (evaluate r none).1, none)
      | .DIVIDE =>
        if (evaluate r none).1.isZero then (Double.zero false, some "Division by zero")
        else (Double.div (evaluate l none).1 (evaluate r none).1, none)
      | _ => (Double.zero false, some "Invalid operator") := by
  rw [evaluate]
  simp only [hl, hr, Option.isSome_none, Bool.false_eq_true, if_false]

/-- A failing left subtree makes the node fail with the same error. -/
theorem evaluate_binary_op_left_error (op : TokenType) (l r : ASTPtr) (e : String)
    (hl : (evaluate l none).2 = some e) :
    evaluate (.binary_op op l r) none = (Double.zero false, some e) := by
  rw [evaluate]
  simp only [hl, Option.isSome_some, if_true]

/-- A failing right subtree, after a left one that succeeded, makes the node fail with the
same error. -/
theorem evaluate_binary_op_right_error (op : TokenType) (l r : ASTPtr) (e : String)
    (hl : (evaluate l none).2 = none) (hr : (evaluate r none).2 = some e) :
    evaluate (.binary_op op l r) none = (Double.zero false, some e) := by
  rw [evaluate]
  simp only [hl, hr, Option.isSome_none, Option.isSome_some, Bool.false_eq_true, if_false,
    if_true]

/-- Evaluating a well-formed tree. If the tree contains a division by zero, `evaluate`
reports "Division by zero"; if not, it returns the arithmetic value of the tree with no
error, and that value is finite unless the tree contains an overflow. -/
theorem evaluate_wellformed {t : ASTPtr} (h : WellFormed t) :
    (t.dividesByZero = true →
      evaluate t none = (Double.zero false, some "Division by zero")) ∧
    (t.dividesByZero = false →
      evaluate t none = (t.arithValue, none) ∧
        (t.arithValue.isFinite = true ∨ overflows t = true)) := by
  induction h with
  | number v hv =>
    refine ⟨fun hd => absurd hd (by simp [ASTPtr.dividesByZero]), fun _ => ⟨rfl, ?_⟩⟩
    rcases Double.finite_or_inf v hv with h1 | h1
    · exact Or.inl h1
    · exact Or.inr h1
  | binary_op op l r hop _ _ ihl ihr =>
    cases hdl : l.dividesByZero with
    | true =>
      refine ⟨fun _ => evaluate_binary_op_left_error op l r _ (by rw [ihl.1 hdl]), fun hd => ?_⟩
      simp [ASTPtr.dividesByZero, hdl] at hd
    | false =>
      obtain ⟨hl, hlf⟩ := ihl.2 hdl
      have hl2 : (evaluate l none).2 = none := by rw [hl]
      cases hdr : r.dividesByZero with
      | true =>
        refine ⟨fun _ => evaluate_binary_op_right_error op l r _ hl2 (by rw [ihr.1 hdr]),
          fun hd => ?_⟩
        simp [ASTPtr.dividesByZero, hdr] at hd
      | false =>
        obtain ⟨hr, hrf⟩ := ihr.2 hdr
        have hr2 : (evaluate r none).2 = none := by rw [hr]
        have key := evaluate_binary_op op l r hl2 hr2
        rw [hl, hr] at key
        dsimp only at key
        have hdz : (ASTPtr.binary_op op l r).dividesByZero = zeroDivisor op r := by
          simp [ASTPtr.dividesByZero, hdl, hdr]
        rw [hdz]
        constructor
        · intro hz
          have h1 : op = .DIVIDE ∧ r.arithValue.isZero = true := by
            simpa [zeroDivisor] using hz
          rw [key, h1.1]
          dsimp only
          rw [if_pos h1.2]
        · intro hz
          have hnz : ¬ (op = .DIVIDE ∧ r.arithValue.isZero = true) := by
            intro hc
            have : zeroDivisor op r = true := by simpa [zeroDivisor] using hc
            rw [this] at hz
            exact Bool.noConfusion hz
          have hval : evaluate (.binary_op op l r) none =
              ((ASTPtr.binary_op op l r).arithValue, none) := by
            rw [key]
            rcases hop with h | h | h | h <;> subst h <;> dsimp only [ASTPtr.arithValue]
            rw [if_neg (fun hh => hnz ⟨rfl, hh⟩)]
          refine ⟨hval, ?_⟩
          rcases hlf with hlf | hlo
          swap
          · right; simp [overflows, hlo]
          rcases hrf with hrf | hro
          swap
          · right; simp [overflows, hro]
          have hnan : (ASTPtr.binary_op op l r).arithValue.isNaN = false := by
            cases hlv : l.arithValue with
            | nan => rw [hlv] at hlf; exact absurd hlf (by simp [Double.isFinite])
            | inf s => rw [hlv] at hlf; exact absurd hlf (by simp [Double.isFinite])
            | fin s1 m1 e1 =>
              cases hrv : r.arithValue with
              | nan => rw [hrv] at hrf; exact absurd hrf (by simp [Double.isFinite])
              | inf s => rw [hrv] at hrf; exact absurd hrf (by simp [Double.isFinite])
              | fin s2 m2 e2 =>
                rcases hop with h | h | h | h <;> subst h <;>
                  simp only [ASTPtr.arithValue, hlv, hrv]
                · exact Double.add_fin_isNaN _ _ _ _ _ _
                · exact Double.sub_fin_isNaN _ _ _ _ _ _
                · exact Double.mul_fin_isNaN _ _ _ _ _ _
                · have hnz2 : (Double.fin s2 m2 e2).isZero = false := by
                    rw [← hrv]
                    cases hb : r.arithValue.isZero
                    · rfl
                    · exact absurd ⟨rfl, hb⟩ hnz
                  exact Double.div_fin_isNaN _ _ _ _ _ _ hnz2
          rcases Double.finite_or_inf _ hnan with h1 | h1
          · exact Or.inl h1
          · right
            simp [overflows, hlf, hrf, hz, h1]

/-! ## The lexer reads the unread input only -/

theorem Lexer.cur_eq_headD (lexer : Lexer) :
    lexer.cur = (lexer.input.drop lexer.position).headD '\x00' := by
  unfold Lexer.cur
  simp [List.getD, List.headD_eq_head?_getD, List.head?_drop]

theorem countSpaces_le_length (s : List Char) : countSpaces s ≤ s.length := by
  induction s with
  | nil => exact Nat.le_refl _
  | cons c cs ih =>
    unfold countSpaces
    split
    · simpa using ih
    · exact Nat.zero_le _

theorem skip_whitespace_loop_eq (fuel : Nat) (lexer : Lexer)
    (h : countSpaces (lexer.input.drop lexer.position) ≤ fuel) :
    skip_whitespace_loop fuel lexer =
      { lexer with
        position := lexer.position + countSpaces (lexer.input.drop lexer.position) } := by
  induction fuel generalizing lexer with
  | zero =>
    have h0 : countSpaces (lexer.input.drop lexer.position) = 0 := Nat.le_zero.mp h
    rw [h0]
    rfl
  | succ n ih =>
    unfold skip_whitespace_loop
    rw [Lexer.cur_eq_headD]
    cases hd : lexer.input.drop lexer.position with
    | nil =>
      simp [isspace, countSpaces]
    | cons c cs =>
      have htl : lexer.input.drop (lexer.position + 1) = cs := by
        rw [← List.tail_drop, hd]; rfl
      by_cases hc : isspace c = true
      · have hcount : countSpaces (c :: cs) = countSpaces cs + 1 := by
          rw [countSpaces, if_pos hc]
        rw [hd, hcount] at h
        simp only [List.headD_cons, hc, if_true]
        rw [ih ⟨lexer.input, lexer.position + 1⟩ (by show countSpaces (List.drop _ _) ≤ n; rw [htl]; omega)]
        show Lexer.mk _ _ = Lexer.mk _ _
        rw [hcount]
        show Lexer.mk lexer.input (lexer.position + 1 + countSpaces (List.drop (lexer.position + 1) lexer.input)) = _
        rw [htl]
        congr 1
        omega
      · have hcount : countSpaces (c :: cs) = 0 := by
          rw [countSpaces, if_neg hc]
        simp only [List.headD_cons, hc, hcount]
        rfl

theorem skip_whitespace_eq (lexer : Lexer) :
    skip_whitespace lexer =
      { lexer with
        position := lexer.position + countSpaces (lexer.input.drop lexer.position) } := by
  apply skip_whitespace_loop_eq
  have := countSpaces_le_length (lexer.input.drop lexer.position)
  simpa using this

theorem charToken_switch (c : Char) (l : Lexer) :
    (if c = '+' then ((⟨.PLUS, Double.zero false⟩ : Token), l)
      else if c = '-' then (⟨.MINUS, Double.zero false⟩, l)
      else if c = '*' then (⟨.MULTIPLY, Double.zero false⟩, l)
      else if c = '/' then (⟨.DIVIDE, Double.zero false⟩, l)
      else if c = '(' then (⟨.LPAREN, Double.zero false⟩, l)
      else if c = ')' then (⟨.RPAREN, Double.zero false⟩, l)
      else (⟨.ERROR, Double.zero false⟩, l)) = (⟨charToken c, Double.zero false⟩, l) := by
  unfold charToken
  by_cases h1 : c = '+'
  · rw [if_pos h1, if_pos h1]
  rw [if_neg h1, if_neg h1]
  by_cases h2 : c = '-'
  · rw [if_pos h2, if_pos h2]
  rw [if_neg h2, if_neg h2]
  by_cases h3 : c = '*'
  · rw [if_pos h3, if_pos h3]
  rw [if_neg h3, if_neg h3]
  by_cases h4 : c = '/'
  · rw [if_pos h4, if_pos h4]
  rw [if_neg h4, if_neg h4]
  by_cases h5 : c = '('
  · rw [if_pos h5, if_pos h5]
  rw [if_neg h5, if_neg h5]
  by_cases h6 : c = ')'
  · rw [if_pos h6, if_pos h6]
  rw [if_neg h6, if_neg h6]

/-- `lexer_next_token` depends on the unread input only: it returns the token of
`scanToken` and moves the cursor by the number of characters `scanToken` gives. -/
theorem lexer_next_token_eq_scanToken (lexer : Lexer) :
    lexer_next_token lexer =
      ((scanToken (lexer.input.drop lexer.position)).1,
        { lexer with
          position := lexer.position + (scanToken (lexer.input.drop lexer.position)).2 }) := by
  have hcur : (skip_whitespace lexer).cur =
      ((lexer.input.drop lexer.position).drop
        (countSpaces (lexer.input.drop lexer.position))).headD '\x00' := by
    rw [Lexer.cur_eq_headD, skip_whitespace_eq, List.drop_drop]
  have hdrop : (skip_whitespace lexer).input.drop (skip_whitespace lexer).position =
      (lexer.input.drop lexer.position).drop
        (countSpaces (lexer.input.drop lexer.position)) := by
    rw [skip_whitespace_eq, List.drop_drop]
  have hpos : (skip_whitespace lexer).position =
      lexer.position + countSpaces (lexer.input.drop lexer.position) := by
    rw [skip_whitespace_eq]
  have hinp : (skip_whitespace lexer).input = lexer.input := skip_whitespace_input lexer
  unfold lexer_next_token scanToken read_number
  dsimp only
  rw [hcur, hdrop, hpos, hinp]
  cases hd : (lexer.input.drop lexer.position).drop
      (countSpaces (lexer.input.drop lexer.position)) with
  | nil =>
    simp only [List.headD_nil, if_true, scanHead]
    rw [skip_whitespace_eq]
    rfl
  | cons c rest =>
    simp only [List.headD_cons, scanHead]
    by_cases h0 : c = '\x00'
    · rw [if_pos h0, if_pos h0, skip_whitespace_eq]
      rfl
    · rw [if_neg h0, if_neg h0]
      by_cases h1 : isdigit c = true ∨ c = '.'
      · rw [if_pos h1, if_pos h1, Nat.add_assoc]
      · rw [if_neg h1, if_neg h1, charToken_switch, Nat.add_assoc]
/-! ## `strtod` stops at white space -/

theorem decDigit_numChar (c : Char) (h : (decDigit c).isSome = true) : numChar c = true := by
  unfold decDigit at h
  unfold numChar hexDigit
  split at h
  · next hc => simp [hc]
  · exact absurd h (by simp)

theorem isspace_not_numChar (c : Char) (h : isspace c = true) : numChar c = false := by
  unfold isspace at h
  simp only [Bool.decide_or, Bool.or_eq_true, decide_eq_true_eq] at h
  rcases h with h | h | h | h | h | h <;> subst h <;> decide

/-- The digits that `scanDigits` reads and the rest it returns make up its input. -/
theorem scanDigits_split (digit : Char → Option Nat) (base : Nat) (s : List Char)
    (acc : Nat) :
    ∃ pre, s = pre ++ (scanDigits digit base s acc).2.2 ∧
      ∀ c ∈ pre, (digit c).isSome = true := by
  induction s generalizing acc with
  | nil => exact ⟨[], rfl, by simp⟩
  | cons c cs ih =>
    unfold scanDigits
    cases hd : digit c with
    | none => exact ⟨[], rfl, by simp⟩
    | some d =>
      obtain ⟨pre, hpre, hall⟩ := ih (acc * base + d)
      refine ⟨c :: pre, ?_, ?_⟩
      · dsimp only
        rw [List.cons_append, ← hpre]
      · intro x hx
        rcases List.mem_cons.1 hx with rfl | hx
        · rw [hd]; rfl
        · exact hall x hx

theorem scanMantissa_split (digit : Char → Option Nat) (base : Nat) (s : List Char)
    (hdig : ∀ c, (digit c).isSome = true → numChar c = true) :
    ∃ pre, s = pre ++ (scanMantissa digit base s).rest ∧ ∀ c ∈ pre, numChar c = true := by
  obtain ⟨pre1, h1, hall1⟩ := scanDigits_split digit base s 0
  unfold scanMantissa
  dsimp only
  split
  · next r hr =>
    obtain ⟨pre2, h2, hall2⟩ := scanDigits_split digit base r (scanDigits digit base s 0).1
    refine ⟨pre1 ++ '.' :: pre2, ?_, ?_⟩
    · dsimp only
      rw [List.append_assoc, List.cons_append, ← h2, ← hr, ← h1]
    · intro c hc
      rcases List.mem_append.1 hc with hc | hc
      · exact hdig c (hall1 c hc)
      · rcases List.mem_cons.1 hc with rfl | hc
        · decide
        · exact hdig c (hall2 c hc)
  · exact ⟨pre1, h1, fun c hc => hdig c (hall1 c hc)⟩

theorem scanDigits_all (s : List Char) (acc : Nat)
    (h : (scanDigits decDigit 10 s acc).2.2 = []) : ∀ c ∈ s, numChar c = true := by
  obtain ⟨pre, hpre, hall⟩ := scanDigits_split decDigit 10 s acc
  rw [h, List.append_nil] at hpre
  intro c hc
  rw [hpre] at hc
  exact decDigit_numChar c (hall c hc)

theorem exponentPart_numChar (lower upper : Char) (hl : numChar lower = true)
    (hu : numChar upper = true) (r : List Char) (x : Int)
    (h : exponentPart lower upper r = some x) : ∀ c ∈ r, numChar c = true := by
  unfold exponentPart at h
  split at h
  · exact absurd h (by simp)
  · next c rest =>
    split at h
    · next hc =>
      have hcn : numChar c = true := by
        rcases hc with rfl | rfl
        · exact hl
        · exact hu
      split at h
      · next r2 =>
        dsimp only at h
        split at h
        · next hd =>
          intro y hy
          rcases List.mem_cons.1 hy with rfl | hy
          · exact hcn
          · rcases List.mem_cons.1 hy with rfl | hy
            · decide
            · exact scanDigits_all r2 0 hd.2 y hy
        · exact absurd h (by simp)
      · next r2 =>
        dsimp only at h
        split at h
        · next hd =>
          intro y hy
          rcases List.mem_cons.1 hy with rfl | hy
          · exact hcn
          · rcases List.mem_cons.1 hy with rfl | hy
            · decide
            · exact scanDigits_all r2 0 hd.2 y hy
        · exact absurd h (by simp)
      · dsimp only at h
        split at h
        · next hd =>
          intro y hy
          rcases List.mem_cons.1 hy with rfl | hy
          · exact hcn
          · exact scanDigits_all rest 0 hd.2 y hy
        · exact absurd h (by simp)
    · exact absurd h (by simp)

theorem hexDigit_numChar (c : Char) (h : (hexDigit c).isSome = true) : numChar c = true := by
  unfold numChar
  simp [h]

theorem decimalConstant_numChar (w : List Char) (v : Double)
    (h : decimalConstant w = some v) : ∀ c ∈ w, numChar c = true := by
  obtain ⟨pre, hpre, hall⟩ := scanMantissa_split decDigit 10 w decDigit_numChar
  unfold decimalConstant at h
  dsimp only at h
  split at h
  · exact absurd h (by simp)
  · split at h
    · next hr =>
      rw [hr, List.append_nil] at hpre
      rw [hpre]; exact hall
    · split at h
      · next x hx =>
        intro c hc
        rw [hpre] at hc
        rcases List.mem_append.1 hc with hc | hc
        · exact hall c hc
        · exact exponentPart_numChar 'e' 'E' (by decide) (by decide) _ x hx c hc
      · exact absurd h (by simp)

theorem hexConstant_numChar (w : List Char) (v : Double)
    (h : hexConstant w = some v) : ∀ c ∈ w, numChar c = true := by
  unfold hexConstant at h
  split at h
  · next x body =>
    obtain ⟨pre, hpre, hall⟩ := scanMantissa_split hexDigit 16 body hexDigit_numChar
    split at h
    · next hx =>
      have hxn : numChar x = true := by
        rcases hx with rfl | rfl <;> decide
      have hbody : ∀ c ∈ body, numChar c = true := by
        dsimp only at h
        split at h
        · exact absurd h (by simp)
        · split at h
          · next hr =>
            rw [hr, List.append_nil] at hpre
            rw [hpre]; exact hall
          · split at h
            · next p hp =>
              intro c hc
              rw [hpre] at hc
              rcases List.mem_append.1 hc with hc | hc
              · exact hall c hc
              · exact exponentPart_numChar 'p' 'P' (by decide) (by decide) _ p hp c hc
            · exact absurd h (by simp)
      intro c hc
      rcases List.mem_cons.1 hc with rfl | hc
      · decide
      · rcases List.mem_cons.1 hc with rfl | hc
        · exact hxn
        · exact hbody c hc
    · exact absurd h (by simp)
  · exact absurd h (by simp)

/-- A string of the expected form consists of the characters of floating constants. -/
theorem floatConstant_numChar (w : List Char) (v : Double)
    (h : floatConstant w = some v) : ∀ c ∈ w, numChar c = true := by
  unfold floatConstant at h
  split at h
  · next v1 h1 => exact hexConstant_numChar w v1 h1
  · exact decimalConstant_numChar w v h

theorem strtodUpTo_le (s : List Char) (k : Nat) : (strtodUpTo s k).2 ≤ k := by
  induction k with
  | zero => exact Nat.le_refl _
  | succ k ih =>
    unfold strtodUpTo
    split
    · exact Nat.le_refl _
    · exact Nat.le_succ_of_le ih

/-- The conversion never reads past the end of the string. -/
theorem strtod_le_length (s : List Char) : (strtod s).2 ≤ s.length :=
  strtodUpTo_le s _

/-- The longest prefix of the expected form is found from any bound at or above its
length. -/
theorem strtodUpTo_of_le (s : List Char) (j K : Nat) (hj : (strtodUpTo s K).2 ≤ j)
    (hK : j ≤ K) : strtodUpTo s j = strtodUpTo s K := by
  induction K with
  | zero =>
    have : j = 0 := Nat.le_zero.mp hK
    rw [this]
  | succ K ih =>
    rcases Nat.eq_or_lt_of_le hK with h | h
    · rw [h]
    · have hjK : j ≤ K := Nat.le_of_lt_succ h
      cases hf : floatConstant (s.take (K + 1)) with
      | some v =>
        rw [strtodUpTo, hf] at hj
        dsimp only at hj
        omega
      | none =>
        rw [strtodUpTo, hf] at hj
        dsimp only at hj
        rw [ih hj hjK]
        conv => rhs; rw [strtodUpTo, hf]

theorem strtodUpTo_congr (s t : List Char) (j : Nat)
    (h : ∀ k, k ≤ j → s.take k = t.take k) : strtodUpTo s j = strtodUpTo t j := by
  induction j with
  | zero => rfl
  | succ j ih =>
    rw [strtodUpTo, strtodUpTo, h (j + 1) (Nat.le_refl _),
      ih (fun k hk => h k (Nat.le_succ_of_le hk))]

theorem strtodUpTo_skip (s : List Char) (j K : Nat) (hjK : j ≤ K)
    (h : ∀ k, j < k → k ≤ K → floatConstant (s.take k) = none) :
    strtodUpTo s K = strtodUpTo s j := by
  induction K with
  | zero =>
    have : j = 0 := Nat.le_zero.mp hjK
    rw [this]
  | succ K ih =>
    rcases Nat.eq_or_lt_of_le hjK with h1 | h1
    · rw [h1]
    · have hjK2 : j ≤ K := Nat.le_of_lt_succ h1
      rw [strtodUpTo, h (K + 1) h1 (Nat.le_refl _)]
      exact ih hjK2 (fun k hk1 hk2 => h k hk1 (Nat.le_succ_of_le hk2))

/-- White space put in after the converted part, or anywhere later, does not change what
`strtod` converts. -/
theorem strtod_insert_whitespace (a ws post : List Char) (hws : ∀ c ∈ ws, isspace c = true)
    (h : (strtod (a ++ post)).2 ≤ a.length) :
    strtod (a ++ ws ++ post) = strtod (a ++ post) := by
  cases ws with
  | nil => simp
  | cons w0 ws1 =>
    have hw0 : numChar w0 = false := isspace_not_numChar w0 (hws w0 (List.mem_cons_self _ _))
    have hlen1 : a.length ≤ (a ++ w0 :: ws1 ++ post).length := by simp
    have hlen2 : a.length ≤ (a ++ post).length := by simp
    have e1 : strtod (a ++ w0 :: ws1 ++ post) =
        strtodUpTo (a ++ w0 :: ws1 ++ post) a.length := by
      unfold strtod
      apply strtodUpTo_skip _ _ _ hlen1
      intro k hk1 hk2
      cases hf : floatConstant ((a ++ w0 :: ws1 ++ post).take k) with
      | none => rfl
      | some v =>
        have hall := floatConstant_numChar _ v hf
        have hmem : w0 ∈ (a ++ w0 :: ws1 ++ post).take k := by
          rw [List.append_assoc, List.take_append_eq_append_take]
          apply List.mem_append_right
          have : k - a.length = (k - a.length - 1) + 1 := by omega
          rw [this]
          simp
        rw [hall w0 hmem] at hw0
        exact absurd hw0 (by simp)
    have e2 : strtodUpTo (a ++ w0 :: ws1 ++ post) a.length =
        strtodUpTo (a ++ post) a.length := by
      apply strtodUpTo_congr
      intro k hk
      rw [List.append_assoc, List.take_append_of_le_length hk,
        List.take_append_of_le_length hk]
    have e3 : strtodUpTo (a ++ post) a.length = strtod (a ++ post) :=
      strtodUpTo_of_le _ _ _ h hlen2
    rw [e1, e2, e3]

/-! ## White space between tokens -/

theorem countSpaces_append (u v : List Char) (hu : ∀ c ∈ u, isspace c = true) :
    countSpaces (u ++ v) = u.length + countSpaces v := by
  induction u with
  | nil => simp
  | cons x u ih =>
    rw [List.cons_append, countSpaces, if_pos (hu x (List.mem_cons_self _ _)),
      ih (fun c hc => hu c (List.mem_cons_of_mem _ hc)), List.length_cons]
    omega

theorem isspace_of_le_countSpaces (u v : List Char) (h : u.length ≤ countSpaces (u ++ v)) :
    ∀ c ∈ u, isspace c = true := by
  induction u with
  | nil => simp
  | cons x u ih =>
    rw [List.cons_append, countSpaces] at h
    by_cases hx : isspace x = true
    · rw [if_pos hx, List.length_cons] at h
      intro c hc
      rcases List.mem_cons.1 hc with rfl | hc
      · exact hx
      · exact ih (by omega) c hc
    · rw [if_neg hx, List.length_cons] at h
      omega

theorem scanHead_cons (c : Char) (rest : List Char) :
    scanHead (c :: rest) =
      if c = '\x00' then (⟨.END, Double.zero false⟩, 0)
      else if isdigit c ∨ c = '.' then
        (⟨.NUMBER, (strtod (c :: rest)).1⟩, (strtod (c :: rest)).2)
      else (⟨charToken c, Double.zero false⟩, 1) := rfl

/-- Leading white space only adds to the distance the cursor moves. -/
theorem scanToken_append_left (u v : List Char) (hu : ∀ c ∈ u, isspace c = true) :
    scanToken (u ++ v) = ((scanToken v).1, u.length + (scanToken v).2) := by
  unfold scanToken
  rw [countSpaces_append u v hu, ← List.drop_drop, List.drop_left, Nat.add_assoc]

/-- White space put in at or after the end of the next token: the token is the same, and
the cursor moves as before, or the token ends just where the white space starts and the
cursor also moves over the white space. -/
theorem scanToken_insert_whitespace (u ws post : List Char)
    (hws : ∀ c ∈ ws, isspace c = true) (h : (scanToken (u ++ post)).2 ≤ u.length) :
    scanToken (u ++ ws ++ post) = scanToken (u ++ post) ∨
      ((scanToken (u ++ post)).2 = u.length ∧
        scanToken (u ++ ws ++ post) = ((scanToken (u ++ post)).1, u.length + ws.length)) := by
  induction u with
  | nil =>
    right
    have h0 : (scanToken post).2 = 0 := by simpa using h
    refine ⟨by simpa using h0, ?_⟩
    rw [List.nil_append, List.nil_append, scanToken_append_left ws post hws, h0]
    simp
  | cons x u ih =>
    by_cases hx : isspace x = true
    · have e1 : ∀ t, scanToken (x :: t) = ((scanToken t).1, 1 + (scanToken t).2) := by
        intro t
        have := scanToken_append_left [x] t (by simpa using hx)
        simpa using this
      rw [List.cons_append, e1] at h
      have h2 : (scanToken (u ++ post)).2 ≤ u.length := by
        simp only [List.length_cons] at h; omega
      rw [List.cons_append, List.cons_append, List.cons_append, e1, e1]
      rcases ih h2 with h3 | ⟨h3, h4⟩
      · left; rw [h3]
      · right
        refine ⟨by rw [h3, List.length_cons]; omega, ?_⟩
        rw [h4, List.length_cons]
        simp only [Prod.mk.injEq, true_and]
        omega
    · left
      have hc : ∀ t, countSpaces (x :: t) = 0 := by
        intro t; rw [countSpaces, if_neg hx]
      have e1 : ∀ t, scanToken (x :: t) = scanHead (x :: t) := by
        intro t
        unfold scanToken
        rw [hc]
        simp
      rw [List.cons_append, e1] at h
      rw [List.cons_append, List.cons_append, List.cons_append, e1, e1]
      rw [scanHead_cons] at h ⊢
      rw [scanHead_cons]
      by_cases h0 : x = '\x00'
      · rw [if_pos h0, if_pos h0]
      · rw [if_neg h0] at h ⊢
        rw [if_neg h0]
        by_cases h1 : isdigit x = true ∨ x = '.'
        · rw [if_pos h1] at h ⊢
          rw [if_pos h1]
          have := strtod_insert_whitespace (x :: u) ws post hws h
          simp only [List.cons_append, List.append_assoc] at this ⊢
          rw [this]
        · rw [if_neg h1, if_neg h1]

theorem lexAfter_input (k : Nat) (lexer : Lexer) : (lexAfter k lexer).input = lexer.input := by
  induction k generalizing lexer with
  | zero => rfl
  | succ k ih => rw [lexAfter, ih, lexer_next_token_input]

theorem lexAfter_position (k : Nat) (lexer : Lexer) :
    lexer.position ≤ (lexAfter k lexer).position := by
  induction k generalizing lexer with
  | zero => exact Nat.le_refl _
  | succ k ih =>
    rw [lexAfter]
    exact Nat.le_trans (lexer_next_token_position lexer) (ih _)

/-- Behind the inserted white space the two lexers read the same characters. -/
theorem lexTokens_after (pre ws post : List Char) (n : Nat) (p : Nat)
    (hp : pre.length ≤ p) :
    lexTokens n ⟨pre ++ ws ++ post, p + ws.length⟩ = lexTokens n ⟨pre ++ post, p⟩ := by
  induction n generalizing p with
  | zero => rfl
  | succ n ih =>
    have hd : (pre ++ ws ++ post).drop (p + ws.length) = (pre ++ post).drop p := by
      obtain ⟨d, rfl⟩ : ∃ d, p = pre.length + d := ⟨p - pre.length, by omega⟩
      rw [List.append_assoc, Nat.add_assoc, ← List.drop_drop, List.drop_left,
        Nat.add_comm, ← List.drop_drop, List.drop_left, ← List.drop_drop, List.drop_left]
    rw [lexTokens, lexTokens, lexer_next_token_eq_scanToken, lexer_next_token_eq_scanToken]
    dsimp only
    rw [hd]
    have := ih (p + (scanToken ((pre ++ post).drop p)).2) (by omega)
    rw [← this]
    congr 3
    omega

/-- Up to the inserted white space: if the cursor of the original lexer is, `k` tokens
later, at or before the place of insertion and the next token starts at or after it, the
two lexers return the same tokens. -/
theorem lexTokens_before (pre ws post : List Char) (hws : ∀ c ∈ ws, isspace c = true)
    (n k : Nat) (p : Nat)
    (h1 : (lexAfter k ⟨pre ++ post, p⟩).position ≤ pre.length)
    (h2 : pre.length ≤ (skip_whitespace (lexAfter k ⟨pre ++ post, p⟩)).position) :
    lexTokens n ⟨pre ++ ws ++ post, p⟩ = lexTokens n ⟨pre ++ post, p⟩ := by
  induction n generalizing k p with
  | zero => rfl
  | succ n ih =>
    have hp : p ≤ pre.length := Nat.le_trans (lexAfter_position k ⟨pre ++ post, p⟩) h1
    have hd1 : (pre ++ post).drop p = pre.drop p ++ post := by
      rw [List.drop_append_of_le_length hp]
    have hd2 : (pre ++ ws ++ post).drop p = pre.drop p ++ ws ++ post := by
      rw [List.append_assoc, List.drop_append_of_le_length hp, List.append_assoc]
    have hlen : (pre.drop p).length = pre.length - p := List.length_drop _ _
    rw [lexTokens, lexTokens, lexer_next_token_eq_scanToken, lexer_next_token_eq_scanToken]
    dsimp only
    rw [hd1, hd2]
    cases k with
    | zero =>
      -- the next token starts at or after the place of insertion
      rw [lexAfter, skip_whitespace_eq] at h2
      dsimp only at h2
      rw [hd1] at h2
      have hsp : ∀ c ∈ pre.drop p, isspace c = true :=
        isspace_of_le_countSpaces _ post (by rw [hlen]; omega)
      have hsp2 : ∀ c ∈ pre.drop p ++ ws, isspace c = true := by
        intro c hc
        rcases List.mem_append.1 hc with hc | hc
        · exact hsp c hc
        · exact hws c hc
      rw [scanToken_append_left _ post hsp, scanToken_append_left _ post hsp2]
      dsimp only
      have := lexTokens_after pre ws post n (p + ((pre.drop p).length + (scanToken post).2))
        (by rw [hlen]; omega)
      rw [← this]
      congr 3
      rw [List.length_append]
      omega
    | succ k =>
      rw [lexAfter, lexer_next_token_eq_scanToken] at h1 h2
      dsimp only at h1 h2
      rw [hd1] at h1 h2
      have hle : p + (scanToken (pre.drop p ++ post)).2 ≤ pre.length :=
        Nat.le_trans
          (lexAfter_position k ⟨pre ++ post, p + (scanToken (pre.drop p ++ post)).2⟩) h1
      rcases scanToken_insert_whitespace (pre.drop p) ws post hws (by rw [hlen]; omega) with
        h3 | ⟨h3, h4⟩
      · rw [h3]
        rw [ih k _ h1 h2]
      · rw [h4]
        dsimp only
        have := lexTokens_after pre ws post n (p + (scanToken (pre.drop p ++ post)).2)
          (by rw [h3, hlen]; omega)
        rw [← this]
        congr 3
        rw [h3]
        omega

/-- White space inserted at a token boundary leaves the sequence of tokens unchanged. -/
theorem lexTokens_insert_whitespace (pre ws post : List Char)
    (hws : ∀ c ∈ ws, isspace c = true) (hb : TokenBoundary (pre ++ post) pre.length)
    (n : Nat) :
    lexTokens n (lexer_init (pre ++ ws ++ post)) = lexTokens n (lexer_init (pre ++ post)) := by
  obtain ⟨k, h1, h2⟩ := hb
  exact lexTokens_before pre ws post hws n k 0 h1 h2

/-! ## The parser sees the lexer through its tokens only -/

theorem SameTokens.next {l1 l2 : Lexer} (h : SameTokens l1 l2) :
    (lexer_next_token l1).1 = (lexer_next_token l2).1 ∧
      SameTokens (lexer_next_token l1).2 (lexer_next_token l2).2 := by
  constructor
  · have := h 1
    simp only [lexTokens] at this
    exact (List.cons.inj this).1
  · intro n
    have := h (n + 1)
    rw [lexTokens, lexTokens] at this
    exact (List.cons.inj this).2

theorem Parser.Similar.advance_similar {p q : Parser} (h : p.Similar q) :
    (advance p).Similar (advance q) :=
  ⟨h.2.2.2.next.1, h.2.1, h.2.2.1, h.2.2.2.next.2⟩

theorem ResultSimilar.cases {a b : Option (ASTPtr × Parser)} (h : ResultSimilar a b) :
    (a = none ∧ b = none) ∨
      ∃ n q1 q2, a = some (n, q1) ∧ b = some (n, q2) ∧ q1.Similar q2 := by
  cases a with
  | none =>
    cases b with
    | none => exact Or.inl ⟨rfl, rfl⟩
    | some r => exact h.elim
  | some r1 =>
    cases b with
    | none => exact h.elim
    | some r2 =>
      obtain ⟨n1, q1⟩ := r1
      obtain ⟨n2, q2⟩ := r2
      obtain ⟨h1, h2⟩ := h
      have h1b : n1 = n2 := h1
      subst h1b
      exact Or.inr ⟨n1, q1, q2, rfl, rfl, h2⟩

/-- Similar parser states give similar results, with the same fuel. -/
theorem parse_similar (fuel : Nat) :
    (∀ p q : Parser, p.Similar q → ResultSimilar (parse_factor fuel p) (parse_factor fuel q)) ∧
    (∀ (node : ASTPtr) (p q : Parser), p.Similar q →
      ResultSimilar (parse_term_loop fuel node p) (parse_term_loop fuel node q)) ∧
    (∀ p q : Parser, p.Similar q → ResultSimilar (parse_term fuel p) (parse_term fuel q)) ∧
    (∀ (node : ASTPtr) (p q : Parser), p.Similar q →
      ResultSimilar (parse_expression_loop fuel node p) (parse_expression_loop fuel node q)) ∧
    (∀ p q : Parser, p.Similar q →
      ResultSimilar (parse_expression fuel p) (parse_expression fuel q)) := by
  induction fuel with
  | zero =>
    refine ⟨?_, ?_, ?_, ?_, ?_⟩
    · intro p q _; rw [parse_factor, parse_factor]; trivial
    · intro node p q _; rw [parse_term_loop, parse_term_loop]; trivial
    · intro p q _; rw [parse_term, parse_term]; trivial
    · intro node p q _; rw [parse_expression_loop, parse_expression_loop]; trivial
    · intro p q _; rw [parse_expression, parse_expression]; trivial
  | succ f ih =>
    obtain ⟨ihF, ihTL, ihT, ihEL, ihE⟩ := ih
    refine ⟨?_, ?_, ?_, ?_, ?_⟩
    · -- parse_factor
      intro p q hs
      rw [parse_factor, parse_factor, ← hs.1]
      by_cases h1 : p.current.type = .NUMBER
      · rw [if_pos h1, if_pos h1]
        dsimp only
        rw [show (advance q).heap = (advance p).heap from hs.2.2.1.symm]
        exact ⟨rfl, hs.advance_similar.1, hs.advance_similar.2.1, rfl, hs.advance_similar.2.2.2⟩
      · rw [if_neg h1, if_neg h1]
        by_cases h2 : p.current.type = .LPAREN
        · rw [if_pos h2, if_pos h2]
          dsimp only
          rcases (ihE _ _ hs.advance_similar).cases with ⟨e1, e2⟩ | ⟨n, q1, q2, e1, e2, hs2⟩
          · rw [e1, e2]; trivial
          · rw [e1, e2]
            dsimp only
            by_cases hn : n.isNull = true
            · rw [if_pos hn, if_pos hn]
              exact ⟨rfl, hs2⟩
            · rw [if_neg hn, if_neg hn, ← hs2.1]
              by_cases hr : q1.current.type ≠ .RPAREN
              · rw [if_pos hr, if_pos hr]
                exact ⟨rfl, rfl, rfl, hs2.2.2.1, hs2.2.2.2⟩
              · rw [if_neg hr, if_neg hr]
                exact ⟨rfl, hs2.advance_similar⟩
        · rw [if_neg h2, if_neg h2]
          exact ⟨rfl, rfl, rfl, hs.2.2.1, hs.2.2.2⟩
    · -- parse_term_loop
      intro node p q hs
      rw [parse_term_loop, parse_term_loop, ← hs.1]
      by_cases h1 : p.current.type = .MULTIPLY ∨ p.current.type = .DIVIDE
      · rw [if_pos h1, if_pos h1]
        dsimp only
        rcases (ihF _ _ hs.advance_similar).cases with ⟨e1, e2⟩ | ⟨n, q1, q2, e1, e2, hs2⟩
        · rw [e1, e2]; trivial
        · rw [e1, e2]
          dsimp only
          by_cases hn : n.isNull = true
          · rw [if_pos hn, if_pos hn]
            exact ⟨rfl, hs2⟩
          · rw [if_neg hn, if_neg hn, ← hs2.2.2.1]
            by_cases hc : (create_binary_op_node p.current.type node n q1.heap).1.isNull = true
            · rw [if_pos hc, if_pos hc]
              exact ⟨rfl, hs2.1, rfl, rfl, hs2.2.2.2⟩
            · rw [if_neg hc, if_neg hc]
              exact ihTL _ _ _ ⟨hs2.1, hs2.2.1, rfl, hs2.2.2.2⟩
      · rw [if_neg h1, if_neg h1]
        exact ⟨rfl, hs⟩
    · -- parse_term
      intro p q hs
      rw [parse_term, parse_term]
      rcases (ihF _ _ hs).cases with ⟨e1, e2⟩ | ⟨n, q1, q2, e1, e2, hs2⟩
      · rw [e1, e2]; trivial
      · rw [e1, e2]
        dsimp only
        by_cases hn : n.isNull = true
        · rw [if_pos hn, if_pos hn]
          exact ⟨rfl, hs2⟩
        · rw [if_neg hn, if_neg hn]
          exact ihTL _ _ _ hs2
    · -- parse_expression_loop
      intro node p q hs
      rw [parse_expression_loop, parse_expression_loop, ← hs.1]
      by_cases h1 : p.current.type = .PLUS ∨ p.current.type = .MINUS
      · rw [if_pos h1, if_pos h1]
        dsimp only
        rcases (ihT _ _ hs.advance_similar).cases with ⟨e1, e2⟩ | ⟨n, q1, q2, e1, e2, hs2⟩
        · rw [e1, e2]; trivial
        · rw [e1, e2]
          dsimp only
          by_cases hn : n.isNull = true
          · rw [if_pos hn, if_pos hn]
            exact ⟨rfl, hs2⟩
          · rw [if_neg hn, if_neg hn, ← hs2.2.2.1]
            by_cases hc : (create_binary_op_node p.current.type node n q1.heap).1.isNull = true
            · rw [if_pos hc, if_pos hc]
              exact ⟨rfl, hs2.1, rfl, rfl, hs2.2.2.2⟩
            · rw [if_neg hc, if_neg hc]
              exact ihEL _ _ _ ⟨hs2.1, hs2.2.1, rfl, hs2.2.2.2⟩
      · rw [if_neg h1, if_neg h1]
        exact ⟨rfl, hs⟩
    · -- parse_expression
      intro p q hs
      rw [parse_expression, parse_expression]
      rcases (ihT _ _ hs).cases with ⟨e1, e2⟩ | ⟨n, q1, q2, e1, e2, hs2⟩
      · rw [e1, e2]; trivial
      · rw [e1, e2]
        dsimp only
        by_cases hn : n.isNull = true
        · rw [if_pos hn, if_pos hn]
          exact ⟨rfl, hs2⟩
        · rw [if_neg hn, if_neg hn]
          exact ihEL _ _ _ hs2

/-- Lexers that return the same tokens make `parse` return the same pointer, error slot and
allocator state. -/
theorem parse_same_tokens (l1 l2 : Lexer) (error : Option String) (heap : Heap)
    (h : SameTokens l1 l2) :
    ∃ ast q1 q2, parse l1 error heap = some (ast, q1) ∧ parse l2 error heap = some (ast, q2) ∧
      q1.error = q2.error ∧ q1.heap = q2.heap := by
  obtain ⟨n, q1, hq1, _⟩ := (parse_fuel_enough (parseFuel l1)).2.2.2.2
    (parse_start l1 error heap)
    (by have := parse_start_weight l1 error heap
        unfold parseFuel; unfold Lexer.remaining at this; omega)
  have hsim : (parse_start l1 error heap).Similar (parse_start l2 error heap) :=
    Parser.Similar.advance_similar ⟨rfl, rfl, rfl, h⟩
  rcases ((parse_similar (parseFuel l1)).2.2.2.2 _ _ hsim).cases with
    ⟨e1, _⟩ | ⟨n2, q1b, q2, e1, e2, hs2⟩
  · rw [hq1] at e1; exact absurd e1 (by simp)
  · rw [hq1] at e1
    obtain ⟨rfl, rfl⟩ := Prod.mk.inj (Option.some.inj e1)
    rw [parse_of_expression l1 error heap _ _ _ hq1, parse_of_expression l2 error heap _ _ _ e2,
      ← hs2.1]
    by_cases hn : n.isNull = true
    · rw [if_pos hn, if_pos hn]
      exact ⟨_, _, _, rfl, rfl, hs2.2.1, hs2.2.2.1⟩
    · rw [if_neg hn, if_neg hn]
      by_cases he : q1.current.type ≠ .END
      · rw [if_pos he, if_pos he]
        exact ⟨_, _, _, rfl, rfl, rfl, hs2.2.2.1⟩
      · rw [if_neg he, if_neg he]
        exact ⟨_, _, _, rfl, rfl, hs2.2.1, hs2.2.2.1⟩

/-- Inputs whose lexers return the same tokens make `main` do the same. -/
theorem main_same_tokens (s1 s2 : List Char) (heap : Heap)
    (h : SameTokens (lexer_init s1) (lexer_init s2)) : main s1 heap = main s2 heap := by
  obtain ⟨ast, q1, q2, e1, e2, he, _⟩ := parse_same_tokens _ _ none heap h
  unfold main
  dsimp only
  rw [e1, e2]
  dsimp only
  rw [he]

theorem WhitespaceInserted.same_tokens {s t : List Char} (h : WhitespaceInserted s t) :
    SameTokens (lexer_init t) (lexer_init s) := by
  induction h with
  | refl => exact fun _ => rfl
  | step pre ws post _ hws hb ih =>
    intro n
    rw [lexTokens_insert_whitespace pre ws post hws hb n]
    exact ih n

/-! ## Shape of parsed trees, rendering -/

theorem WellFormed.wellShaped {t : ASTPtr} (h : WellFormed t) : t.wellShaped = true := by
  induction h with
  | number v _ => rfl
  | binary_op op l r hop _ _ ihl ihr =>
    simp only [ASTPtr.wellShaped, ihl, ihr, Bool.and_true, decide_eq_true_eq]
    exact hop

/-- Evaluating a tree of the parser's shape with no error pending gives a number or the
error "Division by zero". -/
theorem evaluate_wellShaped (t : ASTPtr) (h : t.wellShaped = true) :
    (evaluate t none).2 = none ∨ (evaluate t none).2 = some "Division by zero" := by
  induction t with
  | null => exact absurd h (by simp [ASTPtr.wellShaped])
  | number v => exact Or.inl rfl
  | binary_op op l r ihl ihr =>
    simp only [ASTPtr.wellShaped, Bool.and_eq_true, decide_eq_true_eq] at h
    obtain ⟨⟨hop, hl⟩, hr⟩ := h
    rcases ihl hl with el | el
    swap
    · right; rw [evaluate_binary_op_left_error op l r _ el]
    rcases ihr hr with er | er
    swap
    · right; rw [evaluate_binary_op_right_error op l r _ el er]
    rw [evaluate_binary_op op l r el er]
    rcases hop with h | h | h | h <;> subst h <;> dsimp only
    · exact Or.inl rfl
    · exact Or.inl rfl
    · exact Or.inl rfl
    · by_cases hz : (evaluate r none).1.isZero = true
      · rw [if_pos hz]; exact Or.inr rfl
      · rw [if_neg hz]; exact Or.inl rfl

/-- The rendering of a tree of the parser's shape is a phrase of `factor` for that tree. -/
theorem Derives.of_render (t : ASTPtr) (h : t.wellShaped = true) :
    Derives .factor (render t) t := by
  induction t with
  | null => exact absurd h (by simp [ASTPtr.wellShaped])
  | number v => exact .number v
  | binary_op op l r ihl ihr =>
    simp only [ASTPtr.wellShaped, Bool.and_eq_true, decide_eq_true_eq] at h
    obtain ⟨⟨hop, hl⟩, hr⟩ := h
    have dl := ihl hl
    have dr := ihr hr
    by_cases hadd : op = .PLUS ∨ op = .MINUS
    · have d : Derives .factor
          (Token.op .LPAREN ::
            (((render l ++ []) ++ (Token.op op :: ((render r ++ []) ++ []))) ++
              [Token.op .RPAREN])) (.binary_op op l r) :=
        .paren (.expression (.term dl .term_done)
          (.expression_more hadd (.term dr .term_done) .expression_done))
      simpa [render] using d
    · have hmul : op = .MULTIPLY ∨ op = .DIVIDE := by
        rcases hop with h | h | h | h
        · exact absurd (Or.inl h) hadd
        · exact absurd (Or.inr h) hadd
        · exact Or.inl h
        · exact Or.inr h
      have d : Derives .factor
          (Token.op .LPAREN ::
            (((render l ++ (Token.op op :: (render r ++ []))) ++ []) ++
              [Token.op .RPAREN])) (.binary_op op l r) :=
        .paren (.expression (.term dl (.term_more hmul dr .term_done)) .expression_done)
      simpa [render] using d

/-! ## When allocation succeeds, NULL comes with an error -/

/-- When allocation succeeds, every procedure that returns NULL has set an error message,
and every procedure that returns a node has left the error slot as it was. -/
theorem parse_error_set (fuel : Nat) :
    (∀ (p : Parser) n q, AllocSucceeds p.heap → parse_factor fuel p = some (n, q) →
      AllocSucceeds q.heap ∧ (n.isNull = true → ∃ msg, q.error = some msg) ∧
        (n.isNull = false → q.error = p.error)) ∧
    (∀ (node : ASTPtr) (p : Parser) n q, AllocSucceeds p.heap → node.isNull = false →
      parse_term_loop fuel node p = some (n, q) →
      AllocSucceeds q.heap ∧ (n.isNull = true → ∃ msg, q.error = some msg) ∧
        (n.isNull = false → q.error = p.error)) ∧
    (∀ (p : Parser) n q, AllocSucceeds p.heap → parse_term fuel p = some (n, q) →
      AllocSucceeds q.heap ∧ (n.isNull = true → ∃ msg, q.error = some msg) ∧
        (n.isNull = false → q.error = p.error)) ∧
    (∀ (node : ASTPtr) (p : Parser) n q, AllocSucceeds p.heap → node.isNull = false →
      parse_expression_loop fuel node p = some (n, q) →
      AllocSucceeds q.heap ∧ (n.isNull = true → ∃ msg, q.error = some msg) ∧
        (n.isNull = false → q.error = p.error)) ∧
    (∀ (p : Parser) n q, AllocSucceeds p.heap → parse_expression fuel p = some (n, q) →
      AllocSucceeds q.heap ∧ (n.isNull = true → ∃ msg, q.error = some msg) ∧
        (n.isNull = false → q.error = p.error)) := by
  induction fuel with
  | zero =>
    refine ⟨?_, ?_, ?_, ?_, ?_⟩
    · intro p n q _ h; rw [parse_factor] at h; exact absurd h (by simp)
    · intro node p n q _ _ h; rw [parse_term_loop] at h; exact absurd h (by simp)
    · intro p n q _ h; rw [parse_term] at h; exact absurd h (by simp)
    · intro node p n q _ _ h; rw [parse_expression_loop] at h; exact absurd h (by simp)
    · intro p n q _ h; rw [parse_expression] at h; exact absurd h (by simp)
  | succ f ih =>
    obtain ⟨ihF, ihTL, ihT, ihEL, ihE⟩ := ih
    refine ⟨?_, ?_, ?_, ?_, ?_⟩
    · -- parse_factor
      intro p n q hh h
      rw [parse_factor] at h
      by_cases h1 : p.current.type = .NUMBER
      · rw [if_pos h1] at h
        dsimp only at h
        have hc := create_number_node_of_succeeds p.current.value (advance p).heap hh
        obtain ⟨rfl, rfl⟩ := Prod.mk.inj (Option.some.inj h)
        refine ⟨hc.2, fun hn => ?_, fun _ => rfl⟩
        rw [hc.1] at hn
        exact absurd hn (by simp [ASTPtr.isNull])
      · rw [if_neg h1] at h
        by_cases h2 : p.current.type = .LPAREN
        · rw [if_pos h2] at h
          dsimp only at h
          cases hq : parse_expression f (advance p) with
          | none => rw [hq] at h; exact absurd h (by simp)
          | some nq =>
            obtain ⟨n1, q1⟩ := nq
            rw [hq] at h
            dsimp only at h
            obtain ⟨hh1, hnull1, hok1⟩ := ihE (advance p) n1 q1 hh hq
            by_cases hn : n1.isNull = true
            · rw [if_pos hn] at h
              obtain ⟨rfl, rfl⟩ := Prod.mk.inj (Option.some.inj h)
              exact ⟨hh1, fun _ => hnull1 hn,
                fun hc => absurd hc (by simp [ASTPtr.isNull])⟩
            · rw [if_neg hn] at h
              by_cases hr : q1.current.type ≠ .RPAREN
              · rw [if_pos hr] at h
                obtain ⟨rfl, rfl⟩ := Prod.mk.inj (Option.some.inj h)
                exact ⟨hh1, fun _ => ⟨_, rfl⟩,
                  fun hc => absurd hc (by simp [ASTPtr.isNull])⟩
              · rw [if_neg hr] at h
                obtain ⟨rfl, rfl⟩ := Prod.mk.inj (Option.some.inj h)
                exact ⟨hh1, fun hc => absurd hc hn, fun hc => hok1 hc⟩
        · rw [if_neg h2] at h
          obtain ⟨rfl, rfl⟩ := Prod.mk.inj (Option.some.inj h)
          exact ⟨hh, fun _ => ⟨_, rfl⟩, fun hc => absurd hc (by simp [ASTPtr.isNull])⟩
    · -- parse_term_loop
      intro node p n q hh hnode h
      rw [parse_term_loop] at h
      by_cases h1 : p.current.type = .MULTIPLY ∨ p.current.type = .DIVIDE
      · rw [if_pos h1] at h
        dsimp only at h
        cases hq : parse_factor f (advance p) with
        | none => rw [hq] at h; exact absurd h (by simp)
        | some nq =>
          obtain ⟨n1, q1⟩ := nq
          rw [hq] at h
          dsimp only at h
          obtain ⟨hh1, hnull1, hok1⟩ := ihF (advance p) n1 q1 hh hq
          by_cases hn : n1.isNull = true
          · rw [if_pos hn] at h
            obtain ⟨rfl, rfl⟩ := Prod.mk.inj (Option.some.inj h)
            exact ⟨hh1, fun _ => hnull1 hn, fun hc => absurd hc (by simp [ASTPtr.isNull])⟩
          · rw [if_neg hn] at h
            have hb := create_binary_op_node_of_succeeds p.current.type node n1 q1.heap hh1
            rw [if_neg (by rw [hb.1]; simp [ASTPtr.isNull])] at h
            obtain ⟨hh2, hnull2, hok2⟩ := ihTL _
              { q1 with heap := (create_binary_op_node p.current.type node n1 q1.heap).2 }
              n q hb.2 (by rw [hb.1]; rfl) h
            have e1 : q1.error = p.error := hok1 (by simpa using hn)
            exact ⟨hh2, hnull2, fun hc => (hok2 hc).trans e1⟩
      · rw [if_neg h1] at h
        obtain ⟨rfl, rfl⟩ := Prod.mk.inj (Option.some.inj h)
        exact ⟨hh, fun hc => absurd hc (by rw [hnode]; simp), fun _ => rfl⟩
    · -- parse_term
      intro p n q hh h
      rw [parse_term] at h
      cases hq : parse_factor f p with
      | none => rw [hq] at h; exact absurd h (by simp)
      | some nq =>
        obtain ⟨n1, q1⟩ := nq
        rw [hq] at h
        dsimp only at h
        obtain ⟨hh1, hnull1, hok1⟩ := ihF p n1 q1 hh hq
        by_cases hn : n1.isNull = true
        · rw [if_pos hn] at h
          obtain ⟨rfl, rfl⟩ := Prod.mk.inj (Option.some.inj h)
          exact ⟨hh1, fun _ => hnull1 hn, fun hc => absurd hc (by simp [ASTPtr.isNull])⟩
        · rw [if_neg hn] at h
          obtain ⟨hh2, hnull2, hok2⟩ := ihTL n1 q1 n q hh1 (by simpa using hn) h
          have e1 : q1.error = p.error := hok1 (by simpa using hn)
          exact ⟨hh2, hnull2, fun hc => (hok2 hc).trans e1⟩
    · -- parse_expression_loop
      intro node p n q hh hnode h
      rw [parse_expression_loop] at h
      by_cases h1 : p.current.type = .PLUS ∨ p.current.type = .MINUS
      · rw [if_pos h1] at h
        dsimp only at h
        cases hq : parse_term f (advance p) with
        | none => rw [hq] at h; exact absurd h (by simp)
        | some nq =>
          obtain ⟨n1, q1⟩ := nq
          rw [hq] at h
          dsimp only at h
          obtain ⟨hh1, hnull1, hok1⟩ := ihT (advance p) n1 q1 hh hq
          by_cases hn : n1.isNull = true
          · rw [if_pos hn] at h
            obtain ⟨rfl, rfl⟩ := Prod.mk.inj (Option.some.inj h)
            exact ⟨hh1, fun _ => hnull1 hn, fun hc => absurd hc (by simp [ASTPtr.isNull])⟩
          · rw [if_neg hn] at h
            have hb := create_binary_op_node_of_succeeds p.current.type node n1 q1.heap hh1
            rw [if_neg (by rw [hb.1]; simp [ASTPtr.isNull])] at h
            obtain ⟨hh2, hnull2, hok2⟩ := ihEL _
              { q1 with heap := (create_binary_op_node p.current.type node n1 q1.heap).2 }
              n q hb.2 (by rw [hb.1]; rfl) h
            have e1 : q1.error = p.error := hok1 (by simpa using hn)
            exact ⟨hh2, hnull2, fun hc => (hok2 hc).trans e1⟩
      · rw [if_neg h1] at h
        obtain ⟨rfl, rfl⟩ := Prod.mk.inj (Option.some.inj h)
        exact ⟨hh, fun hc => absurd hc (by rw [hnode]; simp), fun _ => rfl⟩
    · -- parse_expression
      intro p n q hh h
      rw [parse_expression] at h
      cases hq : parse_term f p with
      | none => rw [hq] at h; exact absurd h (by simp)
      | some nq =>
        obtain ⟨n1, q1⟩ := nq
        rw [hq] at h
        dsimp only at h
        obtain ⟨hh1, hnull1, hok1⟩ := ihT p n1 q1 hh hq
        by_cases hn : n1.isNull = true
        · rw [if_pos hn] at h
          obtain ⟨rfl, rfl⟩ := Prod.mk.inj (Option.some.inj h)
          exact ⟨hh1, fun _ => hnull1 hn, fun hc => absurd hc (by simp [ASTPtr.isNull])⟩
        · rw [if_neg hn] at h
          obtain ⟨hh2, hnull2, hok2⟩ := ihEL n1 q1 n q hh1 (by simpa using hn) h
          have e1 : q1.error = p.error := hok1 (by simpa using hn)
          exact ⟨hh2, hnull2, fun hc => (hok2 hc).trans e1⟩

/-- When allocation succeeds, `parse` returns a tree and leaves the error slot as it was, or
returns NULL with an error message set. -/
theorem parse_tree_or_error (lexer : Lexer) (error : Option String) (heap : Heap)
    (hh : AllocSucceeds heap) :
    ∃ ast q, parse lexer error heap = some (ast, q) ∧
      ((ast.isNull = false ∧ q.error = error) ∨
        (ast = .null ∧ ∃ msg, q.error = some msg)) := by
  obtain ⟨n, q1, hq, _⟩ := (parse_fuel_enough (parseFuel lexer)).2.2.2.2
    (parse_start lexer error heap)
    (by have := parse_start_weight lexer error heap
        unfold parseFuel; unfold Lexer.remaining at this; omega)
  obtain ⟨_, hnull, hok⟩ := (parse_error_set (parseFuel lexer)).2.2.2.2
    (parse_start lexer error heap) n q1 hh hq
  rw [parse_of_expression lexer error heap _ n q1 hq]
  by_cases hn : n.isNull = true
  · rw [if_pos hn]
    exact ⟨_, _, rfl, Or.inr ⟨rfl, hnull hn⟩⟩
  · rw [if_neg hn]
    by_cases he : q1.current.type ≠ .END
    · rw [if_pos he]
      exact ⟨_, _, rfl, Or.inr ⟨rfl, _, rfl⟩⟩
    · rw [if_neg he]
      exact ⟨_, _, rfl, Or.inl ⟨by simpa using hn, hok (by simpa using hn)⟩⟩

/-! ## The cursor stays inside the string -/

theorem strlen_le_length (s : List Char) : strlen s ≤ s.length := by
  induction s with
  | nil => exact Nat.le_refl _
  | cons c cs ih =>
    unfold strlen
    split
    · exact Nat.zero_le _
    · simpa using ih

theorem isspace_ne_nul (c : Char) (h : isspace c = true) : c ≠ '\x00' := by
  intro hc
  rw [hc] at h
  exact absurd h (by decide)

theorem numChar_ne_nul (c : Char) (h : numChar c = true) : c ≠ '\x00' := by
  intro hc
  rw [hc] at h
  exact absurd h (by decide)

theorem countSpaces_le_strlen (s : List Char) : countSpaces s ≤ strlen s := by
  induction s with
  | nil => exact Nat.le_refl _
  | cons c cs ih =>
    unfold countSpaces
    by_cases hc : isspace c = true
    · rw [if_pos hc, strlen, if_neg (isspace_ne_nul c hc)]
      omega
    · rw [if_neg hc]
      exact Nat.zero_le _

theorem strlen_drop (s : List Char) (k : Nat) (h : k ≤ strlen s) :
    strlen (s.drop k) = strlen s - k := by
  induction k generalizing s with
  | zero => simp
  | succ k ih =>
    cases s with
    | nil => simp [strlen] at h
    | cons c cs =>
      rw [strlen] at h ⊢
      by_cases hc : c = '\x00'
      · rw [if_pos hc] at h; omega
      · rw [if_neg hc] at h ⊢
        rw [List.drop_succ_cons, ih cs (by omega)]
        omega

/-- A prefix without NUL lies before the terminator. -/
theorem le_strlen_of_no_nul (s : List Char) (n : Nat) (hn : n ≤ s.length)
    (h : ∀ c ∈ s.take n, c ≠ '\x00') : n ≤ strlen s := by
  induction n generalizing s with
  | zero => exact Nat.zero_le _
  | succ n ih =>
    cases s with
    | nil => simp at hn
    | cons c cs =>
      rw [strlen, if_neg (h c (by simp))]
      have := ih cs (by simpa using hn) (fun x hx => h x (by simp [hx]))
      omega

/-- What `strtodUpTo` returns: nothing of the expected form up to the bound, or the longest
prefix of the expected form and its value. -/
theorem strtodUpTo_spec (s : List Char) (K : Nat) :
    ((strtodUpTo s K).2 = 0 ∧ (strtodUpTo s K).1 = Double.zero false ∧
      ∀ k, 0 < k → k ≤ K → floatConstant (s.take k) = none) ∨
    (0 < (strtodUpTo s K).2 ∧ (strtodUpTo s K).2 ≤ K ∧
      floatConstant (s.take (strtodUpTo s K).2) = some (strtodUpTo s K).1 ∧
      ∀ k, (strtodUpTo s K).2 < k → k ≤ K → floatConstant (s.take k) = none) := by
  induction K with
  | zero =>
    left
    exact ⟨rfl, rfl, fun k h1 h2 => absurd h2 (by omega)⟩
  | succ K ih =>
    cases hf : floatConstant (s.take (K + 1)) with
    | some v =>
      right
      have e : strtodUpTo s (K + 1) = (v, K + 1) := by rw [strtodUpTo, hf]
      rw [e]
      exact ⟨Nat.succ_pos _, Nat.le_refl _, hf, fun k h1 h2 => absurd h2 (Nat.not_le_of_lt h1)⟩
    | none =>
      have e : strtodUpTo s (K + 1) = strtodUpTo s K := by rw [strtodUpTo, hf]
      rw [e]
      rcases ih with ⟨h1, h2, h3⟩ | ⟨h1, h2, h3, h4⟩
      · left
        refine ⟨h1, h2, fun k hk1 hk2 => ?_⟩
        rcases Nat.eq_or_lt_of_le hk2 with e | e
        · rw [e]; exact hf
        · exact h3 k hk1 (Nat.le_of_lt_succ e)
      · right
        refine ⟨h1, Nat.le_succ_of_le h2, h3, fun k hk1 hk2 => ?_⟩
        rcases Nat.eq_or_lt_of_le hk2 with e | e
        · rw [e]; exact hf
        · exact h4 k hk1 (Nat.le_of_lt_succ e)

/-- The conversion stops before the terminator. -/
theorem strtod_le_strlen (s : List Char) : (strtod s).2 ≤ strlen s := by
  rcases strtodUpTo_spec s s.length with ⟨h1, _, _⟩ | ⟨_, h2, h3, _⟩
  · unfold strtod; rw [h1]; exact Nat.zero_le _
  · apply le_strlen_of_no_nul s _ h2
    intro c hc
    exact numChar_ne_nul c (floatConstant_numChar _ _ h3 c hc)

theorem scanHead_le_strlen (s : List Char) : (scanHead s).2 ≤ strlen s := by
  cases s with
  | nil => exact Nat.le_refl _
  | cons c rest =>
    rw [scanHead_cons]
    by_cases h0 : c = '\x00'
    · rw [if_pos h0]; exact Nat.zero_le _
    · rw [if_neg h0]
      by_cases h1 : isdigit c = true ∨ c = '.'
      · rw [if_pos h1]; exact strtod_le_strlen _
      · rw [if_neg h1, strlen, if_neg h0]
        exact Nat.succ_le_succ (Nat.zero_le _)

theorem scanToken_le_strlen (s : List Char) : (scanToken s).2 ≤ strlen s := by
  have h1 := countSpaces_le_strlen s
  have h2 := scanHead_le_strlen (s.drop (countSpaces s))
  rw [strlen_drop s _ h1] at h2
  show countSpaces s + (scanHead (s.drop (countSpaces s))).2 ≤ strlen s
  omega

/-- A call of `lexer_next_token` with the cursor inside the string leaves it inside. -/
theorem lexer_next_token_le_strlen (lexer : Lexer) (h : lexer.position ≤ strlen lexer.input) :
    (lexer_next_token lexer).2.position ≤ strlen lexer.input := by
  rw [lexer_next_token_eq_scanToken]
  have h1 := scanToken_le_strlen (lexer.input.drop lexer.position)
  rw [strlen_drop _ _ h] at h1
  show lexer.position + (scanToken (lexer.input.drop lexer.position)).2 ≤ _
  omega

theorem lexAfter_le_strlen (k : Nat) (lexer : Lexer) (h : lexer.position ≤ strlen lexer.input) :
    (lexAfter k lexer).position ≤ strlen lexer.input := by
  induction k generalizing lexer with
  | zero => exact h
  | succ k ih =>
    rw [lexAfter]
    have h1 := lexer_next_token_le_strlen lexer h
    have h2 := ih (lexer_next_token lexer).2 (by rw [lexer_next_token_input]; exact h1)
    rw [lexer_next_token_input] at h2
    exact h2

/-! ## The end of the input -/

theorem countSpaces_eq_strlen (s : List Char)
    (h : ∀ c ∈ s.take (strlen s), isspace c = true) : countSpaces s = strlen s := by
  induction s with
  | nil => rfl
  | cons c cs ih =>
    by_cases hc : c = '\x00'
    · have hs : isspace c = false := by rw [hc]; decide
      rw [countSpaces, strlen, if_pos hc, hs]
      rfl
    · rw [strlen, if_neg hc] at h
      have h1 : isspace c = true := h c (by simp)
      rw [countSpaces, strlen, if_neg hc, if_pos h1, ih (fun x hx => h x (by simp [hx]))]

theorem countSpaces_isspace (s : List Char) :
    ∀ c ∈ s.take (countSpaces s), isspace c = true := by
  induction s with
  | nil => intro c hc; simp at hc
  | cons x xs ih =>
    intro c hc
    by_cases hx : isspace x = true
    · rw [countSpaces, if_pos hx, List.take_succ_cons] at hc
      rcases List.mem_cons.1 hc with e | e
      · rw [e]; exact hx
      · exact ih c e
    · rw [countSpaces, if_neg hx] at hc
      simp at hc

theorem scanHead_drop_strlen (s : List Char) :
    scanHead (s.drop (strlen s)) = (⟨.END, Double.zero false⟩, 0) := by
  induction s with
  | nil => rfl
  | cons c cs ih =>
    by_cases hc : c = '\x00'
    · rw [strlen, if_pos hc, List.drop_zero, scanHead_cons, if_pos hc]
    · rw [strlen, if_neg hc, List.drop_succ_cons, ih]

theorem headD_drop_strlen (s : List Char) : (s.drop (strlen s)).headD '\x00' = '\x00' := by
  induction s with
  | nil => rfl
  | cons c cs ih =>
    by_cases hc : c = '\x00'
    · rw [strlen, if_pos hc, List.drop_zero, List.headD_cons, hc]
    · rw [strlen, if_neg hc, List.drop_succ_cons, ih]

theorem charToken_ne_END (c : Char) : charToken c ≠ .END := by
  unfold charToken
  split_ifs <;> exact fun h => TokenType.noConfusion h

theorem charToken_ne_NUMBER (c : Char) : charToken c ≠ .NUMBER := by
  unfold charToken
  split_ifs <;> exact fun h => TokenType.noConfusion h

theorem scanHead_END (t : List Char) (h : (scanHead t).1.type = .END) : strlen t = 0 := by
  cases t with
  | nil => rfl
  | cons c rest =>
    rw [scanHead_cons] at h
    by_cases h0 : c = '\x00'
    · rw [strlen, if_pos h0]
    · rw [if_neg h0] at h
      by_cases h1 : isdigit c = true ∨ c = '.'
      · rw [if_pos h1] at h
        exact absurd h (fun e => TokenType.noConfusion e)
      · rw [if_neg h1] at h
        exact absurd h (charToken_ne_END c)

/-- With only white space before the terminator, the token is `END` and the cursor moves to
the terminator. -/
theorem scanToken_of_whitespace (s : List Char)
    (h : ∀ c ∈ s.take (strlen s), isspace c = true) :
    scanToken s = (⟨.END, Double.zero false⟩, strlen s) := by
  unfold scanToken
  rw [countSpaces_eq_strlen s h, scanHead_drop_strlen]
  rfl

/-- The token is `END` only with nothing but white space before the terminator. -/
theorem scanToken_END (s : List Char) (h : (scanToken s).1.type = .END) :
    ∀ c ∈ s.take (strlen s), isspace c = true := by
  have h1 := scanHead_END _ h
  have h2 := countSpaces_le_strlen s
  rw [strlen_drop s _ h2] at h1
  have h3 : strlen s = countSpaces s := by omega
  rw [h3]
  exact countSpaces_isspace s

/-- At the terminator every call returns `END` and leaves the lexer as it is. -/
theorem lexer_next_token_at_end (lexer : Lexer)
    (h : strlen (lexer.input.drop lexer.position) = 0) :
    lexer_next_token lexer = (⟨.END, Double.zero false⟩, lexer) := by
  rw [lexer_next_token_eq_scanToken, scanToken_of_whitespace _ (by rw [h]; intro c hc; simp at hc),
    h]
  rfl

theorem lexTokens_at_end (n : Nat) (lexer : Lexer)
    (h : strlen (lexer.input.drop lexer.position) = 0) :
    lexTokens n lexer = List.replicate n (Token.op .END) ∧ lexAfter n lexer = lexer := by
  induction n with
  | zero => exact ⟨rfl, rfl⟩
  | succ n ih =>
    rw [lexTokens, lexAfter, lexer_next_token_at_end lexer h]
    exact ⟨by rw [ih.1]; rfl, ih.2⟩

/-- A `NUMBER` token starts at a digit or a point and is what `strtod` converts there. -/
theorem scanHead_NUMBER (t : List Char) (h : (scanHead t).1.type = .NUMBER) :
    (isdigit (t.headD '\x00') = true ∨ t.headD '\x00' = '.') ∧
      scanHead t = (⟨.NUMBER, (strtod t).1⟩, (strtod t).2) := by
  cases t with
  | nil => exact absurd h (fun e => TokenType.noConfusion e)
  | cons c rest =>
    rw [scanHead_cons] at h ⊢
    by_cases h0 : c = '\x00'
    · rw [if_pos h0] at h
      exact absurd h (fun e => TokenType.noConfusion e)
    · rw [if_neg h0] at h ⊢
      by_cases h1 : isdigit c = true ∨ c = '.'
      · rw [if_pos h1]
        exact ⟨h1, rfl⟩
      · rw [if_neg h1] at h
        exact absurd h (charToken_ne_NUMBER c)

end MathInterp

namespace ArenaAllocator

/-! ## Unsigned arithmetic and the two macros -/

theorem usub_one (w x : Nat) (h0 : x ≠ 0) (hx : x < 2 ^ w) : usub w x 1 = x - 1 := by
  have hw : 1 < 2 ^ w := by omega
  unfold usub
  rw [Nat.mod_eq_of_lt hw]
  have e : x + (2 ^ w - 1) = (x - 1) + 2 ^ w := by omega
  rw [e, Nat.add_mod_right, Nat.mod_eq_of_lt (by omega)]

/-- A nonzero number without a common bit with its predecessor is a power of two. -/
theorem pow_two_of_land_pred (x : Nat) (h0 : x ≠ 0) (h : x &&& (x - 1) = 0) :
    ∃ k, x = 2 ^ k := by
  induction x using Nat.strong_induction_on with
  | _ x ih =>
    have hd : x / 2 &&& (x - 1) / 2 = 0 := by
      rw [← Nat.and_div_two, h]
    rcases Nat.mod_two_eq_zero_or_one x with he | ho
    · have e1 : (x - 1) / 2 = x / 2 - 1 := by omega
      rw [e1] at hd
      obtain ⟨k, hk⟩ := ih (x / 2) (by omega) (by omega) hd
      refine ⟨k + 1, ?_⟩
      rw [pow_succ, ← hk]
      omega
    · have e1 : (x - 1) / 2 = x / 2 := by omega
      rw [e1, Nat.and_self] at hd
      exact ⟨0, by omega⟩

/-- The macro `IS_POWER_OF_TWO` accepts exactly the powers of two. -/
theorem IS_POWER_OF_TWO_iff (w x : Nat) (hx : x < 2 ^ w) :
    IS_POWER_OF_TWO w x = true ↔ ∃ k, x = 2 ^ k := by
  unfold IS_POWER_OF_TWO
  rw [decide_eq_true_iff]
  constructor
  · rintro ⟨h0, h⟩
    rw [usub_one w x h0 hx] at h
    exact pow_two_of_land_pred x h0 h
  · rintro ⟨k, rfl⟩
    have h0 : 2 ^ k ≠ 0 := Nat.pos_iff_ne_zero.1 (Nat.two_pow_pos k)
    refine ⟨h0, ?_⟩
    rw [usub_one w _ h0 hx]
    show 2 ^ k &&& (2 ^ k - 1) = 0
    rw [Nat.and_pow_two_sub_one_eq_mod, Nat.mod_self]

/-- Masking with `2 ^ w - 2 ^ k` clears the `k` low bits. -/
theorem land_high_mask (w k y : Nat) (hk : k ≤ w) (hy : y < 2 ^ w) :
    y &&& (2 ^ w - 2 ^ k) = y / 2 ^ k * 2 ^ k := by
  have hm : 2 ^ w - 2 ^ k = 2 ^ k * (2 ^ (w - k) - 1) := by
    rw [Nat.mul_sub, ← pow_add, Nat.add_sub_cancel' hk, Nat.mul_one]
  rw [hm, Nat.mul_comm (y / 2 ^ k)]
  apply Nat.eq_of_testBit_eq
  intro i
  rw [Nat.testBit_and, Nat.testBit_mul_pow_two, Nat.testBit_mul_pow_two,
    Nat.testBit_two_pow_sub_one, ← Nat.shiftRight_eq_div_pow, Nat.testBit_shiftRight]
  by_cases hi : k ≤ i
  · have e : k + (i - k) = i := by omega
    rw [e]
    by_cases hiw : i < w
    · have : i - k < w - k := by omega
      simp [hi, this]
    · have hf : y.testBit i = false :=
        Nat.testBit_lt_two_pow (Nat.lt_of_lt_of_le hy (Nat.pow_le_pow_right (by decide) (by omega)))
      simp [hf]
  · simp [hi]

/-- The macro `ALIGN_UP` at a power of two: the sum `ptr + align - 1`, wrapped to `w` bits,
with the low bits cleared. -/
theorem ALIGN_UP_eq (w k ptr : Nat) (hk : 2 ^ k < 2 ^ w) :
    ALIGN_UP w ptr (2 ^ k) = (ptr + 2 ^ k - 1) % 2 ^ w / 2 ^ k * 2 ^ k := by
  have hkw : k ≤ w := by
    by_contra hc
    exact absurd hk (Nat.not_lt.2 (Nat.pow_le_pow_right (by decide) (by omega)))
  have hp : 0 < 2 ^ k := Nat.two_pow_pos k
  have hw : 1 < 2 ^ w := by omega
  have h1 : usub w (uadd w ptr (2 ^ k)) 1 = (ptr + 2 ^ k - 1) % 2 ^ w := by
    unfold usub uadd
    rw [Nat.mod_eq_of_lt hw, Nat.mod_add_mod]
    have e : ptr + 2 ^ k + (2 ^ w - 1) = (ptr + 2 ^ k - 1) + 2 ^ w := by omega
    rw [e, Nat.add_mod_right]
  have h2 : unot w (usub w (2 ^ k) 1) = 2 ^ w - 2 ^ k := by
    rw [usub_one w _ (Nat.pos_iff_ne_zero.1 hp) hk]
    unfold unot
    rw [Nat.mod_eq_of_lt (by omega)]
    omega
  unfold ALIGN_UP
  rw [h1, h2]
  exact land_high_mask w k _ hkw (Nat.mod_lt _ (Nat.two_pow_pos w))

theorem ALIGN_UP_dvd (w k ptr : Nat) (hk : 2 ^ k < 2 ^ w) : 2 ^ k ∣ ALIGN_UP w ptr (2 ^ k) := by
  rw [ALIGN_UP_eq w k ptr hk]
  exact Nat.dvd_mul_left _ _

/-- The aligned address is not below the address aligned, unless the sum wrapped, and then
it is 0. -/
theorem ALIGN_UP_ge_or_zero (w k ptr : Nat) (hk : 2 ^ k < 2 ^ w) (hp : ptr < 2 ^ w) :
    (ptr + 2 ^ k ≤ 2 ^ w ∧ ptr ≤ ALIGN_UP w ptr (2 ^ k)) ∨
      (2 ^ w < ptr + 2 ^ k ∧ ALIGN_UP w ptr (2 ^ k) = 0) := by
  have hpos : 0 < 2 ^ k := Nat.two_pow_pos k
  rw [ALIGN_UP_eq w k ptr hk]
  by_cases hc : ptr + 2 ^ k ≤ 2 ^ w
  · left
    refine ⟨hc, ?_⟩
    rw [Nat.mod_eq_of_lt (by omega)]
    have h1 := Nat.div_add_mod (ptr + 2 ^ k - 1) (2 ^ k)
    have h2 := Nat.mod_lt (ptr + 2 ^ k - 1) hpos
    rw [Nat.mul_comm] at h1
    generalize (ptr + 2 ^ k - 1) / 2 ^ k * 2 ^ k = q at h1 ⊢
    omega
  · right
    refine ⟨by omega, ?_⟩
    have e : ptr + 2 ^ k - 1 = (ptr + 2 ^ k - 1 - 2 ^ w) + 2 ^ w := by omega
    rw [e, Nat.add_mod_right, Nat.mod_eq_of_lt (by omega), Nat.div_eq_of_lt (by omega),
      Nat.zero_mul]

/-! ## The paths of `arena_alloc_aligned` -/

/-- A call returns NULL and leaves the arena as it is, or it passed every test: the arena
has memory, the alignment passed `IS_POWER_OF_TWO`, neither test on the sizes failed, the
address returned is the aligned one and the offset is the new one. -/
theorem arena_alloc_aligned_cases (w : Nat) (a : Arena) (size alignment : Nat) :
    arena_alloc_aligned w (some a) size alignment = (0, some a) ∨
      (a.memory ≠ 0 ∧ IS_POWER_OF_TWO w alignment = true ∧
        size ≤ uadd w (alignment_padding w a alignment) size ∧
        uadd w a.offset (uadd w (alignment_padding w a alignment) size) ≤ a.size ∧
        arena_alloc_aligned w (some a) size alignment =
          (ALIGN_UP w (uadd w a.memory a.offset) alignment,
            some { a with
              offset := uadd w a.offset (uadd w (alignment_padding w a alignment) size) })) := by
  unfold arena_alloc_aligned alignment_padding
  dsimp only
  by_cases h1 : a.memory = 0
  · left; rw [if_pos h1]
  rw [if_neg h1]
  by_cases h2 : IS_POWER_OF_TWO w alignment = true
  swap
  · left; rw [if_pos h2]
  rw [if_neg (not_not.2 h2)]
  split
  · left; rfl
  · split
    · left; rfl
    · right
      refine ⟨h1, h2, by omega, by omega, rfl⟩

/-- The arena behind the pointer after a call is an arena, of the same memory and size. -/
theorem arena_alloc_aligned_state (w : Nat) (a : Arena) (size alignment : Nat) :
    ∃ b, (arena_alloc_aligned w (some a) size alignment).2 = some b ∧
      b.memory = a.memory ∧ b.size = a.size ∧ (a.offset ≤ a.size → b.offset ≤ b.size) := by
  rcases arena_alloc_aligned_cases w a size alignment with h | ⟨_, _, _, h4, h⟩
  · rw [h]; exact ⟨a, rfl, rfl, rfl, fun h => h⟩
  · rw [h]; exact ⟨_, rfl, rfl, rfl, fun _ => h4⟩

/-- Where the sum `offset + padding + size` does not reach `2 ^ w`, a block returned lies in
the space that remained. -/
theorem arena_alloc_aligned_fits (w : Nat) (a : Arena) (size alignment : Nat)
    (hsum : a.offset + (alignment_padding w a alignment + size) < 2 ^ w)
    (hres : (arena_alloc_aligned w (some a) size alignment).1 ≠ 0) :
    alignment_padding w a alignment + size ≤ a.size - a.offset := by
  rcases arena_alloc_aligned_cases w a size alignment with h | ⟨_, _, h3, h4, _⟩
  · rw [h] at hres; exact absurd rfl hres
  · have e1 : uadd w (alignment_padding w a alignment) size =
        alignment_padding w a alignment + size := Nat.mod_eq_of_lt (by omega)
    have e2 : uadd w a.offset (alignment_padding w a alignment + size) =
        a.offset + (alignment_padding w a alignment + size) := Nat.mod_eq_of_lt hsum
    rw [e1, e2] at h4
    omega

/-- An address returned for an alignment below `2 ^ w` is a multiple of the alignment, which
is a power of two, and is not below the address `memory + offset` before the call. -/
theorem arena_alloc_aligned_aligned (w : Nat) (a : Arena) (size alignment : Nat)
    (halign : alignment < 2 ^ w)
    (hres : (arena_alloc_aligned w (some a) size alignment).1 ≠ 0) :
    (∃ k, alignment = 2 ^ k) ∧
      alignment ∣ (arena_alloc_aligned w (some a) size alignment).1 ∧
      uadd w a.memory a.offset ≤ (arena_alloc_aligned w (some a) size alignment).1 := by
  rcases arena_alloc_aligned_cases w a size alignment with h | ⟨_, h2, _, _, h⟩
  · rw [h] at hres; exact absurd rfl hres
  · obtain ⟨k, rfl⟩ := (IS_POWER_OF_TWO_iff w alignment halign).1 h2
    rw [h] at hres ⊢
    refine ⟨⟨k, rfl⟩, ALIGN_UP_dvd w k _ halign, ?_⟩
    rcases ALIGN_UP_ge_or_zero w k (uadd w a.memory a.offset) halign
      (Nat.mod_lt _ (Nat.two_pow_pos w)) with ⟨_, h5⟩ | ⟨_, h5⟩
    · exact h5
    · exact absurd h5 hres

/-- Where `memory + offset + alignment` does not pass `2 ^ w`, a call that returns NULL
leaves the arena as it is. -/
theorem arena_alloc_aligned_null (w : Nat) (a : Arena) (size alignment : Nat)
    (hsum : a.memory + a.offset + alignment ≤ 2 ^ w)
    (hres : (arena_alloc_aligned w (some a) size alignment).1 = 0) :
    arena_alloc_aligned w (some a) size alignment = (0, some a) := by
  rcases arena_alloc_aligned_cases w a size alignment with h | ⟨h1, h2, _, _, h⟩
  · exact h
  · exfalso
    have h0 : alignment ≠ 0 := by
      intro e
      rw [e] at h2
      exact absurd h2 (by simp [IS_POWER_OF_TWO])
    have halign : alignment < 2 ^ w := by omega
    obtain ⟨k, rfl⟩ := (IS_POWER_OF_TWO_iff w alignment halign).1 h2
    rw [h] at hres
    have hpos : 0 < 2 ^ k := Nat.two_pow_pos k
    have hcur : uadd w a.memory a.offset = a.memory + a.offset :=
      Nat.mod_eq_of_lt (by omega)
    rcases ALIGN_UP_ge_or_zero w k (uadd w a.memory a.offset) halign
      (Nat.mod_lt _ (Nat.two_pow_pos w)) with ⟨_, h5⟩ | ⟨h5, _⟩
    · rw [hcur] at h5
      simp only at hres
      rw [hcur] at hres
      omega
    · rw [hcur] at h5
      omega

/-! ## Sequences of calls -/

theorem runCalls_append (w : Nat) (a : Arena) (cs ds : List ArenaCall) :
    runCalls w a (cs ++ ds) = runCalls w (runCalls w a cs) ds := by
  induction cs generalizing a with
  | nil => rfl
  | cons c cs ih => exact ih _

theorem ArenaCall.run_state (w : Nat) (a : Arena) (c : ArenaCall) :
    (c.run w a).2.memory = a.memory ∧ (c.run w a).2.size = a.size ∧
      (a.offset ≤ a.size → (c.run w a).2.offset ≤ (c.run w a).2.size) := by
  cases c with
  | alloc size =>
    obtain ⟨b, h1, h2, h3, h4⟩ := arena_alloc_aligned_state w a size (DEFAULT_ALIGNMENT w)
    simp only [ArenaCall.run, arena_alloc, h1, Option.getD_some]
    exact ⟨h2, h3, h4⟩
  | alloc_aligned size alignment =>
    obtain ⟨b, h1, h2, h3, h4⟩ := arena_alloc_aligned_state w a size alignment
    simp only [ArenaCall.run, h1, Option.getD_some]
    exact ⟨h2, h3, h4⟩
  | reset => exact ⟨rfl, rfl, fun _ => Nat.zero_le _⟩

theorem runCalls_state (w : Nat) (a : Arena) (cs : List ArenaCall) (h : a.offset ≤ a.size) :
    (runCalls w a cs).memory = a.memory ∧ (runCalls w a cs).size = a.size ∧
      (runCalls w a cs).offset ≤ (runCalls w a cs).size := by
  induction cs generalizing a with
  | nil => exact ⟨rfl, rfl, h⟩
  | cons c cs ih =>
    obtain ⟨h1, h2, h3⟩ := ArenaCall.run_state w a c
    obtain ⟨h4, h5, h6⟩ := ih (c.run w a).2 (h3 h)
    exact ⟨h4.trans h1, h5.trans h2, h6⟩

end ArenaAllocator

/-! # The claims -/

namespace MathInterp

/-! ## C1: precedence -/

/-- C1. For all number values `a b c`, every additive operator `p` and every multiplicative
operator `m`, when allocation succeeds: on a lexer yielding the tokens of `a p b m c`,
`parse` returns `BinaryOp(p, a, BinaryOp(m, b, c))`, and on one yielding `( a p b ) m c` it
returns `BinaryOp(m, BinaryOp(p, a, b), c)`, the error slot untouched. `main` prints `14` for
`"2 + 3 * 4"` and `20` for `"(2 + 3) * 4"`. -/
theorem parse_precedence :
    (∀ (lexer : Lexer) (a b c : Double) (p m : TokenType) (error : Option String)
        (heap : Heap),
      (p = .PLUS ∨ p = .MINUS) → (m = .MULTIPLY ∨ m = .DIVIDE) → AllocSucceeds heap →
      (LexYields lexer [Token.num a, Token.op p, Token.num b, Token.op m, Token.num c,
          Token.op .END] →
        ∃ q, parse lexer error heap =
            some (.binary_op p (.number a) (.binary_op m (.number b) (.number c)), q) ∧
          q.error = error) ∧
      (LexYields lexer [Token.op .LPAREN, Token.num a, Token.op p, Token.num b,
          Token.op .RPAREN, Token.op m, Token.num c, Token.op .END] →
        ∃ q, parse lexer error heap =
            some (.binary_op m (.binary_op p (.number a) (.number b)) (.number c), q) ∧
          q.error = error)) ∧
    main (cstr "2 + 3 * 4") [] = some (.result (Double.ofNat 14)) ∧
    main (cstr "(2 + 3) * 4") [] = some (.result (Double.ofNat 20)) := by
  refine ⟨?_, by decide!, by decide!⟩
  intro lexer a b c p m error heap hp hm hh
  constructor
  · intro hy
    have d : Derives .expression
        (([Token.num a] ++ []) ++
          (Token.op p :: (([Token.num b] ++ (Token.op m :: ([Token.num c] ++ []))) ++ [])))
        (.binary_op p (.number a) (.binary_op m (.number b) (.number c))) :=
      .expression (.term (.number a) .term_done)
        (.expression_more hp (.term (.number b) (.term_more hm (.number c) .term_done))
          .expression_done)
    exact parse_of_derives d lexer error heap hy hh
  · intro hy
    have d : Derives .expression
        (((Token.op .LPAREN ::
            ((([Token.num a] ++ []) ++ (Token.op p :: (([Token.num b] ++ []) ++ []))) ++
              [Token.op .RPAREN])) ++
          (Token.op m :: ([Token.num c] ++ []))) ++ [])
        (.binary_op m (.binary_op p (.number a) (.number b)) (.number c)) :=
      .expression
        (.term
          (.paren (.expression (.term (.number a) .term_done)
            (.expression_more hp (.term (.number b) .term_done) .expression_done)))
          (.term_more hm (.number c) .term_done))
        .expression_done
    exact parse_of_derives d lexer error heap hy hh

/-- C1 at `"2 - 3 / 4"` and `"(2 - 3) / 4"`: the lexer yields the six and the eight tokens,
and `parse` returns the two trees. -/
theorem parse_precedence_witness :
    LexYields (lexer_init (cstr "2 - 3 / 4"))
      [Token.num (Double.ofNat 2), Token.op .MINUS, Token.num (Double.ofNat 3),
        Token.op .DIVIDE, Token.num (Double.ofNat 4), Token.op .END] ∧
    (∃ q, parse (lexer_init (cstr "2 - 3 / 4")) none [] =
        some (.binary_op .MINUS (.number (Double.ofNat 2))
          (.binary_op .DIVIDE (.number (Double.ofNat 3)) (.number (Double.ofNat 4))), q) ∧
        q.error = none) ∧
    LexYields (lexer_init (cstr "(2 - 3) / 4"))
      [Token.op .LPAREN, Token.num (Double.ofNat 2), Token.op .MINUS,
        Token.num (Double.ofNat 3), Token.op .RPAREN, Token.op .DIVIDE,
        Token.num (Double.ofNat 4), Token.op .END] ∧
    (∃ q, parse (lexer_init (cstr "(2 - 3) / 4")) none [] =
        some (.binary_op .DIVIDE
          (.binary_op .MINUS (.number (Double.ofNat 2)) (.number (Double.ofNat 3)))
          (.number (Double.ofNat 4)), q) ∧
        q.error = none) :=
  ⟨by decide!,
    (parse_precedence.1 (lexer_init (cstr "2 - 3 / 4")) _ _ _ .MINUS .DIVIDE none []
      (by decide) (by decide) (by decide)).1 (by decide!),
    by decide!,
    (parse_precedence.1 (lexer_init (cstr "(2 - 3) / 4")) _ _ _ .MINUS .DIVIDE none []
      (by decide) (by decide) (by decide)).2 (by decide!)⟩

/-! ## C2: left associativity -/

/-- C2. For every chain `n0 op1 n1 ... opk nk END` of `NUMBER` tokens and operators of one
tier (all in `{+,-}` or all in `{*,/}`), when allocation succeeds `parse` returns the left
fold `BinaryOp(opk, ... BinaryOp(op1, n0, n1) ..., nk)` and leaves the error slot untouched
(for every `k`, so for `k >= 1`). For two operators that is `(a op1 b) op2 c`, and `main`
prints `3`, not `7`, for `"8 - 3 - 2"`. -/
theorem parse_left_associative :
    (∀ (lexer : Lexer) (n0 : Double) (rest : List (TokenType × Double))
        (error : Option String) (heap : Heap),
      ((∀ x ∈ rest, x.1 = .PLUS ∨ x.1 = .MINUS) ∨
        (∀ x ∈ rest, x.1 = .MULTIPLY ∨ x.1 = .DIVIDE)) →
      LexYields lexer (Token.num n0 :: chainTokens rest ++ [Token.op .END]) →
      AllocSucceeds heap →
      ∃ q, parse lexer error heap = some (leftFold (.number n0) rest, q) ∧
        q.error = error) ∧
    (∀ (a b c : Double) (op1 op2 : TokenType),
      leftFold (.number a) [(op1, b), (op2, c)] =
        .binary_op op2 (.binary_op op1 (.number a) (.number b)) (.number c)) ∧
    main (cstr "8 - 3 - 2") [] = some (.result (Double.ofNat 3)) ∧
    main (cstr "8 - 3 - 2") [] ≠ some (.result (Double.ofNat 7)) := by
  refine ⟨?_, fun _ _ _ _ _ => rfl, by decide!, by decide!⟩
  intro lexer n0 rest error heap htier hy hh
  rcases htier with hadd | hmul
  · have d : Derives .expression (([Token.num n0] ++ []) ++ chainTokens rest)
        (leftFold (.number n0) rest) :=
      .expression (.term (.number n0) .term_done) (Derives.expression_chain _ rest hadd)
    exact parse_of_derives d lexer error heap hy hh
  · have d : Derives .expression (([Token.num n0] ++ chainTokens rest) ++ [])
        (leftFold (.number n0) rest) :=
      .expression (.term (.number n0) (Derives.term_chain _ rest hmul)) .expression_done
    exact parse_of_derives d lexer error heap (by simpa using hy) hh

/-- C2 at `"8 - 3 - 2"` (additive tier) and `"8 / 4 / 2"` (multiplicative tier). -/
theorem parse_left_associative_witness :
    (∃ q, parse (lexer_init (cstr "8 - 3 - 2")) none [] =
        some (.binary_op .MINUS
          (.binary_op .MINUS (.number (Double.ofNat 8)) (.number (Double.ofNat 3)))
          (.number (Double.ofNat 2)), q) ∧ q.error = none) ∧
    (∃ q, parse (lexer_init (cstr "8 / 4 / 2")) none [] =
        some (.binary_op .DIVIDE
          (.binary_op .DIVIDE (.number (Double.ofNat 8)) (.number (Double.ofNat 4)))
          (.number (Double.ofNat 2)), q) ∧ q.error = none) :=
  ⟨parse_left_associative.1 (lexer_init (cstr "8 - 3 - 2")) (Double.ofNat 8)
      [(.MINUS, Double.ofNat 3), (.MINUS, Double.ofNat 2)] none []
      (Or.inl (by decide)) (by decide!) (by decide),
    parse_left_associative.1 (lexer_init (cstr "8 / 4 / 2")) (Double.ofNat 8)
      [(.DIVIDE, Double.ofNat 4), (.DIVIDE, Double.ofNat 2)] none []
      (Or.inr (by decide)) (by decide!) (by decide)⟩

/-! ## C3: division by zero -/

/-- C3. For a `BinaryOp` node with operator `DIVIDE` whose two subtrees evaluate without
error (no error pending on entry), `evaluate` signals "Division by zero" exactly when the
right value compares equal to `0.0`; in that case it returns no computed quotient (the
placeholder `0.0` with the error set), and otherwise it returns `left / right` with no
error. In particular `main` on `"5 / 0"` reports the evaluation error "Division by zero". -/
theorem evaluate_divide_by_zero :
    (∀ l r : ASTPtr, (evaluate l none).2 = none → (evaluate r none).2 = none →
      ((evaluate (.binary_op .DIVIDE l r) none).2 = some "Division by zero" ↔
        (evaluate r none).1.isZero = true) ∧
      ((evaluate r none).1.isZero = true →
        evaluate (.binary_op .DIVIDE l r) none = (Double.zero false, some "Division by zero")) ∧
      ((evaluate r none).1.isZero = false →
        evaluate (.binary_op .DIVIDE l r) none =
          (Double.div (evaluate l none).1 (evaluate r none).1, none))) ∧
    main (cstr "5 / 0") [] = some (.evaluation_error "Division by zero") := by
  refine ⟨?_, by decide!⟩
  intro l r hl hr
  have key : evaluate (.binary_op .DIVIDE l r) none =
      if (evaluate r none).1.isZero then (Double.zero false, some "Division by zero")
      else (Double.div (evaluate l none).1 (evaluate r none).1, none) := by
    rw [evaluate]
    simp only [hl, hr, Option.isSome_none, Bool.false_eq_true, if_false]
  rw [key]
  refine ⟨?_, ?_, ?_⟩
  · by_cases hz : (evaluate r none).1.isZero = true
    · simp [hz]
    · simp [hz]
  · intro hz; rw [if_pos hz]
  · intro hz; rw [if_neg (by simp [hz])]

/-- C3 at `5 / 0` and at `6 / 3`: both subtrees evaluate without error, the first signals
the error and the second returns the quotient `2`. -/
theorem evaluate_divide_by_zero_witness :
    (evaluate (.number (Double.ofNat 5)) none).2 = none ∧
    (evaluate (.number (Double.ofNat 0)) none).2 = none ∧
    evaluate (.binary_op .DIVIDE (.number (Double.ofNat 5)) (.number (Double.ofNat 0))) none
      = (Double.zero false, some "Division by zero") ∧
    evaluate (.binary_op .DIVIDE (.number (Double.ofNat 6)) (.number (Double.ofNat 3))) none
      = (Double.ofNat 2, none) :=
  ⟨by decide!, by decide!,
    (evaluate_divide_by_zero.1 (.number (Double.ofNat 5)) (.number (Double.ofNat 0))
      (by decide!) (by decide!)).2.1 (by decide!),
    ((evaluate_divide_by_zero.1 (.number (Double.ofNat 6)) (.number (Double.ofNat 3))
      (by decide!) (by decide!)).2.2 (by decide!)).trans (by decide!)⟩

/-! ## C4: a factor that starts with neither a number nor `(` -/

/-- C4. Whenever, while running `parse`, control reaches `parse_factor` with a lookahead
token that is neither `NUMBER` nor `LPAREN` (an operator, `RPAREN`, `END` or `ERROR`),
`parse` returns NULL and the error is "Expected number or '('" (whatever the allocator
does). `main` reports this error on `"2 + "`, on the empty string and on `"* 3"`. -/
theorem parse_expected_number_or_lparen :
    (∀ (lexer : Lexer) (error : Option String) (heap : Heap) (f : Nat) (p : Parser),
      Reaches lexer error heap (.factor f p) →
      p.current.type ≠ .NUMBER → p.current.type ≠ .LPAREN →
      parse lexer error heap =
        some (.null, { p with error := some "Expected number or '('" })) ∧
    main (cstr "2 + ") [] = some (.parse_error (some "Expected number or '('")) ∧
    main (cstr "") [] = some (.parse_error (some "Expected number or '('")) ∧
    main (cstr "* 3") [] = some (.parse_error (some "Expected number or '('")) := by
  refine ⟨?_, by decide!, by decide!, by decide!⟩
  intro lexer error heap f p hr hn hl
  apply hr.null_propagates
  have hne := hr.result_ne_none
  cases f with
  | zero => exact absurd (show parse_factor 0 p = none by rw [parse_factor]) hne
  | succ f =>
    show parse_factor (f + 1) p = _
    rw [parse_factor, if_neg hn, if_neg hl]

/-- C4 at `"2 + "`: after `2 +` the parser calls `parse_factor` with `END` as lookahead,
and `parse` returns NULL with the error set. -/
theorem parse_expected_number_or_lparen_witness :
    Reaches (lexer_init (cstr "2 + ")) none []
      (.factor 12 ⟨⟨cstr "2 + ", 4⟩, Token.op .END, none, []⟩) ∧
    parse (lexer_init (cstr "2 + ")) none [] =
      some (.null, ⟨⟨cstr "2 + ", 4⟩, Token.op .END, some "Expected number or '('", []⟩) :=
  have r1 : Reaches (lexer_init (cstr "2 + ")) none []
      (.expression_loop 14 (.number (Double.ofNat 2))
        ⟨⟨cstr "2 + ", 3⟩, Token.op .PLUS, none, []⟩) :=
    Relation.ReflTransGen.single
      (Invokes.expression_loop 14 (parse_start (lexer_init (cstr "2 + ")) none []) _ _
        (by decide!) (by decide!))
  have r2 : Reaches (lexer_init (cstr "2 + ")) none []
      (.term 13 ⟨⟨cstr "2 + ", 4⟩, Token.op .END, none, []⟩) :=
    Relation.ReflTransGen.tail r1
      (Invokes.expression_loop_term 13 _ ⟨⟨cstr "2 + ", 3⟩, Token.op .PLUS, none, []⟩
        (by decide))
  have r3 : Reaches (lexer_init (cstr "2 + ")) none []
      (.factor 12 ⟨⟨cstr "2 + ", 4⟩, Token.op .END, none, []⟩) :=
    Relation.ReflTransGen.tail r2 (Invokes.term_factor 12 _)
  ⟨r3, parse_expected_number_or_lparen.1 _ none [] 12 _ r3 (by decide) (by decide)⟩

/-! ## C5: a parenthesis that is not closed -/

/-- C5. Whenever, while running `parse`, control reaches `parse_factor` with `LPAREN` as
lookahead, the enclosed `parse_expression` returns a tree, and the lookahead it leaves is
not `RPAREN`, `parse` returns NULL and the error is "Expected ')'". `main` reports this
error on `"(2 + 3"` and on `"(2 3)"`. -/
theorem parse_expected_rparen :
    (∀ (lexer : Lexer) (error : Option String) (heap : Heap) (f : Nat) (p : Parser)
        (node : ASTPtr) (q : Parser),
      Reaches lexer error heap (.factor (f + 1) p) → p.current.type = .LPAREN →
      parse_expression f (advance p) = some (node, q) → node.isNull = false →
      q.current.type ≠ .RPAREN →
      parse lexer error heap = some (.null, { q with error := some "Expected ')'" })) ∧
    main (cstr "(2 + 3") [] = some (.parse_error (some "Expected ')'")) ∧
    main (cstr "(2 3)") [] = some (.parse_error (some "Expected ')'")) := by
  refine ⟨?_, by decide!, by decide!⟩
  intro lexer error heap f p node q hr hl he hn hq
  apply hr.null_propagates
  show parse_factor (f + 1) p = _
  rw [parse_factor, if_neg (by rw [hl]; decide), if_pos hl]
  dsimp only
  rw [he]
  dsimp only
  rw [if_neg (by simp [hn]), if_pos hq]

/-- C5 at `"(2 3)"`: `parse_factor` is reached with `(` as lookahead, the expression `2`
parses, the lookahead left is the number `3`, and `parse` returns NULL with the error. -/
theorem parse_expected_rparen_witness :
    Reaches (lexer_init (cstr "(2 3)")) none []
      (.factor 16 ⟨⟨cstr "(2 3)", 1⟩, Token.op .LPAREN, none, []⟩) ∧
    parse_expression 15 (advance ⟨⟨cstr "(2 3)", 1⟩, Token.op .LPAREN, none, []⟩) =
      some (.number (Double.ofNat 2),
        ⟨⟨cstr "(2 3)", 4⟩, Token.num (Double.ofNat 3), none, []⟩) ∧
    parse (lexer_init (cstr "(2 3)")) none [] =
      some (.null, ⟨⟨cstr "(2 3)", 4⟩, Token.num (Double.ofNat 3),
        some "Expected ')'", []⟩) :=
  have r1 : Reaches (lexer_init (cstr "(2 3)")) none []
      (.term 17 ⟨⟨cstr "(2 3)", 1⟩, Token.op .LPAREN, none, []⟩) :=
    Relation.ReflTransGen.single
      (Invokes.expression_term 17 ⟨⟨cstr "(2 3)", 1⟩, Token.op .LPAREN, none, []⟩)
  have r2 : Reaches (lexer_init (cstr "(2 3)")) none []
      (.factor 16 ⟨⟨cstr "(2 3)", 1⟩, Token.op .LPAREN, none, []⟩) :=
    Relation.ReflTransGen.tail r1 (Invokes.term_factor 16 _)
  ⟨r2, by decide!,
    parse_expected_rparen.1 _ none [] 15 _ (.number (Double.ofNat 2))
      ⟨⟨cstr "(2 3)", 4⟩, Token.num (Double.ofNat 3), none, []⟩
      r2 (by decide) (by decide!) (by decide) (by decide)⟩

/-! ## C6: trailing input -/

/-- C6. Whenever `parse_expression`, started by `parse` on the first token, returns a tree
(the leading tokens form a complete expression) and the lookahead it leaves is not `END`,
`parse` returns NULL and the error is "Unexpected token after expression". This is what
happens on `"2 3"`, `"2 + 3)"` and `"2 @ 3"`; on the last one the lookahead left after the
expression `2` is the `ERROR` token of `@`. -/
theorem parse_unexpected_token :
    (∀ (lexer : Lexer) (error : Option String) (heap : Heap) (f : Nat) (ast : ASTPtr)
        (q : Parser),
      parse_expression f (parse_start lexer error heap) = some (ast, q) →
      ast.isNull = false → q.current.type ≠ .END →
      parse lexer error heap =
        some (.null, { q with error := some "Unexpected token after expression" })) ∧
    main (cstr "2 3") [] = some (.parse_error (some "Unexpected token after expression")) ∧
    main (cstr "2 + 3)") [] = some (.parse_error (some "Unexpected token after expression")) ∧
    main (cstr "2 @ 3") [] = some (.parse_error (some "Unexpected token after expression")) ∧
    parse_expression 3 (parse_start (lexer_init (cstr "2 @ 3")) none []) =
      some (.number (Double.ofNat 2),
        ⟨⟨cstr "2 @ 3", 3⟩, ⟨.ERROR, Double.zero false⟩, none, []⟩) := by
  refine ⟨?_, by decide!, by decide!, by decide!, by decide!⟩
  intro lexer error heap f ast q h hast hend
  rw [parse_of_expression lexer error heap f ast q h, hast]
  rw [if_neg (by simp), if_pos hend]

/-- C6 at `"2 3"`: `parse_expression` returns the leaf `2` with the second number as
lookahead, and `parse` returns NULL with the error set. -/
theorem parse_unexpected_token_witness :
    parse_expression 3 (parse_start (lexer_init (cstr "2 3")) none []) =
      some (.number (Double.ofNat 2),
        ⟨⟨cstr "2 3", 3⟩, ⟨.NUMBER, Double.ofNat 3⟩, none, []⟩) ∧
    parse (lexer_init (cstr "2 3")) none [] =
      some (.null, ⟨⟨cstr "2 3", 3⟩, ⟨.NUMBER, Double.ofNat 3⟩,
        some "Unexpected token after expression", []⟩) :=
  ⟨by decide!,
    parse_unexpected_token.1 (lexer_init (cstr "2 3")) none [] 3 (.number (Double.ofNat 2))
      ⟨⟨cstr "2 3", 3⟩, ⟨.NUMBER, Double.ofNat 3⟩, none, []⟩
      (by decide!) (by decide!) (by decide!)⟩

/-! ## C7: white space between tokens -/

/-- C7. White space inserted before the first token, after the last token or at a boundary
between two tokens (a run of `isspace` characters at a position between the cursor after
some number of tokens and the start of the next token) leaves the tokens returned by
successive `lexer_next_token` calls unchanged, and so leaves what `main` does unchanged
(value or error, for any allocator); the same holds after any number of such insertions.
`"2+3"` and `" 2 + 3 "` both evaluate to `5`. -/
theorem whitespace_insensitive :
    (∀ (pre ws post : List Char), (∀ c ∈ ws, isspace c = true) →
      TokenBoundary (pre ++ post) pre.length →
      (∀ n, lexTokens n (lexer_init (pre ++ ws ++ post)) =
        lexTokens n (lexer_init (pre ++ post))) ∧
      (∀ heap, main (pre ++ ws ++ post) heap = main (pre ++ post) heap)) ∧
    (∀ (s t : List Char), WhitespaceInserted s t →
      (∀ n, lexTokens n (lexer_init t) = lexTokens n (lexer_init s)) ∧
      (∀ heap, main t heap = main s heap)) ∧
    main (cstr " 2 + 3 ") [] = main (cstr "2+3") [] ∧
    main (cstr "2+3") [] = some (.result (Double.ofNat 5)) := by
  refine ⟨?_, ?_, by decide!, by decide!⟩
  · intro pre ws post hws hb
    have hst : SameTokens (lexer_init (pre ++ ws ++ post)) (lexer_init (pre ++ post)) :=
      fun n => lexTokens_insert_whitespace pre ws post hws hb n
    exact ⟨hst, fun heap => main_same_tokens _ _ heap hst⟩
  · intro s t h
    exact ⟨h.same_tokens, fun heap => main_same_tokens _ _ heap h.same_tokens⟩

/-- C7 at `"2+3"`: a blank and a tab inserted after the token `2`, and `" 2 + 3 "` obtained
from `"2+3"` by four insertions. -/
theorem whitespace_insensitive_witness :
    TokenBoundary (cstr "2" ++ cstr "+3") (cstr "2").length ∧
    (∀ n, lexTokens n (lexer_init (cstr "2" ++ cstr " \t" ++ cstr "+3")) =
      lexTokens n (lexer_init (cstr "2" ++ cstr "+3"))) ∧
    WhitespaceInserted (cstr "2+3") (cstr " 2 + 3 ") ∧
    (∀ heap, main (cstr " 2 + 3 ") heap = main (cstr "2+3") heap) :=
  have hb : TokenBoundary (cstr "2" ++ cstr "+3") (cstr "2").length :=
    ⟨1, by decide!, by decide!⟩
  have w1 : WhitespaceInserted (cstr "2+3") (cstr "" ++ cstr " " ++ cstr "2+3") :=
    .step (cstr "") (cstr " ") (cstr "2+3") (.refl _) (by decide) ⟨0, by decide!, by decide!⟩
  have w2 : WhitespaceInserted (cstr "2+3") (cstr " 2" ++ cstr " " ++ cstr "+3") :=
    .step (cstr " 2") (cstr " ") (cstr "+3") w1 (by decide) ⟨1, by decide!, by decide!⟩
  have w3 : WhitespaceInserted (cstr "2+3") (cstr " 2 +" ++ cstr " " ++ cstr "3") :=
    .step (cstr " 2 +") (cstr " ") (cstr "3") w2 (by decide) ⟨2, by decide!, by decide!⟩
  have w4 : WhitespaceInserted (cstr "2+3") (cstr " 2 + 3" ++ cstr " " ++ cstr "") :=
    .step (cstr " 2 + 3") (cstr " ") (cstr "") w3 (by decide) ⟨3, by decide!, by decide!⟩
  ⟨hb, (whitespace_insensitive.1 (cstr "2") (cstr " \t") (cstr "+3") (by decide) hb).1, w4,
    (whitespace_insensitive.2.1 (cstr "2+3") (cstr " 2 + 3 ") w4).2⟩

/-! ## C8: finite results -/

/-- C8 (as stated it fails): `hugeLiteral` consists of digits only and `parse` returns a
tree for it, the leaf that `strtod` read as `+infinity`; `evaluate` returns that infinity
with no error, so the result is neither finite nor a division-by-zero error, and `main`
prints it. The product of this literal and `0` is a NaN, again with no error. -/
theorem evaluate_overflow_counterexample :
    (∀ c ∈ hugeLiteral, isdigit c = true) ∧
    parse (lexer_init hugeLiteral) none [] =
      some (.number (.inf false), ⟨⟨hugeLiteral, 310⟩, Token.op .END, none, []⟩) ∧
    ¬ ((evaluate (.number (.inf false)) none).2 = some "Division by zero" ∨
      ((evaluate (.number (.inf false)) none).2 = none ∧
        (evaluate (.number (.inf false)) none).1.isFinite = true)) ∧
    main hugeLiteral [] = some (.result (.inf false)) ∧
    main (hugeLiteral ++ cstr " * 0") [] = some (.result .nan) :=
  ⟨by decide!, by decide!, by decide!, by decide!, by decide!⟩

/-- C8 (amended). For every input on which `parse` returns a tree, `evaluate` either signals
"Division by zero" or returns a number with no error, and that number is finite unless the
tree contains an overflow: a literal beyond the range of `double`, or an operation other
than a division by zero on two finite operands whose rounded result is an infinity. A zero
divisor never yields a value: `evaluate` signals "Division by zero" exactly when the tree
contains a division whose divisor has the value zero, and otherwise it returns the
arithmetic value of the tree; a NaN only arises after an overflow. -/
theorem evaluate_finite_or_overflow (input : List Char) (heap : Heap) (ast : ASTPtr)
    (q : Parser) (h : parse (lexer_init input) none heap = some (ast, q))
    (hast : ast.isNull = false) :
    ((evaluate ast none).2 = some "Division by zero" ∨
      ((evaluate ast none).2 = none ∧
        ((evaluate ast none).1.isFinite = true ∨ overflows ast = true))) ∧
    (ast.dividesByZero = true ↔ (evaluate ast none).2 = some "Division by zero") ∧
    (ast.dividesByZero = true ↔ (evaluate ast none).2 ≠ none) ∧
    (ast.dividesByZero = false → evaluate ast none = (ast.arithValue, none)) ∧
    ((evaluate ast none).2 = none → (evaluate ast none).1.isNaN = true →
      overflows ast = true) := by
  obtain ⟨h1, h2⟩ := evaluate_wellformed (parse_result_wellformed _ _ _ _ _ h hast)
  cases hd : ast.dividesByZero with
  | true =>
    have e := h1 hd
    rw [e]
    exact ⟨Or.inl rfl, ⟨fun _ => rfl, fun _ => rfl⟩,
      ⟨fun _ => by decide, fun _ => rfl⟩, fun hc => Bool.noConfusion hc,
      fun hc => Option.noConfusion hc⟩
  | false =>
    obtain ⟨e, hf⟩ := h2 hd
    rw [e]
    refine ⟨Or.inr ⟨rfl, hf⟩, ⟨fun hc => Bool.noConfusion hc, fun hc => Option.noConfusion hc⟩,
      ⟨fun hc => Bool.noConfusion hc, fun hc => absurd rfl hc⟩, fun _ => rfl, fun _ hn => ?_⟩
    rcases hf with hf | hf
    · exfalso
      revert hf hn
      show ast.arithValue.isNaN = true → ast.arithValue.isFinite = true → False
      cases ast.arithValue <;> simp [Double.isNaN, Double.isFinite]
    · exact hf

/-- C8 (amended) at `"7 / 2"` and `"1 / (2 - 2)"`: the first tree contains neither an
overflow nor a division by zero, and the result is the finite number `3.5` with no error;
the second contains a division by zero, and `evaluate` signals it. -/
theorem evaluate_finite_or_overflow_witness :
    parse (lexer_init (cstr "7 / 2")) none [] =
      some (.binary_op .DIVIDE (.number (Double.ofNat 7)) (.number (Double.ofNat 2)),
        ⟨⟨cstr "7 / 2", 5⟩, Token.op .END, none, []⟩) ∧
    overflows (.binary_op .DIVIDE (.number (Double.ofNat 7)) (.number (Double.ofNat 2)))
      = false ∧
    (ASTPtr.binary_op .DIVIDE (.number (Double.ofNat 7))
      (.number (Double.ofNat 2))).dividesByZero = false ∧
    evaluate (.binary_op .DIVIDE (.number (Double.ofNat 7)) (.number (Double.ofNat 2))) none
      = (Double.round false 7 2, none) ∧
    ((evaluate (.binary_op .DIVIDE (.number (Double.ofNat 7)) (.number (Double.ofNat 2)))
        none).2 = some "Division by zero" ∨
      ((evaluate (.binary_op .DIVIDE (.number (Double.ofNat 7)) (.number (Double.ofNat 2)))
          none).2 = none ∧
        ((evaluate (.binary_op .DIVIDE (.number (Double.ofNat 7)) (.number (Double.ofNat 2)))
            none).1.isFinite = true ∨
          overflows (.binary_op .DIVIDE (.number (Double.ofNat 7))
            (.number (Double.ofNat 2))) = true))) ∧
    (ASTPtr.binary_op .DIVIDE (.number (Double.ofNat 1))
      (.binary_op .MINUS (.number (Double.ofNat 2))
        (.number (Double.ofNat 2)))).dividesByZero = true ∧
    (evaluate (.binary_op .DIVIDE (.number (Double.ofNat 1))
      (.binary_op .MINUS (.number (Double.ofNat 2)) (.number (Double.ofNat 2)))) none).2 =
      some "Division by zero" :=
  ⟨by decide!, by decide!, by decide!, by decide!,
    (evaluate_finite_or_overflow (cstr "7 / 2") [] _
      ⟨⟨cstr "7 / 2", 5⟩, Token.op .END, none, []⟩ (by decide!) (by decide!)).1,
    by decide!,
    (evaluate_finite_or_overflow (cstr "1 / (2 - 2)") [] _
      ⟨⟨cstr "1 / (2 - 2)", 11⟩, Token.op .END, none, []⟩ (by decide!) (by decide!)).2.1.1
      (by decide!)⟩

/-! ## C9: allocation failure -/

/-- C9 (the code departs from the claim). When the `malloc` of a number leaf fails,
`parse_factor` returns NULL without writing the error slot: on `"1"` with a failing
allocator `parse` returns NULL and the slot still holds what the caller put there (NULL in
`main`). A failed `malloc` of a binary-operation node does report "Out of memory". -/
theorem parse_leaf_allocation_failure :
    parse (lexer_init (cstr "1")) none [false] =
      some (.null, ⟨⟨cstr "1", 1⟩, ⟨.END, Double.zero false⟩, none, []⟩) ∧
    main (cstr "1") [false] = some (.parse_error none) ∧
    main (cstr "1 + 2") [true, true, false] = some (.parse_error (some "Out of memory")) ∧
    main (cstr "1 * 2") [true, true, false] = some (.parse_error (some "Out of memory")) :=
  ⟨by decide!, by decide!, by decide!, by decide!⟩

/-! ## C10: lexer progress -/

/-- C10 (the code departs from the claim). On `"."` the conversion reads nothing:
`lexer_next_token` returns a `NUMBER` token with value `0.0` and leaves the cursor at `0`,
so every later call returns the same token again; the same happens on `"..."`. -/
theorem lexer_next_token_dot_no_progress :
    lexer_next_token (lexer_init (cstr ".")) =
      (⟨.NUMBER, Double.zero false⟩, ⟨cstr ".", 0⟩) ∧
    lexer_next_token (lexer_next_token (lexer_init (cstr "."))).2 =
      (⟨.NUMBER, Double.zero false⟩, ⟨cstr ".", 0⟩) ∧
    lexer_next_token (lexer_init (cstr "...")) =
      (⟨.NUMBER, Double.zero false⟩, ⟨cstr "...", 0⟩) ∧
    lexer_next_token ⟨cstr "1 + .", 3⟩ = (⟨.NUMBER, Double.zero false⟩, ⟨cstr "1 + .", 4⟩) :=
  ⟨by decide!, by decide!, by decide!, by decide!⟩

/-! ## C11: the characters of a `NUMBER` token -/

/-- C11, as stated, fails at `"2e3"`: the `NUMBER` token consumes all three characters,
the exponent part included, and its value is 2000, not 2; at `"1e-2x"` the sign of the
exponent is consumed too, and at `"0x10"` the hexadecimal constant of value 16. -/
theorem lexer_number_exponent_counterexample :
    lexer_next_token (lexer_init (cstr "2e3")) =
        (Token.num (Double.ofNat 2000), ⟨cstr "2e3", 3⟩) ∧
      Double.ofNat 2000 ≠ Double.ofNat 2 ∧
      (lexer_next_token (lexer_init (cstr "1e-2x"))).2 = ⟨cstr "1e-2x", 4⟩ ∧
      lexer_next_token (lexer_init (cstr "0x10")) =
        (Token.num (Double.ofNat 16), ⟨cstr "0x10", 4⟩) := by
  decide!

/-- C11, amended: when `lexer_next_token` returns a `NUMBER` token and the cursor moved past
the white space, the token starts at a digit or a point, the characters it consumed lie
before the terminator and are the longest prefix of the input there that is a decimal or
hexadecimal floating constant as `strtod` accepts it (the exponent part with its sign
included when there is one), and the token's value is the value of that constant. -/
theorem lexer_number_longest_constant (lexer : Lexer)
    (hn : (lexer_next_token lexer).1.type = .NUMBER)
    (hpos : (skip_whitespace lexer).position < (lexer_next_token lexer).2.position) :
    (isdigit (skip_whitespace lexer).cur = true ∨ (skip_whitespace lexer).cur = '.') ∧
      (lexer_next_token lexer).2.position - (skip_whitespace lexer).position ≤
        strlen (lexer.input.drop (skip_whitespace lexer).position) ∧
      floatConstant ((lexer.input.drop (skip_whitespace lexer).position).take
          ((lexer_next_token lexer).2.position - (skip_whitespace lexer).position)) =
        some (lexer_next_token lexer).1.value ∧
      ∀ k, (lexer_next_token lexer).2.position - (skip_whitespace lexer).position < k →
        k ≤ (lexer.input.drop (skip_whitespace lexer).position).length →
        floatConstant ((lexer.input.drop (skip_whitespace lexer).position).take k) = none := by
  have hcur : (skip_whitespace lexer).cur =
      (lexer.input.drop (skip_whitespace lexer).position).headD '\x00' := by
    rw [Lexer.cur_eq_headD, skip_whitespace_eq]
  rw [hcur]
  rw [lexer_next_token_eq_scanToken] at hn hpos ⊢
  rw [skip_whitespace_eq] at hpos ⊢
  have hd : lexer.input.drop (lexer.position + countSpaces (lexer.input.drop lexer.position)) =
      (lexer.input.drop lexer.position).drop (countSpaces (lexer.input.drop lexer.position)) := by
    rw [List.drop_drop]
  simp only [scanToken] at hn hpos ⊢
  rw [hd]
  generalize (lexer.input.drop lexer.position).drop
    (countSpaces (lexer.input.drop lexer.position)) = t at hn hpos ⊢
  obtain ⟨h1, h2⟩ := scanHead_NUMBER t hn
  rw [h2] at hpos ⊢
  have hsub : lexer.position + (countSpaces (lexer.input.drop lexer.position) + (strtod t).2) -
      (lexer.position + countSpaces (lexer.input.drop lexer.position)) = (strtod t).2 := by
    omega
  simp only [hsub]
  have h0 : 0 < (strtod t).2 := by
    simp only at hpos
    omega
  refine ⟨h1, strtod_le_strlen t, ?_⟩
  rcases strtodUpTo_spec t t.length with ⟨e, _, _⟩ | ⟨_, _, h3, h4⟩
  · exact absurd e (Nat.pos_iff_ne_zero.1 h0)
  · exact ⟨h3, h4⟩

/-- C11, amended, at `"  2e3+1"`: the `NUMBER` token is `2e3`, of value 2000, and no longer
prefix is a constant. -/
theorem lexer_number_longest_constant_witness :
    floatConstant (((cstr "  2e3+1").drop 2).take (5 - 2)) = some (Double.ofNat 2000) ∧
      ∀ k, 5 - 2 < k → k ≤ ((cstr "  2e3+1").drop 2).length →
        floatConstant (((cstr "  2e3+1").drop 2).take k) = none :=
  (lexer_number_longest_constant (lexer_init (cstr "  2e3+1")) (by decide!) (by decide!)).2.2

/-! ## C12: the cursor -/

/-- C12: from `lexer_init` on, whatever the input and however many tokens were read, a call
of `lexer_next_token` does not move the cursor back, and the cursor stays at or before the
terminator of the input string (the position where the token is `END`), before the call
and after it. -/
theorem lexer_cursor_monotone (input : List Char) (k : Nat) :
    (lexAfter k (lexer_init input)).position ≤
        (lexer_next_token (lexAfter k (lexer_init input))).2.position ∧
      (lexAfter k (lexer_init input)).position ≤ strlen input ∧
      (lexer_next_token (lexAfter k (lexer_init input))).2.position ≤ strlen input ∧
      strlen input ≤ input.length ∧
      ((lexAfter k (lexer_init input)).position = strlen input →
        lexer_next_token (lexAfter k (lexer_init input)) =
          (Token.op .END, lexAfter k (lexer_init input))) := by
  have h1 : (lexAfter k (lexer_init input)).position ≤ strlen input :=
    lexAfter_le_strlen k (lexer_init input) (Nat.zero_le _)
  have h2 := lexer_next_token_le_strlen (lexAfter k (lexer_init input))
    (by rw [lexAfter_input]; exact h1)
  rw [lexAfter_input] at h2
  refine ⟨lexer_next_token_position _, h1, h2, strlen_le_length input, fun h => ?_⟩
  apply lexer_next_token_at_end
  rw [lexAfter_input, h]
  exact (strlen_drop input _ (Nat.le_refl _)).trans (Nat.sub_self _)

/-- C12 at `"1 + 2"`, whose terminator is at position 5: after two tokens the cursor is at 3,
the third call moves it to 5, and there the token is `END` and the cursor stays. -/
theorem lexer_cursor_monotone_witness :
    strlen (cstr "1 + 2") = 5 ∧
      (lexAfter 2 (lexer_init (cstr "1 + 2"))).position = 3 ∧
      (lexAfter 3 (lexer_init (cstr "1 + 2"))).position = 5 ∧
      (lexAfter 2 (lexer_init (cstr "1 + 2"))).position ≤
        (lexer_next_token (lexAfter 2 (lexer_init (cstr "1 + 2")))).2.position ∧
      lexer_next_token (lexAfter 3 (lexer_init (cstr "1 + 2"))) =
        (Token.op .END, lexAfter 3 (lexer_init (cstr "1 + 2"))) :=
  ⟨by decide!, by decide!, by decide!, (lexer_cursor_monotone (cstr "1 + 2") 2).1,
    (lexer_cursor_monotone (cstr "1 + 2") 3).2.2.2.2 (by decide!)⟩

/-! ## C13: `END` is absorbing -/

/-- C13: `lexer_next_token` returns `END` exactly when only white space is left before the
terminator; it then leaves the cursor at the terminator (at `strlen` of the input when the
cursor was inside the string), and every later call returns `END` again and leaves the
lexer as it is. -/
theorem lexer_end_absorbing (lexer : Lexer) :
    ((lexer_next_token lexer).1.type = .END ↔ ∀ c ∈ lexer.unread, isspace c = true) ∧
      ((lexer_next_token lexer).1.type = .END →
        (lexer_next_token lexer).1 = Token.op .END ∧
        (lexer_next_token lexer).2.position =
          lexer.position + strlen (lexer.input.drop lexer.position) ∧
        (lexer.position ≤ strlen lexer.input →
          (lexer_next_token lexer).2.position = strlen lexer.input) ∧
        (lexer_next_token lexer).2.cur = '\x00' ∧
        ∀ n, lexTokens n (lexer_next_token lexer).2 = List.replicate n (Token.op .END) ∧
          lexAfter n (lexer_next_token lexer).2 = (lexer_next_token lexer).2) := by
  have key : (∀ c ∈ lexer.unread, isspace c = true) →
      lexer_next_token lexer = (Token.op .END,
        { lexer with position := lexer.position + strlen (lexer.input.drop lexer.position) }) := by
    intro h
    rw [lexer_next_token_eq_scanToken, scanToken_of_whitespace _ h]
    rfl
  have back : (lexer_next_token lexer).1.type = .END → ∀ c ∈ lexer.unread, isspace c = true := by
    intro h
    rw [lexer_next_token_eq_scanToken] at h
    exact scanToken_END _ h
  refine ⟨⟨back, fun h => by rw [key h]; rfl⟩, fun h => ?_⟩
  have e := key (back h)
  have hz : strlen (lexer.input.drop
      (lexer.position + strlen (lexer.input.drop lexer.position))) = 0 := by
    rw [← List.drop_drop]
    exact (strlen_drop _ _ (Nat.le_refl _)).trans (Nat.sub_self _)
  rw [e]
  refine ⟨rfl, rfl, fun hp => ?_, ?_, fun n => ?_⟩
  · show lexer.position + strlen (lexer.input.drop lexer.position) = strlen lexer.input
    rw [strlen_drop _ _ hp]
    omega
  · rw [Lexer.cur_eq_headD]
    show (lexer.input.drop (lexer.position + strlen (lexer.input.drop lexer.position))).headD
      '\x00' = '\x00'
    rw [← List.drop_drop]
    exact headD_drop_strlen _
  · exact lexTokens_at_end n _ hz

/-- C13 at `"7 \t "`: after the number only white space is left, the next call returns `END`
with the cursor at the terminator, position 4, and so do the calls after it; at the start,
where the `7` is unread, the token is not `END`. -/
theorem lexer_end_absorbing_witness :
    lexTokens 4 (lexer_init (cstr "7 \t ")) =
        [Token.num (Double.ofNat 7), Token.op .END, Token.op .END, Token.op .END] ∧
      (lexer_next_token ⟨cstr "7 \t ", 1⟩).1.type = .END ∧
      (lexer_next_token ⟨cstr "7 \t ", 1⟩).2.position = strlen (cstr "7 \t ") ∧
      strlen (cstr "7 \t ") = 4 ∧
      (lexer_next_token (lexer_init (cstr "7 \t "))).1.type ≠ .END :=
  ⟨by decide!,
    (lexer_end_absorbing ⟨cstr "7 \t ", 1⟩).1.2 (by decide!),
    ((lexer_end_absorbing ⟨cstr "7 \t ", 1⟩).2 (by decide!)).2.2.1 (by decide!),
    by decide!,
    fun h => absurd ((lexer_end_absorbing (lexer_init (cstr "7 \t "))).1.1 h) (by decide!)⟩

/-! ## C14: the first error wins in `evaluate` -/

/-- C14. For every `BinaryOp` node evaluated with no error pending: if the left subtree
evaluates to an error `e`, `evaluate` reports exactly `e` whatever the operator tag and the
right subtree are (so the right subtree has no part in the result); if the left subtree
succeeds and the right one evaluates to an error `e`, `evaluate` reports exactly `e`
whatever the operator tag is (the operator is not applied: the value returned is the
placeholder `0.0`). -/
theorem evaluate_first_error_wins :
    (∀ (op : TokenType) (l r : ASTPtr) (e : String), (evaluate l none).2 = some e →
      evaluate (.binary_op op l r) none = (Double.zero false, some e)) ∧
    (∀ (op : TokenType) (l r : ASTPtr) (e : String), (evaluate l none).2 = none →
      (evaluate r none).2 = some e →
      evaluate (.binary_op op l r) none = (Double.zero false, some e)) :=
  ⟨fun op l r e h => evaluate_binary_op_left_error op l r e h,
    fun op l r e hl hr => evaluate_binary_op_right_error op l r e hl hr⟩

/-- C14 at `(1 / 0) + (2 * NULL)` and `1 - (2 / 0)`: the left error "Division by zero" is
reported although the right subtree would report "Invalid AST node", and a right error is
reported when the left subtree succeeds. -/
theorem evaluate_first_error_wins_witness :
    (evaluate (.binary_op .DIVIDE (.number (Double.ofNat 1)) (.number (Double.ofNat 0)))
      none).2 = some "Division by zero" ∧
    (evaluate (.binary_op .MULTIPLY (.number (Double.ofNat 2)) .null) none).2 =
      some "Invalid AST node" ∧
    evaluate (.binary_op .PLUS
        (.binary_op .DIVIDE (.number (Double.ofNat 1)) (.number (Double.ofNat 0)))
        (.binary_op .MULTIPLY (.number (Double.ofNat 2)) .null)) none =
      (Double.zero false, some "Division by zero") ∧
    evaluate (.binary_op .MINUS (.number (Double.ofNat 1))
        (.binary_op .DIVIDE (.number (Double.ofNat 2)) (.number (Double.ofNat 0)))) none =
      (Double.zero false, some "Division by zero") :=
  ⟨by decide!, by decide!,
    evaluate_first_error_wins.1 .PLUS _ _ "Division by zero" (by decide!),
    evaluate_first_error_wins.2 .MINUS _ _ "Division by zero" (by decide!) (by decide!)⟩

/-! ## C15: the trees that `parse` returns -/

/-- C15. For every input on which `parse` returns a tree (whatever the error slot and the
allocator are), every binary-operation node of the tree carries one of the four operator
tags and has both children present (`wellShaped`); consequently `evaluate`, applied to it
with no error pending, returns a number with no error or reports "Division by zero", and
so never "Invalid AST node" or "Invalid operator". A node of unknown type cannot be built:
`ASTPtr` has the two node types of `NodeType` only. -/
theorem parse_result_shape (lexer : Lexer) (error : Option String) (heap : Heap)
    (ast : ASTPtr) (q : Parser) (h : parse lexer error heap = some (ast, q))
    (hast : ast.isNull = false) :
    ast.wellShaped = true ∧
      ((evaluate ast none).2 = none ∨ (evaluate ast none).2 = some "Division by zero") ∧
      (evaluate ast none).2 ≠ some "Invalid AST node" ∧
      (evaluate ast none).2 ≠ some "Invalid operator" ∧
      (evaluate ast none).2 ≠ some "Unknown node type" := by
  have hs := (parse_result_wellformed lexer error heap ast q h hast).wellShaped
  have he := evaluate_wellShaped ast hs
  refine ⟨hs, he, ?_, ?_, ?_⟩ <;> rcases he with e | e <;> rw [e] <;> decide

/-- C15 at `"1 / (2 - 2)"`: `parse` returns the tree, it has the shape, and `evaluate`
reports "Division by zero". -/
theorem parse_result_shape_witness :
    parse (lexer_init (cstr "1 / (2 - 2)")) none [] =
      some (.binary_op .DIVIDE (.number (Double.ofNat 1))
          (.binary_op .MINUS (.number (Double.ofNat 2)) (.number (Double.ofNat 2))),
        ⟨⟨cstr "1 / (2 - 2)", 11⟩, Token.op .END, none, []⟩) ∧
    (evaluate (.binary_op .DIVIDE (.number (Double.ofNat 1))
      (.binary_op .MINUS (.number (Double.ofNat 2)) (.number (Double.ofNat 2)))) none).2 =
      some "Division by zero" ∧
    (.binary_op .DIVIDE (.number (Double.ofNat 1))
      (.binary_op .MINUS (.number (Double.ofNat 2)) (.number (Double.ofNat 2)))
      : ASTPtr).wellShaped = true :=
  ⟨by decide!, by decide!,
    (parse_result_shape (lexer_init (cstr "1 / (2 - 2)")) none [] _
      ⟨⟨cstr "1 / (2 - 2)", 11⟩, Token.op .END, none, []⟩ (by decide!) (by decide!)).1⟩

end MathInterp

namespace ArenaAllocator

/-! ## C16: arena exhaustion -/

/-- C16 fails where `offset + total_size` wraps, a sum that `arena_alloc_aligned` does not
test: with 64-bit `size_t`, on an arena of 100 bytes at address 4096 with 50 of them used, a
request of `2 ^ 64 - 50` bytes at alignment 1 has padding 0, `new_offset` wraps to 0, and
the call returns the address 4146 and sets the offset to 0, though 50 bytes remained; the
same with 32-bit `size_t` and `2 ^ 32 - 50` bytes. Where that sum stays below `2 ^ w`, a
block returned does lie in the space that remained. -/
theorem arena_alloc_aligned_offset_wraps :
    arena_alloc_aligned 64 (some ⟨4096, 100, 50⟩) (2 ^ 64 - 50) 1 =
        (4146, some ⟨4096, 100, 0⟩) ∧
      alignment_padding 64 ⟨4096, 100, 50⟩ 1 = 0 ∧
      ¬ (alignment_padding 64 ⟨4096, 100, 50⟩ 1 + (2 ^ 64 - 50) ≤ 100 - 50) ∧
      arena_alloc_aligned 32 (some ⟨4096, 100, 50⟩) (2 ^ 32 - 50) 1 =
        (4146, some ⟨4096, 100, 0⟩) ∧
      ∀ (w : Nat) (a : Arena) (size alignment : Nat),
        a.offset + (alignment_padding w a alignment + size) < 2 ^ w →
        (arena_alloc_aligned w (some a) size alignment).1 ≠ 0 →
        alignment_padding w a alignment + size ≤ a.size - a.offset :=
  ⟨by decide, by decide, by decide, by decide, arena_alloc_aligned_fits⟩

/-! ## C17: arena alignment -/

/-- C17: for an alignment that is a `size_t` value, `arena_alloc_aligned` returns NULL and
leaves the arena as it is when the alignment is not a power of two (0 is none); an address
it returns is a multiple of the alignment and is not below the address `memory + offset`
before the call; and `arena_alloc` is `arena_alloc_aligned` at the alignment
`sizeof(void *)`. -/
theorem arena_alloc_aligned_alignment (w : Nat) (arena : Option Arena) (size alignment : Nat)
    (halign : alignment < 2 ^ w) :
    ((¬ ∃ k, alignment = 2 ^ k) → arena_alloc_aligned w arena size alignment = (0, arena)) ∧
      (∀ a, arena = some a → (arena_alloc_aligned w arena size alignment).1 ≠ 0 →
        alignment ∣ (arena_alloc_aligned w arena size alignment).1 ∧
        (a.memory + a.offset) % 2 ^ w ≤ (arena_alloc_aligned w arena size alignment).1 ∧
        (a.memory + a.offset < 2 ^ w →
          a.memory + a.offset ≤ (arena_alloc_aligned w arena size alignment).1)) ∧
      arena_alloc w arena size = arena_alloc_aligned w arena size (DEFAULT_ALIGNMENT w) ∧
      DEFAULT_ALIGNMENT w = w / 8 := by
  refine ⟨fun hn => ?_, fun a ha hres => ?_, rfl, rfl⟩
  · cases arena with
    | none => rfl
    | some a =>
      rcases arena_alloc_aligned_cases w a size alignment with h | ⟨_, h2, _⟩
      · exact h
      · exact absurd ((IS_POWER_OF_TWO_iff w alignment halign).1 h2) hn
  · subst ha
    obtain ⟨_, h1, h2⟩ := arena_alloc_aligned_aligned w a size alignment halign hres
    refine ⟨h1, h2, fun hlt => ?_⟩
    have e : uadd w a.memory a.offset = a.memory + a.offset := Nat.mod_eq_of_lt hlt
    rw [← e]
    exact h2

/-- C17 on a 64-bit target, an arena at address 4096 with 3 bytes used: alignment 6 gives
NULL, and 8 bytes at alignment 8 are returned at 4104, a multiple of 8 not below 4099. -/
theorem arena_alloc_aligned_alignment_witness :
    arena_alloc_aligned 64 (some ⟨4096, 100, 3⟩) 8 6 = (0, some ⟨4096, 100, 3⟩) ∧
      arena_alloc_aligned 64 (some ⟨4096, 100, 3⟩) 8 8 = (4104, some ⟨4096, 100, 16⟩) ∧
      8 ∣ (arena_alloc_aligned 64 (some ⟨4096, 100, 3⟩) 8 8).1 ∧
      (4096 + 3) % 2 ^ 64 ≤ (arena_alloc_aligned 64 (some ⟨4096, 100, 3⟩) 8 8).1 :=
  ⟨(arena_alloc_aligned_alignment 64 (some ⟨4096, 100, 3⟩) 8 6 (by decide)).1
      (by
        rintro ⟨k, hk⟩
        have h3 : k < 3 := by
          by_contra hc
          have h8 : 8 ≤ 2 ^ k := Nat.pow_le_pow_right (by decide : 0 < 2) (Nat.not_lt.1 hc)
          omega
        interval_cases k <;> omega),
    by decide,
    ((arena_alloc_aligned_alignment 64 (some ⟨4096, 100, 3⟩) 8 8 (by decide)).2.1
      ⟨4096, 100, 3⟩ rfl (by decide)).1,
    ((arena_alloc_aligned_alignment 64 (some ⟨4096, 100, 3⟩) 8 8 (by decide)).2.1
      ⟨4096, 100, 3⟩ rfl (by decide)).2.1⟩

end ArenaAllocator

namespace MathInterp

/-! ## C18: the parser terminates -/

/-- C18. For every input, error slot and allocator `parse` returns, a tree or NULL; when
allocation succeeds, NULL comes with an error message. The parser procedures recurse on a
fuel argument: the measure `Parser.weight` of the unconsumed input bounds the calls they
make, so that with fuel `3 * weight + 3` `parse_expression` returns and does not increase
the measure, and any fuel that makes it return gives the same result. `parse` also returns
on `"."` and `"1 + ."`, where the lexer gives a `NUMBER` token without moving its cursor:
`main` reports "Unexpected token after expression". -/
theorem parse_terminates :
    (∀ (lexer : Lexer) (error : Option String) (heap : Heap),
      ∃ ast q, parse lexer error heap = some (ast, q)) ∧
    (∀ (lexer : Lexer) (error : Option String) (heap : Heap), AllocSucceeds heap →
      ∃ ast q, parse lexer error heap = some (ast, q) ∧
        ((ast.isNull = false ∧ q.error = error) ∨
          (ast = .null ∧ ∃ msg, q.error = some msg))) ∧
    (∀ (fuel : Nat) (p : Parser), 3 * p.weight + 3 ≤ fuel →
      ∃ n q, parse_expression fuel p = some (n, q) ∧ q.weight ≤ p.weight) ∧
    (∀ (f1 f2 : Nat) (p : Parser) (r : ASTPtr × Parser), f1 ≤ f2 →
      parse_expression f1 p = some r → parse_expression f2 p = some r) ∧
    main (cstr ".") [] = some (.parse_error (some "Unexpected token after expression")) ∧
    main (cstr "1 + .") [] =
      some (.parse_error (some "Unexpected token after expression")) ∧
    main (cstr "(.") [] = some (.parse_error (some "Expected ')'")) :=
  ⟨parse_total, parse_tree_or_error, fun fuel => (parse_fuel_enough fuel).2.2.2.2,
    fun _ _ p r hle h => parse_expression_fuel_le hle p r h,
    by decide!, by decide!, by decide!⟩

/-- C18 at `"1 + ."`: the first parser state has measure 4; with fuel 15, which is
`3 * 4 + 3`, and with fuel 100 `parse_expression` returns the same tree, the `NUMBER` token
of `.` being the lookahead it leaves (the lexer returns it again and again). -/
theorem parse_terminates_witness :
    (parse_start (lexer_init (cstr "1 + .")) none []).weight = 4 ∧
    parse_expression 15 (parse_start (lexer_init (cstr "1 + .")) none []) =
      some (.binary_op .PLUS (.number (Double.ofNat 1)) (.number (Double.zero false)),
        ⟨⟨cstr "1 + .", 4⟩, ⟨.NUMBER, Double.zero false⟩, none, []⟩) ∧
    parse_expression 100 (parse_start (lexer_init (cstr "1 + .")) none []) =
      some (.binary_op .PLUS (.number (Double.ofNat 1)) (.number (Double.zero false)),
        ⟨⟨cstr "1 + .", 4⟩, ⟨.NUMBER, Double.zero false⟩, none, []⟩) :=
  ⟨by decide!, by decide!,
    parse_terminates.2.2.2.1 15 100 _ _ (by decide) (by decide!)⟩

/-! ## C19: parsing a rendering gives the tree back -/

/-- C19. With `render (Number v) = [Number v]` and
`render (BinaryOp (op, l, r)) = [LParen] ++ render l ++ [op] ++ render r ++ [RParen]`: for
every tree `t` without NULL children whose operator tags are among `PLUS`, `MINUS`,
`MULTIPLY`, `DIVIDE`, on a lexer that yields the tokens of `render t` followed by `END`,
`parse` returns exactly `t` and leaves the error slot as it was (unset when it was unset),
when allocation succeeds. -/
theorem parse_render (t : ASTPtr) (lexer : Lexer) (error : Option String) (heap : Heap)
    (ht : t.wellShaped = true) (hy : LexYields lexer (render t ++ [Token.op .END]))
    (hh : AllocSucceeds heap) :
    ∃ q, parse lexer error heap = some (t, q) ∧ q.error = error := by
  have d : Derives .expression ((render t ++ []) ++ []) t :=
    .expression (.term (Derives.of_render t ht) .term_done) .expression_done
  exact parse_of_derives d lexer error heap (by simpa using hy) hh

/-- C19 at the tree of `1 + 2 * 3`, rendered as `( 1 + ( 2 * 3 ) )`: the lexer of
`"(1+(2*3))"` yields the rendering, and `parse` returns the tree with no error. -/
theorem parse_render_witness :
    render (.binary_op .PLUS (.number (Double.ofNat 1))
        (.binary_op .MULTIPLY (.number (Double.ofNat 2)) (.number (Double.ofNat 3)))) =
      [Token.op .LPAREN, Token.num (Double.ofNat 1), Token.op .PLUS, Token.op .LPAREN,
        Token.num (Double.ofNat 2), Token.op .MULTIPLY, Token.num (Double.ofNat 3),
        Token.op .RPAREN, Token.op .RPAREN] ∧
    LexYields (lexer_init (cstr "(1+(2*3))"))
      (render (.binary_op .PLUS (.number (Double.ofNat 1))
        (.binary_op .MULTIPLY (.number (Double.ofNat 2)) (.number (Double.ofNat 3)))) ++
        [Token.op .END]) ∧
    (∃ q, parse (lexer_init (cstr "(1+(2*3))")) none [] =
        some (.binary_op .PLUS (.number (Double.ofNat 1))
          (.binary_op .MULTIPLY (.number (Double.ofNat 2)) (.number (Double.ofNat 3))), q) ∧
      q.error = none) :=
  ⟨by decide!, by decide!,
    parse_render _ (lexer_init (cstr "(1+(2*3))")) none [] (by decide!) (by decide!)
      (by decide)⟩

end MathInterp

namespace ArenaAllocator

/-! ## C20: the state of the arena -/

/-- C20 fails in one part: a call can return NULL and change the offset. With 32-bit
`size_t`, on the arena of `arena_init` at address `0x80000010` of size `0x100`, after
`arena_alloc_aligned(0x20, 1)` the call `arena_alloc_aligned(0x80000010, 0x80000000)` aligns
the address up to `2 ^ 32`, which is 0 on 32 bits, `offset + total_size` wraps to 0, and the
call returns the address 0 with the offset changed from `0x20` to 0. The rest holds after
every sequence of calls: memory and size are those of `arena_init`, the offset is at most
the size, `arena_space_remaining` is their difference, `arena_reset` sets the offset to 0;
and where `memory + offset + alignment` does not pass `2 ^ w`, a call that returns NULL
leaves the arena as it is. -/
theorem arena_null_changes_offset :
    runCalls 32 (arena_init 0x80000010 0x100) [.alloc_aligned 0x20 1] =
        ⟨0x80000010, 0x100, 0x20⟩ ∧
      arena_alloc_aligned 32 (some ⟨0x80000010, 0x100, 0x20⟩) 0x80000010 0x80000000 =
        (0, some ⟨0x80000010, 0x100, 0⟩) ∧
      (∀ (w buffer size : Nat) (cs : List ArenaCall),
        (runCalls w (arena_init buffer size) cs).memory = buffer ∧
        (runCalls w (arena_init buffer size) cs).size = size ∧
        (runCalls w (arena_init buffer size) cs).offset ≤ size ∧
        arena_space_remaining (some (runCalls w (arena_init buffer size) cs)) =
          size - (runCalls w (arena_init buffer size) cs).offset ∧
        (runCalls w (arena_init buffer size) (cs ++ [.reset])).offset = 0) ∧
      ∀ (w : Nat) (a : Arena) (size alignment : Nat),
        a.memory + a.offset + alignment ≤ 2 ^ w →
        (arena_alloc_aligned w (some a) size alignment).1 = 0 →
        arena_alloc_aligned w (some a) size alignment = (0, some a) := by
  refine ⟨by decide, by decide, fun w buffer size cs => ?_, arena_alloc_aligned_null⟩
  obtain ⟨h1, h2, h3⟩ := runCalls_state w (arena_init buffer size) cs (Nat.zero_le _)
  have h1 : (runCalls w (arena_init buffer size) cs).memory = buffer := h1
  have h2 : (runCalls w (arena_init buffer size) cs).size = size := h2
  rw [h2] at h3
  refine ⟨h1, h2, h3, ?_, ?_⟩
  · unfold arena_space_remaining
    dsimp only
    rw [h2, if_neg (Nat.not_lt.2 h3)]
  · rw [runCalls_append]
    rfl

end ArenaAllocator
